import Mathlib

/-!
Verification of the stabilizer-chain construction subsystem of the
stabchain repository, shallowly embedded in Lean 4.

Permutations are modelled as bijections on the natural numbers with
bounded support (the repository's dense image-vector representation
fixes every point beyond the vector length).  The multiplication
convention is the repository's left-to-right composition:
(a * b)(x) = b(a(x)), as exercised by the test
test_apply_permutation_word in
src/group/stabchain/builder/random/random_ift.rs.

Transversals (Schreier trees) are modelled as association lists from
points to permutations, following the DetHashMap containers of the
source; HashMap insertion in the source only ever happens at keys that
are absent, so insertion is modelled as append-if-absent, which keeps
the key list duplicate-free.
-/

namespace StabchainSpec

/-- A permutation of the natural numbers with bounded support, the
shallow embedding of the repository's Permutation capability
(src/perm): a forward map, its inverse, and a bound beyond which every
point is fixed. -/
structure Perm where
  fwd : Nat → Nat
  bwd : Nat → Nat
  bound : Nat
  bwd_fwd : ∀ x, bwd (fwd x) = x
  fwd_bwd : ∀ x, fwd (bwd x) = x
  fwd_fix : ∀ x, bound ≤ x → fwd x = x

namespace Perm

/-- apply(p, x) under the natural action. -/
def apply (p : Perm) (x : Nat) : Nat := p.fwd x

/-- The identity permutation. -/
def id : Perm where
  fwd := fun x => x
  bwd := fun x => x
  bound := 0
  bwd_fwd := fun _ => rfl
  fwd_bwd := fun _ => rfl
  fwd_fix := fun _ _ => rfl

theorem bwd_fix (p : Perm) : ∀ x, p.bound ≤ x → p.bwd x = x := by
  intro x hx
  have h := p.fwd_fix x hx
  calc p.bwd x = p.bwd (p.fwd x) := by rw [h]
    _ = x := p.bwd_fwd x

/-- inv: swap the forward and backward maps. -/
def inv (p : Perm) : Perm where
  fwd := p.bwd
  bwd := p.fwd
  bound := p.bound
  bwd_fwd := p.fwd_bwd
  fwd_bwd := p.bwd_fwd
  fwd_fix := p.bwd_fix

/-- multiply, in the repository's left-to-right composition order:
(p.mul q).apply x = q.apply (p.apply x). -/
def mul (p q : Perm) : Perm where
  fwd := fun x => q.fwd (p.fwd x)
  bwd := fun x => p.bwd (q.bwd x)
  bound := max p.bound q.bound
  bwd_fwd := fun x => by simp [p.bwd_fwd, q.bwd_fwd]
  fwd_bwd := fun x => by simp [p.fwd_bwd, q.fwd_bwd]
  fwd_fix := fun x hx => by
    have h1 : p.bound ≤ x := le_trans (le_max_left _ _) hx
    have h2 : q.bound ≤ x := le_trans (le_max_right _ _) hx
    simp [p.fwd_fix x h1, q.fwd_fix x h2]

/-- divide(other) = self · other⁻¹. -/
def divide (p q : Perm) : Perm := p.mul q.inv

/-- Iterated multiplication by p (nonnegative powers). -/
def npow (p : Perm) : Nat → Perm
  | 0 => Perm.id
  | k + 1 => (npow p k).mul p

/-- pow(k) for signed k: nonnegative powers iterate multiplication,
negative powers iterate the inverse; pow(0) = id, pow(-1) = inv. -/
def pow (p : Perm) (e : Int) : Perm :=
  if 0 ≤ e then npow p e.toNat else npow p.inv (-e).toNat

/-- is_id, decided on the support bound. -/
def isId (p : Perm) : Bool := (List.range p.bound).all fun x => p.fwd x == x

/-- Permutation equality as the repository's Eq instances decide it:
agreement of the forward maps (checked on the joint support bound). -/
def permEq (p q : Perm) : Bool :=
  (List.range (max p.bound q.bound)).all fun x => p.fwd x == q.fwd x

/-- lmp: the largest moved point, absent for the identity. -/
def lmp (p : Perm) : Option Nat :=
  (List.range p.bound).foldl
    (fun acc x => if p.fwd x ≠ x then some x else acc) none

theorem isId_iff (p : Perm) : p.isId = true ↔ ∀ x, p.fwd x = x := by
  constructor
  · intro h x
    by_cases hx : x < p.bound
    · have := List.all_eq_true.mp h x (List.mem_range.mpr hx)
      exact Nat.beq_eq_true_eq _ _ |>.mp this
    · exact p.fwd_fix x (Nat.le_of_not_lt hx)
  · intro h
    apply List.all_eq_true.mpr
    intro x _
    exact Nat.beq_eq_true_eq _ _ |>.mpr (h x)

theorem permEq_iff (p q : Perm) : p.permEq q = true ↔ ∀ x, p.fwd x = q.fwd x := by
  constructor
  · intro h x
    by_cases hx : x < max p.bound q.bound
    · have := List.all_eq_true.mp h x (List.mem_range.mpr hx)
      exact Nat.beq_eq_true_eq _ _ |>.mp this
    · have hx' := Nat.le_of_not_lt hx
      rw [p.fwd_fix x (le_trans (le_max_left _ _) hx'),
        q.fwd_fix x (le_trans (le_max_right _ _) hx')]
  · intro h
    apply List.all_eq_true.mpr
    intro x _
    exact Nat.beq_eq_true_eq _ _ |>.mpr (h x)

@[simp] theorem id_fwd (x : Nat) : Perm.id.fwd x = x := rfl

@[simp] theorem id_bwd (x : Nat) : Perm.id.bwd x = x := rfl

@[simp] theorem mul_fwd (p q : Perm) (x : Nat) : (p.mul q).fwd x = q.fwd (p.fwd x) := rfl

@[simp] theorem inv_fwd (p : Perm) (x : Nat) : p.inv.fwd x = p.bwd x := rfl

@[simp] theorem inv_bwd (p : Perm) (x : Nat) : p.inv.bwd x = p.fwd x := rfl

@[simp] theorem mul_bwd (p q : Perm) (x : Nat) : (p.mul q).bwd x = p.bwd (q.bwd x) := rfl

theorem fwd_inj (p : Perm) {x y : Nat} (h : p.fwd x = p.fwd y) : x = y := by
  have := congrArg p.bwd h
  rwa [p.bwd_fwd, p.bwd_fwd] at this

end Perm

/-- The swap of 0 and 1, a concrete witness permutation. -/
def swap01 : Perm where
  fwd := fun x => if x = 0 then 1 else if x = 1 then 0 else x
  bwd := fun x => if x = 0 then 1 else if x = 1 then 0 else x
  bound := 2
  bwd_fwd := by intro x; by_cases h0 : x = 0 <;> by_cases h1 : x = 1 <;> simp [h0, h1]
  fwd_bwd := by intro x; by_cases h0 : x = 0 <;> by_cases h1 : x = 1 <;> simp [h0, h1]
  fwd_fix := by
    intro x hx
    have h0 : x ≠ 0 := by omega
    have h1 : x ≠ 1 := by omega
    simp [h0, h1]

/-! ## Transversals as association lists -/

/-- A transversal (Schreier tree): point to stored-permutation map. -/
abbrev Transversal := List (Nat × Perm)

/-- Key lookup in an association list (the DetHashMap get). -/
def lookupT {β : Type} : List (Nat × β) → Nat → Option β
  | [], _ => none
  | (k, v) :: rest, x => if k = x then some v else lookupT rest x

/-- contains_key. -/
def containsT {β : Type} (t : List (Nat × β)) (x : Nat) : Bool := (lookupT t x).isSome

/-- The key list of a map. -/
def keysT {β : Type} (t : List (Nat × β)) : List Nat := t.map Prod.fst

/-- HashMap insertion as the source uses it: the source only inserts at
keys that are absent (entry().or_insert / checked insert), so insertion
appends when absent and leaves the map unchanged otherwise. -/
def insertT {β : Type} (t : List (Nat × β)) (k : Nat) (v : β) : List (Nat × β) :=
  if containsT t k then t else t ++ [(k, v)]

@[simp] theorem keysT_nil {β : Type} : keysT ([] : List (Nat × β)) = [] := rfl

@[simp] theorem keysT_cons {β : Type} (kv : Nat × β) (rest : List (Nat × β)) :
    keysT (kv :: rest) = kv.1 :: keysT rest := rfl

@[simp] theorem keysT_append {β : Type} (t t' : List (Nat × β)) :
    keysT (t ++ t') = keysT t ++ keysT t' := by
  simp [keysT]

theorem lookupT_mem {β : Type} {t : List (Nat × β)} {x : Nat} {v : β}
    (h : lookupT t x = some v) : x ∈ keysT t := by
  induction t with
  | nil => simp [lookupT] at h
  | cons kv rest ih =>
    by_cases hk : kv.1 = x
    · simp [hk]
    · simp only [lookupT, hk, if_false] at h
      exact List.mem_cons.mpr (Or.inr (ih h))

theorem lookupT_eq_none {β : Type} {t : List (Nat × β)} {x : Nat}
    (h : x ∉ keysT t) : lookupT t x = none := by
  induction t with
  | nil => rfl
  | cons kv rest ih =>
    rw [keysT_cons, List.mem_cons] at h
    push_neg at h
    simp only [lookupT, Ne.symm h.1, if_false]
    exact ih h.2

theorem mem_keysT_isSome {β : Type} {t : List (Nat × β)} {x : Nat}
    (h : x ∈ keysT t) : (lookupT t x).isSome := by
  induction t with
  | nil => simp at h
  | cons kv rest ih =>
    by_cases hk : kv.1 = x
    · simp [lookupT, hk]
    · rw [keysT_cons, List.mem_cons] at h
      rcases h with h | h
      · exact absurd h.symm hk
      · simp only [lookupT, hk, if_false]
        exact ih h

theorem containsT_iff_mem {β : Type} {t : List (Nat × β)} {x : Nat} :
    containsT t x = true ↔ x ∈ keysT t := by
  constructor
  · intro h
    rcases Option.isSome_iff_exists.mp h with ⟨v, hv⟩
    exact lookupT_mem hv
  · intro h
    exact mem_keysT_isSome h

/-- Appending entries does not change lookups at keys already present. -/
theorem lookupT_append_left {β : Type} {t t' : List (Nat × β)} {x : Nat}
    (h : x ∈ keysT t) : lookupT (t ++ t') x = lookupT t x := by
  induction t with
  | nil => simp at h
  | cons kv rest ih =>
    by_cases hk : kv.1 = x
    · simp [lookupT, hk]
    · rw [keysT_cons, List.mem_cons] at h
      rcases h with h | h
      · exact absurd h.symm hk
      · simp only [List.cons_append, lookupT, hk, if_false]
        exact ih h

theorem lookupT_append_right {β : Type} {t t' : List (Nat × β)} {x : Nat}
    (h : x ∉ keysT t) : lookupT (t ++ t') x = lookupT t' x := by
  induction t with
  | nil => simp
  | cons kv rest ih =>
    rw [keysT_cons, List.mem_cons] at h
    push_neg at h
    simp only [List.cons_append, lookupT, Ne.symm h.1, if_false]
    exact ih h.2

theorem insertT_lookup_stable {β : Type} {t : List (Nat × β)} {k x : Nat} {v : β}
    (h : x ∈ keysT t) : lookupT (insertT t k v) x = lookupT t x := by
  unfold insertT
  split
  · rfl
  · exact lookupT_append_left h

theorem keysT_insertT_sub {β : Type} {t : List (Nat × β)} {k : Nat} {v : β} :
    keysT t ⊆ keysT (insertT t k v) := by
  unfold insertT
  split
  · exact fun _ h => h
  · intro x hx
    simp only [keysT_append]
    exact List.mem_append_left _ hx

theorem not_containsT_iff {β : Type} {t : List (Nat × β)} {k : Nat} :
    containsT t k = false ↔ k ∉ keysT t := by
  constructor
  · intro h hmem
    have := containsT_iff_mem.mpr hmem
    rw [h] at this
    exact Bool.false_ne_true this
  · intro h
    cases hc : containsT t k
    · rfl
    · exact absurd (containsT_iff_mem.mp hc) h

theorem insertT_lookup_self {β : Type} {t : List (Nat × β)} {k : Nat} {v : β}
    (h : k ∉ keysT t) : lookupT (insertT t k v) k = some v := by
  unfold insertT
  rw [not_containsT_iff.mpr h]
  simp only [Bool.false_eq_true, if_false]
  rw [lookupT_append_right h]
  simp [lookupT]

theorem keysT_insertT_nodup {β : Type} {t : List (Nat × β)} {k : Nat} {v : β}
    (h : (keysT t).Nodup) : (keysT (insertT t k v)).Nodup := by
  unfold insertT
  split
  · exact h
  · rename_i hc
    have hk : k ∉ keysT t := by
      intro hmem
      exact hc (containsT_iff_mem.mpr hmem)
    simp only [keysT_append]
    refine List.Nodup.append h (by simp [keysT]) ?_
    intro a ha hb
    simp [keysT] at hb
    exact hk (hb ▸ ha)

/-! ## Permutation words (src/group/stabchain/builder/random/random_ift.rs) -/

/-- apply_permutation_word: fold the word over the point, applying each
permutation left to right (random_ift.rs lines 471-478, with the
natural action). -/
def applyPermutationWord (w : List Perm) (x : Nat) : Nat :=
  w.foldl (fun accum p => p.apply accum) x

/-- collapse_perm_word: fold the word into a single permutation by
multiplication, starting from the identity (random_ift.rs lines
480-487). -/
def collapsePermWord (w : List Perm) : Perm :=
  w.foldl (fun accum perm => accum.mul perm) Perm.id

theorem collapsePermWord_fwd_general (w : List Perm) (a : Perm) (x : Nat) :
    (w.foldl (fun accum perm => accum.mul perm) a).fwd x
      = applyPermutationWord w (a.fwd x) := by
  induction w generalizing a x with
  | nil => rfl
  | cons p rest ih =>
    simp only [List.foldl_cons, applyPermutationWord, ih]
    rfl

/-- The collapsed word acts exactly as the word applied point-wise. -/
theorem collapsePermWord_fwd (w : List Perm) (x : Nat) :
    (collapsePermWord w).fwd x = applyPermutationWord w x := by
  unfold collapsePermWord
  rw [collapsePermWord_fwd_general]
  rfl

/-- C10: for every word of permutations and every point, applying the
word point-wise left to right equals applying its collapsed product
under the natural action, and the empty word acts as the identity. -/
theorem c10_apply_word_eq_collapse (w : List Perm) (x : Nat) :
    applyPermutationWord w x = (collapsePermWord w).apply x
      ∧ applyPermutationWord [] x = x :=
  ⟨(collapsePermWord_fwd w x).symm, rfl⟩

/-! ## Schreier-tree walk and coset representatives

Modelled from the spec: representative_raw lives in
src/group/orbit/transversal/factored_transversal.rs, which is not under
src/; only its callers are.  Spec 4.2: the representative walks from
alpha back to beta along the tree, composing stored entries, and
returns u_alpha with u_alpha(beta) = alpha, or nothing if alpha is not
in the orbit.  The stored-entry convention is taken from the in-source
callers (ift.rs, cube.rs): the entry at a point is the inverse of the
generator that first reached it, so applying the stored entry to the
point steps toward the base. -/

/-- The walk from a point back to the base, collecting the stored
entries along the path.  Fuel bounds the path length; a well-formed
tree has paths no longer than its size. -/
def walkWord : Nat → Transversal → Nat → Nat → Option (List Perm)
  | 0, _, _, _ => none
  | fuel + 1, t, base, x =>
    if x = base then some []
    else
      match lookupT t x with
      | none => none
      | some g =>
        match walkWord fuel t base (g.fwd x) with
        | none => none
        | some w => some (g :: w)

/-- Modelled from the spec: representative_raw.  Walks back to the
base and returns the coset representative u with u(base) = point. -/
def representativeRaw (t : Transversal) (base point : Nat) : Option Perm :=
  match walkWord (t.length + 1) t base point with
  | none => none
  | some w => some (collapsePermWord w).inv

/-- Modelled from the spec: representative_raw_as_word, the word-valued
variant used by the randomized strategy (spec 4.2: an unfolded product
as an ordered sequence).  The word multiplies out to the same
representative as representative_raw. -/
def representativeRawAsWord (t : Transversal) (base point : Nat) :
    Option (List Perm) :=
  match walkWord (t.length + 1) t base point with
  | none => none
  | some w => some ((w.map Perm.inv).reverse)

theorem walkWord_base {fuel : Nat} {t : Transversal} {base : Nat} :
    walkWord (fuel + 1) t base base = some [] := by
  simp [walkWord]

theorem walkWord_step {fuel : Nat} {t : Transversal} {base x : Nat}
    {g : Perm} {w0 : List Perm} (hx : x ≠ base) (hl : lookupT t x = some g)
    (hw : walkWord fuel t base (g.fwd x) = some w0) :
    walkWord (fuel + 1) t base x = some (g :: w0) := by
  simp [walkWord, hx, hl, hw]

/-- Case analysis on one successful walk step. -/
theorem walkWord_elim {fuel : Nat} {t : Transversal} {base x : Nat}
    {w : List Perm} (h : walkWord (fuel + 1) t base x = some w) :
    (x = base ∧ w = []) ∨
      (x ≠ base ∧ ∃ g w0, lookupT t x = some g ∧
        walkWord fuel t base (g.fwd x) = some w0 ∧ w = g :: w0) := by
  by_cases hx : x = base
  · left
    refine ⟨hx, ?_⟩
    rw [hx] at h
    rw [walkWord_base] at h
    exact (Option.some.injEq _ _ ▸ h).symm
  · right
    refine ⟨hx, ?_⟩
    simp only [walkWord, hx, if_false] at h
    cases hl : lookupT t x with
    | none => simp [hl] at h
    | some g =>
      simp only [hl] at h
      cases hw : walkWord fuel t base (g.fwd x) with
      | none => simp [hw] at h
      | some w0 =>
        simp only [hw] at h
        exact ⟨g, w0, rfl, hw, by simpa using h.symm⟩

theorem walkWord_fuel_mono {fuel fuel' : Nat} {t : Transversal}
    {base x : Nat} {w : List Perm}
    (hle : fuel ≤ fuel') (h : walkWord fuel t base x = some w) :
    walkWord fuel' t base x = some w := by
  induction fuel generalizing fuel' x w with
  | zero => simp [walkWord] at h
  | succ f ih =>
    obtain ⟨f', rfl⟩ : ∃ f', fuel' = f' + 1 := ⟨fuel' - 1, by omega⟩
    rcases walkWord_elim h with ⟨hx, rfl⟩ | ⟨hx, g, w0, hl, hw, rfl⟩
    · rw [hx]
      exact walkWord_base
    · exact walkWord_step hx hl (ih (by omega) hw)

/-- Applying the walk word to the start point lands on the base. -/
theorem walkWord_apply {fuel : Nat} {t : Transversal} {base x : Nat}
    {w : List Perm} (h : walkWord fuel t base x = some w) :
    applyPermutationWord w x = base := by
  induction fuel generalizing x w with
  | zero => simp [walkWord] at h
  | succ f ih =>
    rcases walkWord_elim h with ⟨hx, rfl⟩ | ⟨hx, g, w0, hl, hw, rfl⟩
    · simpa [applyPermutationWord] using hx
    · simpa [applyPermutationWord, Perm.apply] using ih hw

/-- Every entry of the walk word is a stored entry of the tree. -/
theorem walkWord_entries {fuel : Nat} {t : Transversal} {base x : Nat}
    {w : List Perm} (h : walkWord fuel t base x = some w) :
    ∀ g ∈ w, ∃ k, lookupT t k = some g := by
  induction fuel generalizing x w with
  | zero => simp [walkWord] at h
  | succ f ih =>
    rcases walkWord_elim h with ⟨hx, rfl⟩ | ⟨hx, g, w0, hl, hw, rfl⟩
    · intro g hg
      simp at hg
    · intro g' hg'
      rcases List.mem_cons.mp hg' with h' | h'
      · exact ⟨x, h' ▸ hl⟩
      · exact ih hw g' h'

/-- The representative maps the base to the point it stands for. -/
theorem representativeRaw_fwd_base {t : Transversal} {base x : Nat}
    {u : Perm} (h : representativeRaw t base x = some u) :
    u.fwd base = x := by
  unfold representativeRaw at h
  cases hw : walkWord (t.length + 1) t base x with
  | none => rw [hw] at h; exact absurd h (by simp)
  | some w =>
    rw [hw] at h
    cases h
    have happ : (collapsePermWord w).fwd x = base := by
      rw [collapsePermWord_fwd]
      exact walkWord_apply hw
    show (collapsePermWord w).bwd base = x
    calc (collapsePermWord w).bwd base
        = (collapsePermWord w).bwd ((collapsePermWord w).fwd x) := by rw [happ]
      _ = x := (collapsePermWord w).bwd_fwd x

/-! ## BasedPermutation (src/perm/impls/based.rs) -/

/-- A permutation stored as an offset base together with an underlying
standard permutation acting on the shifted points (based.rs lines
4-8).  The underlying StandardPermutation is modelled by Perm. -/
structure BasedPerm where
  base : Nat
  perm : Perm

namespace BasedPerm

/-- is_id delegates to the underlying permutation (based.rs 47-49). -/
def isIdB (p : BasedPerm) : Bool := p.perm.isId

/-- apply (based.rs 51-57): points below the base are fixed; others
act through the underlying permutation, shifted. -/
def applyB (p : BasedPerm) (x : Nat) : Nat :=
  if x < p.base then x else p.perm.fwd (x - p.base) + p.base

/-- shift(k) (based.rs 36-45): the identity is returned unchanged,
otherwise the base is advanced by k. -/
def shiftB (p : BasedPerm) (k : Nat) : BasedPerm :=
  if p.isIdB then p else { base := p.base + k, perm := p.perm }

end BasedPerm

/-- C9: shift commutes with apply: for y at least k the shifted
permutation acts as the original at y-k, translated by k; points below
k are fixed by the shifted permutation. -/
theorem c9_shift_apply (p : BasedPerm) (k y : Nat) :
    (k ≤ y → (p.shiftB k).applyB y = p.applyB (y - k) + k) ∧
      (y < k → (p.shiftB k).applyB y = y) := by
  by_cases hid : p.isIdB
  · have hfwd : ∀ x, p.perm.fwd x = x := (Perm.isId_iff p.perm).mp hid
    have happ : ∀ x, p.applyB x = x := by
      intro x
      unfold BasedPerm.applyB
      split
      · rfl
      · rename_i hx
        rw [hfwd]
        omega
    constructor
    · intro hk
      rw [BasedPerm.shiftB, if_pos hid, happ, happ]
      omega
    · intro hk
      rw [BasedPerm.shiftB, if_pos hid, happ]
  · have hsh : p.shiftB k = { base := p.base + k, perm := p.perm } := by
      rw [BasedPerm.shiftB, if_neg hid]
    constructor
    · intro hk
      rw [hsh]
      show (if y < p.base + k then y else p.perm.fwd (y - (p.base + k)) + (p.base + k))
        = p.applyB (y - k) + k
      unfold BasedPerm.applyB
      by_cases hy : y < p.base + k
      · rw [if_pos hy, if_pos (by omega)]
        omega
      · rw [if_neg hy, if_neg (by omega)]
        have harg : y - (p.base + k) = y - k - p.base := by omega
        rw [harg]
        omega
    · intro hk
      rw [hsh]
      show (if y < p.base + k then y else p.perm.fwd (y - (p.base + k)) + (p.base + k)) = y
      rw [if_pos (by omega)]

/-- A concrete based permutation for the C9 witness. -/
def basedW : BasedPerm := { base := 1, perm := swap01 }

/-- C9 witness: the shift law evaluated at a concrete permutation,
shift amount and points on both sides of the threshold. -/
theorem c9_shift_apply_witness :
    ((basedW.shiftB 2).applyB 5 = basedW.applyB 3 + 2) ∧
      ((basedW.shiftB 7).applyB 5 = 5) :=
  ⟨(c9_shift_apply basedW 2 5).1 (by decide),
    (c9_shift_apply basedW 7 5).2 (by decide)⟩

/-! ## CyclePermutation::from_vec (src/perm/export/cycles.rs) -/

/-- from_vec (cycles.rs lines 33-55): check that every listed element
is positive; take the maximal element; when it is zero accept at once;
otherwise count occurrences and check every element occurs at most
once.  Panics are modelled as none. -/
def cycleFromVec (cycles : List (List Nat)) : Option (List (List Nat)) :=
  if (cycles.flatten).all (fun i => decide (0 < i)) then
    if (cycles.flatten).foldl max 0 = 0 then some cycles
    else if (cycles.flatten).all (fun i => decide ((cycles.flatten).count i ≤ 1)) then
      some cycles
    else none
  else none

theorem foldl_max_init_le (l : List Nat) (a : Nat) : a ≤ l.foldl max a := by
  induction l generalizing a with
  | nil => exact le_refl a
  | cons b rest ih => exact le_trans (le_max_left a b) (ih (max a b))

theorem foldl_max_le_of_mem {l : List Nat} {a x : Nat} (h : x ∈ l) :
    x ≤ l.foldl max a := by
  induction l generalizing a with
  | nil => simp at h
  | cons b rest ih =>
    rcases List.mem_cons.mp h with rfl | h
    · exact le_trans (le_max_right a x) (foldl_max_init_le rest (max a x))
    · exact ih h

/-- C8: construction fails exactly when some listed element is zero or
some element occurs more than once across the cycles; otherwise it
succeeds. -/
theorem c8_from_vec_fails_iff (cycles : List (List Nat)) :
    cycleFromVec cycles = none ↔
      ((∃ x ∈ cycles.flatten, x = 0) ∨ (∃ x, 2 ≤ (cycles.flatten).count x)) := by
  unfold cycleFromVec
  by_cases hpos : (cycles.flatten).all (fun i => decide (0 < i))
  · have hnozero : ¬ ∃ x ∈ cycles.flatten, x = 0 := by
      rintro ⟨x, hx, rfl⟩
      have := List.all_eq_true.mp hpos 0 hx
      simp at this
    rw [if_pos hpos]
    by_cases hn : (cycles.flatten).foldl max 0 = 0
    · have hempty : cycles.flatten = [] := by
        cases hj : cycles.flatten with
        | nil => rfl
        | cons b rest =>
          exfalso
          have hb : b ∈ cycles.flatten := by rw [hj]; exact List.mem_cons_self _ _
          have hble := foldl_max_le_of_mem (a := 0) hb
          have hbpos : 0 < b := by
            have := List.all_eq_true.mp hpos b hb
            simpa using this
          omega
      rw [if_pos hn]
      constructor
      · intro h
        exact absurd h (by simp)
      · rintro (h | ⟨x, hx⟩)
        · exact absurd h hnozero
        · exfalso
          rw [hempty] at hx
          simp at hx
    · rw [if_neg hn]
      by_cases hdup : (cycles.flatten).all (fun i => decide ((cycles.flatten).count i ≤ 1))
      · rw [if_pos hdup]
        constructor
        · intro h
          exact absurd h (by simp)
        · rintro (h | ⟨x, hx⟩)
          · exact absurd h hnozero
          · exfalso
            have hmem : x ∈ cycles.flatten := by
              rw [← List.count_pos_iff]
              omega
            have := List.all_eq_true.mp hdup x hmem
            simp at this
            omega
      · rw [if_neg hdup]
        constructor
        · intro _
          right
          rw [List.all_eq_true] at hdup
          push_neg at hdup
          rcases hdup with ⟨x, hxmem, hxc⟩
          refine ⟨x, ?_⟩
          simp at hxc
          omega
        · intro _
          rfl
  · rw [if_neg hpos]
    constructor
    · intro _
      left
      rw [List.all_eq_true] at hpos
      push_neg at hpos
      rcases hpos with ⟨x, hxmem, hxc⟩
      refine ⟨x, hxmem, ?_⟩
      simp at hxc
      omega
    · intro _
      rfl

/-! ## The shallow-transversal cube
(src/group/orbit/transversal/shallow_transversal/cube.rs) -/

/-- Set insertion for the DetHashSet temp set of Cube::new. -/
def insertS (s : List Nat) (x : Nat) : List Nat :=
  if x ∈ s then s else s ++ [x]

theorem mem_insertS {s : List Nat} {x y : Nat} :
    y ∈ insertS s x ↔ y ∈ s ∨ y = x := by
  unfold insertS
  split
  · rename_i hc
    constructor
    · exact Or.inl
    · rintro (h | rfl)
      · exact h
      · exact hc
  · simp [List.mem_append]

/-- Cube state: the orbit map (point to the full generator that first
reached it), the per-point depth map, and the stack of cube layers
(most recent first; the source pushes onto a Vec and reads last()). -/
structure CubeSt where
  orbit : List (Nat × Perm)
  depth : List (Nat × Nat)
  cubes : List (List Nat)

/-- One element step of the inner loop of Cube::new (lines 36-53):
apply the generator and its inverse to a previous-layer point, record
newly reached points with the full generator inverse (resp. the
generator) and depth one more than the source point.  The source's
depth.get(j).unwrap() is modelled with a default that is proved
unreachable (the previous layer is always in the depth map). -/
def cubeStep (p : Perm) (acc : List (Nat × Perm) × List (Nat × Nat) × List Nat)
    (j : Nat) : List (Nat × Perm) × List (Nat × Nat) × List Nat :=
  let (orbit, depth, temp) := acc
  let val := p.fwd j
  let orbit2 := if containsT orbit val then orbit
    else orbit ++ [(val, p.inv)]
  let depth2 := if containsT orbit val then depth
    else depth ++ [(val, (lookupT depth j).getD 0 + 1)]
  let temp2 := insertS temp val
  let val2 := p.bwd j
  let orbit3 := if containsT orbit2 val2 then orbit2
    else orbit2 ++ [(val2, p)]
  let depth3 := if containsT orbit2 val2 then depth2
    else depth2 ++ [(val2, (lookupT depth2 j).getD 0 + 1)]
  let temp3 := insertS temp2 val2
  (orbit3, depth3, temp3)

/-- One round of Cube::new for one generator of the sequence: fold the
step over the previous layer, then extend the new layer with the
previous one and push it. -/
def cubeRound (p : Perm) (st : CubeSt) : CubeSt :=
  let prev := st.cubes.headD []
  let res := prev.foldl (cubeStep p) (st.orbit, st.depth, [])
  let temp2 := prev.foldl insertS res.2.2
  { orbit := res.1, depth := res.2.1, cubes := temp2 :: st.cubes }

/-- The generator loop of Cube::new with the early exit once the orbit
reaches the expected size (lines 33-61). -/
def cubeRun : List Perm → CubeSt → Option Nat → CubeSt
  | [], st, _ => st
  | p :: rest, st, osize =>
    let st' := cubeRound p st
    if osize = some st'.orbit.length then st'
    else cubeRun rest st' osize

/-- Cube::new (lines 26-67): seed the orbit with the base mapped to the
identity at depth 0, then run the rounds. -/
def cubeNew (base : Nat) (seq : List Perm) (osize : Option Nat) : CubeSt :=
  cubeRun seq
    { orbit := [(base, Perm.id)], depth := [(base, 0)], cubes := [[base]] }
    osize

/-- The invariant carried across cube rounds: orbit and depth have the
same keys, without duplicates; the base has depth 0; every recorded
depth is at most the number of processed rounds; the current layer is
inside the orbit. -/
def CubeInv (base : Nat) (i : Nat) (st : CubeSt) : Prop :=
  (∀ α, α ∈ keysT st.orbit ↔ α ∈ keysT st.depth) ∧
    (keysT st.orbit).Nodup ∧ (keysT st.depth).Nodup ∧
    lookupT st.depth base = some 0 ∧
    (∀ α d, lookupT st.depth α = some d → d ≤ i) ∧
    (∀ j ∈ st.cubes.headD [], j ∈ keysT st.orbit)

theorem lookupT_append_stable {β : Type} {t t' : List (Nat × β)} {x : Nat}
    {v : β} (h : lookupT t x = some v) : lookupT (t ++ t') x = some v := by
  rw [lookupT_append_left (lookupT_mem h)]
  exact h

/-- The effect of the inner fold of one cube round: key sets stay
synchronized and duplicate-free, depth entries are stable, new depth
entries are bounded by i + 1 whenever all source points carry depth at
most i, and the temp set stays inside the orbit keys. -/
theorem cubeStep_fold_inv (p : Perm) (base i : Nat)
    (js : List Nat) :
    ∀ (orbit : List (Nat × Perm)) (depth : List (Nat × Nat)) (temp : List Nat),
    (∀ α, α ∈ keysT orbit ↔ α ∈ keysT depth) →
    (keysT orbit).Nodup → (keysT depth).Nodup →
    lookupT depth base = some 0 →
    (∀ α d, lookupT depth α = some d → d ≤ i + 1) →
    (∀ j ∈ js, ∃ d, lookupT depth j = some d ∧ d ≤ i) →
    (∀ x ∈ temp, x ∈ keysT orbit) →
    (let res := js.foldl (cubeStep p) (orbit, depth, temp)
     (∀ α, α ∈ keysT res.1 ↔ α ∈ keysT res.2.1) ∧
       (keysT res.1).Nodup ∧ (keysT res.2.1).Nodup ∧
       lookupT res.2.1 base = some 0 ∧
       (∀ α d, lookupT res.2.1 α = some d → d ≤ i + 1) ∧
       (∀ α d, lookupT depth α = some d → lookupT res.2.1 α = some d) ∧
       (∀ α, α ∈ keysT orbit → α ∈ keysT res.1) ∧
       (∀ x ∈ res.2.2, x ∈ keysT res.1)) := by
  induction js with
  | nil =>
    intro orbit depth temp hsync hnodupO hnodupD hbase hbound _ htemp
    exact ⟨hsync, hnodupO, hnodupD, hbase, hbound,
      fun α d h => h, fun α h => h, htemp⟩
  | cons j rest ih =>
    intro orbit depth temp hsync hnodupO hnodupD hbase hbound hjs htemp
    rcases hjs j (List.mem_cons_self _ _) with ⟨dj, hdj, hdjle⟩
    -- unfold one step
    simp only [List.foldl_cons]
    -- names for the intermediate maps of cubeStep
    set val := p.fwd j with hval
    set orbit2 := if containsT orbit val then orbit else orbit ++ [(val, p.inv)] with horbit2
    set depth2 := if containsT orbit val then depth
      else depth ++ [(val, (lookupT depth j).getD 0 + 1)] with hdepth2
    set val2 := p.bwd j with hval2
    set orbit3 := if containsT orbit2 val2 then orbit2 else orbit2 ++ [(val2, p)] with horbit3
    set depth3 := if containsT orbit2 val2 then depth2
      else depth2 ++ [(val2, (lookupT depth2 j).getD 0 + 1)] with hdepth3
    have hstep : cubeStep p (orbit, depth, temp) j
        = (orbit3, depth3, insertS (insertS temp val) val2) := by
      simp only [cubeStep, horbit2, hdepth2, horbit3, hdepth3]
    rw [hstep]
    -- properties of the first half-step
    have h2sync : ∀ α, α ∈ keysT orbit2 ↔ α ∈ keysT depth2 := by
      intro α
      rw [horbit2, hdepth2]
      by_cases hc : containsT orbit val
      · simp only [hc, if_true]
        exact hsync α
      · simp only [hc, Bool.false_eq_true, if_false, keysT_append]
        simp only [List.mem_append]
        constructor
        · rintro (h | h)
          · exact Or.inl ((hsync α).mp h)
          · simp [keysT] at h
            exact Or.inr (by simp [keysT, h])
        · rintro (h | h)
          · exact Or.inl ((hsync α).mpr h)
          · simp [keysT] at h
            exact Or.inr (by simp [keysT, h])
    have hvalO2 : val ∈ keysT orbit2 := by
      rw [horbit2]
      by_cases hc : containsT orbit val
      · simp only [hc, if_true]
        exact containsT_iff_mem.mp hc
      · simp [hc, keysT]
    have h2nodupO : (keysT orbit2).Nodup := by
      rw [horbit2]
      by_cases hc : containsT orbit val
      · simpa [hc] using hnodupO
      · simp only [hc, Bool.false_eq_true, if_false, keysT_append]
        refine List.Nodup.append hnodupO (by simp [keysT]) ?_
        intro a ha hb
        simp [keysT] at hb
        subst hb
        exact (not_containsT_iff.mp (by simpa using hc)) ha
    have h2nodupD : (keysT depth2).Nodup := by
      rw [hdepth2]
      by_cases hc : containsT orbit val
      · simpa [hc] using hnodupD
      · simp only [hc, Bool.false_eq_true, if_false, keysT_append]
        refine List.Nodup.append hnodupD (by simp [keysT]) ?_
        intro a ha hb
        simp [keysT] at hb
        subst hb
        exact (not_containsT_iff.mp (by simpa using hc)) ((hsync val).mpr ha)
    have h2stable : ∀ α d, lookupT depth α = some d → lookupT depth2 α = some d := by
      intro α d h
      rw [hdepth2]
      by_cases hc : containsT orbit val
      · simpa [hc] using h
      · simp only [hc, Bool.false_eq_true, if_false]
        exact lookupT_append_stable h
    have h2bound : ∀ α d, lookupT depth2 α = some d → d ≤ i + 1 := by
      intro α d h
      rw [hdepth2] at h
      by_cases hc : containsT orbit val
      · rw [if_pos hc] at h
        exact hbound α d h
      · rw [if_neg (by simp [hc])] at h
        by_cases hα : α ∈ keysT depth
        · rw [lookupT_append_left hα] at h
          exact hbound α d h
        · rw [lookupT_append_right hα] at h
          simp only [lookupT] at h
          by_cases he : val = α
          · rw [if_pos he] at h
            have := Option.some.injEq _ _ ▸ h
            rw [hdj] at this
            simp at this
            omega
          · rw [if_neg he] at h
            exact absurd h (by simp)
    have h2base : lookupT depth2 base = some 0 := h2stable base 0 hbase
    have hj2 : lookupT depth2 j = some dj := h2stable j dj hdj
    -- properties of the second half-step
    have h3sync : ∀ α, α ∈ keysT orbit3 ↔ α ∈ keysT depth3 := by
      intro α
      rw [horbit3, hdepth3]
      by_cases hc : containsT orbit2 val2
      · simp only [hc, if_true]
        exact h2sync α
      · simp only [hc, Bool.false_eq_true, if_false, keysT_append]
        simp only [List.mem_append]
        constructor
        · rintro (h | h)
          · exact Or.inl ((h2sync α).mp h)
          · simp [keysT] at h
            exact Or.inr (by simp [keysT, h])
        · rintro (h | h)
          · exact Or.inl ((h2sync α).mpr h)
          · simp [keysT] at h
            exact Or.inr (by simp [keysT, h])
    have h3nodupO : (keysT orbit3).Nodup := by
      rw [horbit3]
      by_cases hc : containsT orbit2 val2
      · simpa [hc] using h2nodupO
      · simp only [hc, Bool.false_eq_true, if_false, keysT_append]
        refine List.Nodup.append h2nodupO (by simp [keysT]) ?_
        intro a ha hb
        simp [keysT] at hb
        subst hb
        exact (not_containsT_iff.mp (by simpa using hc)) ha
    have h3nodupD : (keysT depth3).Nodup := by
      rw [hdepth3]
      by_cases hc : containsT orbit2 val2
      · simpa [hc] using h2nodupD
      · simp only [hc, Bool.false_eq_true, if_false, keysT_append]
        refine List.Nodup.append h2nodupD (by simp [keysT]) ?_
        intro a ha hb
        simp [keysT] at hb
        subst hb
        exact (not_containsT_iff.mp (by simpa using hc)) ((h2sync val2).mpr ha)
    have h3stable : ∀ α d, lookupT depth2 α = some d → lookupT depth3 α = some d := by
      intro α d h
      rw [hdepth3]
      by_cases hc : containsT orbit2 val2
      · simpa [hc] using h
      · simp only [hc, Bool.false_eq_true, if_false]
        exact lookupT_append_stable h
    have h3bound : ∀ α d, lookupT depth3 α = some d → d ≤ i + 1 := by
      intro α d h
      rw [hdepth3] at h
      by_cases hc : containsT orbit2 val2
      · rw [if_pos hc] at h
        exact h2bound α d h
      · rw [if_neg (by simp [hc])] at h
        by_cases hα : α ∈ keysT depth2
        · rw [lookupT_append_left hα] at h
          exact h2bound α d h
        · rw [lookupT_append_right hα] at h
          simp only [lookupT] at h
          by_cases he : val2 = α
          · rw [if_pos he] at h
            have := Option.some.injEq _ _ ▸ h
            rw [hj2] at this
            simp at this
            omega
          · rw [if_neg he] at h
            exact absurd h (by simp)
    have h3base : lookupT depth3 base = some 0 := h3stable base 0 h2base
    have h3grow : ∀ α, α ∈ keysT orbit → α ∈ keysT orbit3 := by
      intro α h
      have h2 : α ∈ keysT orbit2 := by
        rw [horbit2]
        by_cases hc : containsT orbit val
        · simpa [hc] using h
        · simp only [hc, Bool.false_eq_true, if_false, keysT_append]
          exact List.mem_append_left _ h
      rw [horbit3]
      by_cases hc : containsT orbit2 val2
      · simpa [hc] using h2
      · simp only [hc, Bool.false_eq_true, if_false, keysT_append]
        exact List.mem_append_left _ h2
    have hval2O3 : val2 ∈ keysT orbit3 := by
      rw [horbit3]
      by_cases hc : containsT orbit2 val2
      · simp only [hc, if_true]
        exact containsT_iff_mem.mp hc
      · simp [hc, keysT]
    have hvalO3 : val ∈ keysT orbit3 := by
      rw [horbit3]
      by_cases hc : containsT orbit2 val2
      · simpa [hc] using hvalO2
      · simp only [hc, Bool.false_eq_true, if_false, keysT_append]
        exact List.mem_append_left _ hvalO2
    have htemp3 : ∀ x ∈ insertS (insertS temp val) val2, x ∈ keysT orbit3 := by
      intro x hx
      rcases mem_insertS.mp hx with hx' | rfl
      · rcases mem_insertS.mp hx' with hx'' | rfl
        · exact h3grow x (htemp x hx'')
        · exact hvalO3
      · exact hval2O3
    -- recurse on the rest of the layer
    have hrest := ih orbit3 depth3 (insertS (insertS temp val) val2)
      h3sync h3nodupO h3nodupD h3base h3bound
      (fun j' hj' => by
        rcases hjs j' (List.mem_cons_of_mem _ hj') with ⟨d', hd', hd'le⟩
        exact ⟨d', h3stable _ _ (h2stable _ _ hd'), hd'le⟩)
      htemp3
    simp only at hrest
    refine ⟨hrest.1, hrest.2.1, hrest.2.2.1, hrest.2.2.2.1, hrest.2.2.2.2.1, ?_, ?_, hrest.2.2.2.2.2.2.2⟩
    · intro α d h
      exact hrest.2.2.2.2.2.1 α d (h3stable _ _ (h2stable _ _ h))
    · intro α h
      exact hrest.2.2.2.2.2.2.1 α (h3grow α h)

theorem CubeInv_mono {base a b : Nat} {st : CubeSt} (h : CubeInv base a st)
    (hab : a ≤ b) : CubeInv base b st := by
  obtain ⟨h1, h2, h3, h4, h5, h6⟩ := h
  exact ⟨h1, h2, h3, h4, fun α d hd => le_trans (h5 α d hd) hab, h6⟩

/-- One cube round preserves the invariant with the round count
advanced, leaves existing depth entries unchanged, and only grows the
orbit. -/
theorem cubeRound_inv {base i : Nat} {st : CubeSt} (p : Perm)
    (h : CubeInv base i st) :
    CubeInv base (i + 1) (cubeRound p st) ∧
      (∀ α d, lookupT st.depth α = some d →
        lookupT (cubeRound p st).depth α = some d) ∧
      (∀ α, α ∈ keysT st.orbit → α ∈ keysT (cubeRound p st).orbit) := by
  obtain ⟨hsync, hnodupO, hnodupD, hbase, hbound, hcube⟩ := h
  have hjs : ∀ j ∈ st.cubes.headD [], ∃ d, lookupT st.depth j = some d ∧ d ≤ i := by
    intro j hj
    have hjd : j ∈ keysT st.depth := (hsync j).mp (hcube j hj)
    rcases Option.isSome_iff_exists.mp (mem_keysT_isSome hjd) with ⟨d, hd⟩
    exact ⟨d, hd, hbound j d hd⟩
  have hfold := cubeStep_fold_inv p base i (st.cubes.headD []) st.orbit st.depth []
    hsync hnodupO hnodupD hbase
    (fun α d hd => le_trans (hbound α d hd) (Nat.le_succ i)) hjs
    (by intro x hx; simp at hx)
  simp only at hfold
  obtain ⟨f1, f2, f3, f4, f5, f6, f7, f8⟩ := hfold
  refine ⟨⟨f1, f2, f3, f4, f5, ?_⟩, ?_, ?_⟩
  · -- the new cube layer lies inside the new orbit keys
    intro j hj
    show j ∈ keysT ((st.cubes.headD []).foldl (cubeStep p) (st.orbit, st.depth, [])).1
    have hmem : ∀ (l : List Nat) (s : List Nat) (y : Nat),
        y ∈ l.foldl insertS s → y ∈ s ∨ y ∈ l := by
      intro l
      induction l with
      | nil =>
        intro s y hy
        exact Or.inl hy
      | cons a rest ih =>
        intro s y hy
        rcases ih _ _ hy with hy' | hy'
        · rcases mem_insertS.mp hy' with hy'' | rfl
          · exact Or.inl hy''
          · exact Or.inr (List.mem_cons_self _ _)
        · exact Or.inr (List.mem_cons_of_mem _ hy')
    rcases hmem _ _ _ hj with hj' | hj'
    · exact f8 j hj'
    · exact f7 j (hcube j hj')
  · exact f6
  · exact f7

/-- Running the cube rounds preserves the invariant (with the round
count advanced by the sequence length), keeps depth entries, and grows
the orbit. -/
theorem cubeRun_inv (base : Nat) (seq : List Perm) :
    ∀ (st : CubeSt) (i : Nat) (osize : Option Nat), CubeInv base i st →
    CubeInv base (i + seq.length) (cubeRun seq st osize) ∧
      (∀ α d, lookupT st.depth α = some d →
        lookupT (cubeRun seq st osize).depth α = some d) ∧
      (∀ α, α ∈ keysT st.orbit → α ∈ keysT (cubeRun seq st osize).orbit) := by
  induction seq with
  | nil =>
    intro st i osize h
    exact ⟨by simpa using h, fun α d hd => hd, fun α hα => hα⟩
  | cons p rest ih =>
    intro st i osize h
    have hround := cubeRound_inv p h
    show _ ∧ _ ∧ _
    unfold cubeRun
    by_cases hexit : osize = some (cubeRound p st).orbit.length
    · rw [if_pos hexit]
      refine ⟨CubeInv_mono hround.1 (by simp only [List.length_cons]; omega),
        hround.2.1, hround.2.2⟩
    · rw [if_neg hexit]
      have hrec := ih (cubeRound p st) (i + 1) osize hround.1
      refine ⟨CubeInv_mono hrec.1 (by simp only [List.length_cons]; omega), ?_, ?_⟩
      · intro α d hd
        exact hrec.2.1 α d (hround.2.1 α d hd)
      · intro α hα
        exact hrec.2.2 α (hround.2.2 α hα)

/-- Points reached after processing the first i generators keep a
recorded depth of at most i0 + i in the full run. -/
theorem cubeRun_prefix_depth (base : Nat) (seq : List Perm) :
    ∀ (st : CubeSt) (i0 : Nat) (osize : Option Nat), CubeInv base i0 st →
    ∀ (i : Nat) (α : Nat), α ∈ keysT (cubeRun (seq.take i) st osize).orbit →
      ∃ d, lookupT (cubeRun seq st osize).depth α = some d ∧ d ≤ i0 + i := by
  induction seq with
  | nil =>
    intro st i0 osize h i α hα
    simp only [List.take_nil, cubeRun] at hα ⊢
    obtain ⟨hsync, _, _, _, hbound, _⟩ := h
    rcases Option.isSome_iff_exists.mp (mem_keysT_isSome ((hsync α).mp hα)) with ⟨d, hd⟩
    exact ⟨d, hd, le_trans (hbound α d hd) (Nat.le_add_right _ _)⟩
  | cons p rest ih =>
    intro st i0 osize h i α hα
    cases i with
    | zero =>
      simp only [List.take_zero, cubeRun] at hα
      have hrun := cubeRun_inv base (p :: rest) st i0 osize h
      obtain ⟨hsync, _, _, _, hbound, _⟩ := h
      rcases Option.isSome_iff_exists.mp (mem_keysT_isSome ((hsync α).mp hα)) with ⟨d, hd⟩
      exact ⟨d, hrun.2.1 α d hd, by have := hbound α d hd; omega⟩
    | succ i' =>
      simp only [List.take_succ_cons] at hα
      have hround := cubeRound_inv p h
      by_cases hexit : osize = some (cubeRound p st).orbit.length
      · -- both the prefix run and the full run stop after this round
        unfold cubeRun at hα ⊢
        rw [if_pos hexit] at hα ⊢
        obtain ⟨hsync, _, _, _, hbound, _⟩ := hround.1
        rcases Option.isSome_iff_exists.mp (mem_keysT_isSome ((hsync α).mp hα)) with ⟨d, hd⟩
        exact ⟨d, hd, by have := hbound α d hd; omega⟩
      · unfold cubeRun at hα ⊢
        rw [if_neg hexit] at hα ⊢
        rcases ih (cubeRound p st) (i0 + 1) osize hround.1 i' α hα with ⟨d, hd, hdle⟩
        exact ⟨d, hd, by omega⟩

theorem cubeInit_inv (base : Nat) :
    CubeInv base 0
      { orbit := [(base, Perm.id)], depth := [(base, 0)], cubes := [[base]] } := by
  refine ⟨?_, ?_, ?_, ?_, ?_, ?_⟩
  · intro α
    simp [keysT]
  · simp [keysT]
  · simp [keysT]
  · simp [lookupT]
  · intro α d hd
    simp only [lookupT] at hd
    by_cases hb : base = α
    · rw [if_pos hb] at hd
      simp at hd
      omega
    · rw [if_neg hb] at hd
      exact absurd hd (by simp)
  · intro j hj
    simp at hj
    simp [keysT, hj]

/-- C6: in the structure returned by Cube::new the base has recorded
depth 0, every orbit point has a recorded depth, and every point
present after processing the first i generators (in particular every
point first reached while processing the i-th generator) has recorded
depth at most i. -/
theorem c6_cube_depth_bounds (base : Nat) (seq : List Perm) (osize : Option Nat) :
    lookupT (cubeNew base seq osize).depth base = some 0 ∧
      (∀ α, α ∈ keysT (cubeNew base seq osize).orbit →
        α ∈ keysT (cubeNew base seq osize).depth) ∧
      (∀ i α, α ∈ keysT (cubeNew base (seq.take i) osize).orbit →
        ∃ d, lookupT (cubeNew base seq osize).depth α = some d ∧ d ≤ i) := by
  have hinit := cubeInit_inv base
  have hrun := cubeRun_inv base seq _ 0 osize hinit
  refine ⟨?_, ?_, ?_⟩
  · exact hrun.1.2.2.2.1
  · intro α hα
    exact (hrun.1.1 α).mp hα
  · intro i α hα
    rcases cubeRun_prefix_depth base seq _ 0 osize hinit i α hα with ⟨d, hd, hdle⟩
    exact ⟨d, hd, by omega⟩

/-! ## The random element generator (src/group/random_perm.rs) -/

/-- Membership in the subgroup generated by a list of permutations. -/
inductive InClosure (gens : List Perm) : Perm → Prop
  | idc : InClosure gens Perm.id
  | genc {p : Perm} : p ∈ gens → InClosure gens p
  | mulc {p q : Perm} : InClosure gens p → InClosure gens q →
      InClosure gens (p.mul q)
  | invc {p : Perm} : InClosure gens p → InClosure gens p.inv

theorem InClosure.npow {gens : List Perm} {p : Perm}
    (h : InClosure gens p) : ∀ k, InClosure gens (p.npow k) := by
  intro k
  induction k with
  | zero => exact InClosure.idc
  | succ n ih => exact InClosure.mulc ih h

theorem InClosure.powc {gens : List Perm} {p : Perm}
    (h : InClosure gens p) (e : Int) : InClosure gens (p.pow e) := by
  unfold Perm.pow
  split
  · exact h.npow _
  · exact (InClosure.invc h).npow _

/-- Over the empty generator list, every closure element is the
identity map. -/
theorem InClosure.nil_fwd {p : Perm} (h : InClosure [] p) :
    ∀ x, p.fwd x = x := by
  induction h with
  | idc => intro x; rfl
  | genc hmem => simp at hmem
  | mulc _ _ ih1 ih2 =>
    intro x
    show _ = x
    rw [Perm.mul_fwd, ih1, ih2]
  | invc hp ih =>
    intro x
    rename_i q
    show q.bwd x = x
    calc q.bwd x = q.bwd (q.fwd x) := by rw [ih x]
      _ = x := q.bwd_fwd x

/-- RandPerm state (random_perm.rs lines 19-25): the slate of
permutations and the accumulator.  The rng is injected externally as an
explicit stream of choices. -/
structure RandPermSt where
  size : Nat
  gen_elements : List Perm
  accum : Perm

/-- One drawn choice for a product-replacement step: the two slate
indices (the source redraws t until it differs from s; the redraw loop
is absorbed into the choice), the exponent (plus or minus one) and the
side of the accumulation. -/
structure RpChoice where
  s : Nat
  t : Nat
  e : Int
  side : Bool

/-- random_permutation (random_perm.rs lines 68-87): replace a slate
entry with a product and accumulate, on the chosen side. -/
def randomPermutation (st : RandPermSt) (c : RpChoice) : RandPermSt × Perm :=
  if c.side then
    let newv := (st.gen_elements.getD c.s Perm.id).mul
      ((st.gen_elements.getD c.t Perm.id).pow c.e)
    let accum := st.accum.mul newv
    ({ st with gen_elements := st.gen_elements.set c.s newv, accum := accum },
      accum)
  else
    let newv := ((st.gen_elements.getD c.t Perm.id).pow c.e).mul
      (st.gen_elements.getD c.s Perm.id)
    let accum := newv.mul st.accum
    ({ st with gen_elements := st.gen_elements.set c.s newv, accum := accum },
      accum)

/-- RandPerm::new without the warm-up (random_perm.rs lines 33-51): the
slate starts as the generators (or the identity when there are none),
cyclically padded up to min_size; the accumulator starts as the
identity. -/
def randPermInit (min_size : Nat) (gens : List Perm) : RandPermSt :=
  let ge := if gens.isEmpty then [Perm.id] else gens
  let k := ge.length
  { size := max min_size k
    gen_elements :=
      ge ++ (List.range (min_size - k)).map (fun i => ge.getD (i % k) Perm.id)
    accum := Perm.id }

/-- A sequence of draws, collecting every returned permutation; the
warm-up of RandPerm::new is the prefix of initial_runs draws. -/
def randPermRun (st : RandPermSt) : List RpChoice → RandPermSt × List Perm
  | [] => (st, [])
  | c :: cs =>
    let step := randomPermutation st c
    let rest := randPermRun step.1 cs
    (rest.1, step.2 :: rest.2)

/-- The slate and accumulator stay inside the generated subgroup. -/
def SlateInv (gens : List Perm) (st : RandPermSt) : Prop :=
  (∀ q ∈ st.gen_elements, InClosure gens q) ∧ InClosure gens st.accum

theorem getD_closure {gens l : List Perm} (h : ∀ q ∈ l, InClosure gens q)
    (i : Nat) : InClosure gens (l.getD i Perm.id) := by
  by_cases hi : i < l.length
  · rw [List.getD_eq_getElem _ _ hi]
    exact h _ (List.getElem_mem hi)
  · rw [List.getD_eq_default _ _ (Nat.le_of_not_lt hi)]
    exact InClosure.idc

theorem randomPermutation_inv {gens : List Perm} {st : RandPermSt}
    (h : SlateInv gens st) (c : RpChoice) :
    SlateInv gens (randomPermutation st c).1 ∧
      InClosure gens (randomPermutation st c).2 := by
  obtain ⟨hslate, haccum⟩ := h
  unfold randomPermutation
  by_cases hside : c.side
  · rw [if_pos hside]
    have hnew : InClosure gens ((st.gen_elements.getD c.s Perm.id).mul
        ((st.gen_elements.getD c.t Perm.id).pow c.e)) :=
      InClosure.mulc (getD_closure hslate c.s)
        ((getD_closure hslate c.t).powc c.e)
    refine ⟨⟨?_, InClosure.mulc haccum hnew⟩, InClosure.mulc haccum hnew⟩
    intro q hq
    rcases List.mem_or_eq_of_mem_set hq with h' | rfl
    · exact hslate q h'
    · exact hnew
  · rw [if_neg hside]
    have hnew : InClosure gens (((st.gen_elements.getD c.t Perm.id).pow c.e).mul
        (st.gen_elements.getD c.s Perm.id)) :=
      InClosure.mulc ((getD_closure hslate c.t).powc c.e)
        (getD_closure hslate c.s)
    refine ⟨⟨?_, InClosure.mulc hnew haccum⟩, InClosure.mulc hnew haccum⟩
    intro q hq
    rcases List.mem_or_eq_of_mem_set hq with h' | rfl
    · exact hslate q h'
    · exact hnew

theorem randPermRun_inv {gens : List Perm} {st : RandPermSt}
    (h : SlateInv gens st) (cs : List RpChoice) :
    SlateInv gens (randPermRun st cs).1 ∧
      ∀ p ∈ (randPermRun st cs).2, InClosure gens p := by
  induction cs generalizing st with
  | nil => exact ⟨h, by intro p hp; simp [randPermRun] at hp⟩
  | cons c cs ih =>
    have hstep := randomPermutation_inv h c
    have hrest := ih hstep.1
    refine ⟨hrest.1, ?_⟩
    intro p hp
    simp only [randPermRun] at hp
    rcases List.mem_cons.mp hp with rfl | hp'
    · exact hstep.2
    · exact hrest.2 p hp'

theorem randPermInit_inv (gens : List Perm) (min_size : Nat) :
    SlateInv gens (randPermInit min_size gens) := by
  constructor
  · intro q hq
    simp only [randPermInit] at hq
    have hge : ∀ r ∈ (if gens.isEmpty then [Perm.id] else gens), InClosure gens r := by
      intro r hr
      split at hr
      · simp at hr
        exact hr ▸ InClosure.idc
      · exact InClosure.genc hr
    rcases List.mem_append.mp hq with h' | h'
    · exact hge q h'
    · rcases List.mem_map.mp h' with ⟨i, _, rfl⟩
      exact getD_closure hge _
  · exact InClosure.idc

/-- C5: every draw of RandPerm::random_permutation lies in the subgroup
generated by the group's generators, the slate and the accumulator stay
in that subgroup after every step, and with an empty generator list
every draw is the identity. -/
theorem c5_randperm_closure (gens : List Perm) (min_size : Nat)
    (cs : List RpChoice) :
    (∀ p ∈ (randPermRun (randPermInit min_size gens) cs).2, InClosure gens p) ∧
      (∀ q ∈ (randPermRun (randPermInit min_size gens) cs).1.gen_elements,
        InClosure gens q) ∧
      InClosure gens (randPermRun (randPermInit min_size gens) cs).1.accum ∧
      (gens = [] →
        ((randPermRun (randPermInit min_size gens) cs).2.all Perm.isId) = true) := by
  have hrun := randPermRun_inv (randPermInit_inv gens min_size) cs
  refine ⟨hrun.2, hrun.1.1, hrun.1.2, ?_⟩
  rintro rfl
  apply List.all_eq_true.mpr
  intro p hp
  exact (Perm.isId_iff p).mpr (InClosure.nil_fwd (hrun.2 p hp))

/-- C5 witness: a concrete two-step run over the empty generator list,
whose draws are all identity, instantiating the closure theorem. -/
theorem c5_randperm_closure_witness :
    ((randPermRun (randPermInit 11 [])
      [⟨0, 1, 1, true⟩, ⟨2, 3, -1, false⟩]).2.all Perm.isId) = true :=
  (c5_randperm_closure [] 11 [⟨0, 1, 1, true⟩, ⟨2, 3, -1, false⟩]).2.2.2 rfl

/-! ## Chain records and transversal augmentation -/

/-- One stabilizer-chain level: base point, generating set of the
current subgroup, and the transversal over the orbit of the base. -/
structure ChainRecord where
  base : Nat
  gens : List Perm
  transversal : Transversal

/-- Forward closure of a point set under a list of generators. -/
inductive PointClosure (gens : List Perm) (s : List Nat) : Nat → Prop
  | start {x : Nat} : x ∈ s → PointClosure gens s x
  | step {x : Nat} {g : Perm} : PointClosure gens s x → g ∈ gens →
      PointClosure gens s (g.fwd x)

/-- Because permutations have finite support, a forward closure is also
closed under inverse images: iterating a generator eventually cycles. -/
theorem PointClosure.bwd_step {gens : List Perm} {s : List Nat} {x : Nat}
    {g : Perm} (hx : PointClosure gens s x) (hg : g ∈ gens) :
    PointClosure gens s (g.bwd x) := by
  -- every forward iterate of x is in the closure
  have hiter : ∀ k, PointClosure gens s ((fun y => g.fwd y)^[k] x) := by
    intro k
    induction k with
    | zero => exact hx
    | succ n ih =>
      rw [Function.iterate_succ_apply']
      exact ih.step hg
  by_cases hfix : g.fwd x = x
  · have : g.bwd x = x := by
      calc g.bwd x = g.bwd (g.fwd x) := by rw [hfix]
        _ = x := g.bwd_fwd x
    rwa [this]
  · -- x is moved, hence below the bound; the iterates stay below the
    -- bound and must repeat, so some positive power of g fixes x
    have hxlt : x < g.bound := by
      by_contra hge
      exact hfix (g.fwd_fix x (Nat.le_of_not_lt hge))
    have hmap : ∀ y, y < g.bound → g.fwd y < g.bound := by
      intro y hy
      by_contra hge
      have hge' := Nat.le_of_not_lt hge
      have := g.fwd_fix _ hge'
      have heq : g.fwd (g.fwd y) = g.fwd y := this
      have := g.fwd_inj heq
      omega
    have hitlt : ∀ k, (fun y => g.fwd y)^[k] x < g.bound := by
      intro k
      induction k with
      | zero => exact hxlt
      | succ n ih =>
        rw [Function.iterate_succ_apply']
        exact hmap _ ih
    -- pigeonhole over k in [0, bound]
    have hpigeon : ∃ i j, i < j ∧ j ≤ g.bound ∧
        (fun y => g.fwd y)^[i] x = (fun y => g.fwd y)^[j] x := by
      by_contra hno
      push_neg at hno
      have hinj : Function.Injective
          (fun k : Fin (g.bound + 1) => (⟨(fun y => g.fwd y)^[k.1] x, hitlt k.1⟩ : Fin g.bound)) := by
        intro a b hab
        simp only [Fin.mk.injEq] at hab
        by_contra hne
        rcases Nat.lt_or_ge a.1 b.1 with h | h
        · exact hno a.1 b.1 h (Nat.le_of_lt_succ b.2) hab
        · rcases Nat.lt_or_ge b.1 a.1 with h' | h'
          · exact hno b.1 a.1 h' (Nat.le_of_lt_succ a.2) hab.symm
          · exact hne (Fin.ext (by omega))
      have hcard := Fintype.card_le_of_injective _ hinj
      simp [Fintype.card_fin] at hcard
    rcases hpigeon with ⟨i, j, hij, hjb, heq⟩
    -- cancel i applications of g
    have hcancel : ∀ a b, (fun y => g.fwd y)^[a] x = (fun y => g.fwd y)^[a] ((fun y => g.fwd y)^[b] x) → x = (fun y => g.fwd y)^[b] x := by
      intro a
      induction a with
      | zero => intro b h; simpa using h
      | succ n ih =>
        intro b h
        rw [Function.iterate_succ_apply', Function.iterate_succ_apply'] at h
        exact ih b (g.fwd_inj h)
    have hper : x = (fun y => g.fwd y)^[j - i] x := by
      apply hcancel i (j - i)
      rw [← Function.iterate_add_apply]
      have : i + (j - i) = j := by omega
      rw [this]
      exact heq
    -- g.bwd x is the (j - i - 1)-st iterate
    have hji : 1 ≤ j - i := by omega
    have hper' : x = (fun y => g.fwd y)^[(j - i - 1) + 1] x := by
      have hsplit : j - i - 1 + 1 = j - i := by omega
      rw [hsplit]
      exact hper
    rw [Function.iterate_succ_apply'] at hper'
    have hbwd : g.bwd x = (fun y => g.fwd y)^[j - i - 1] x :=
      calc g.bwd x
          = g.bwd ((fun y => g.fwd y) ((fun y => g.fwd y)^[j - i - 1] x)) :=
            congrArg g.bwd hper'
        _ = (fun y => g.fwd y)^[j - i - 1] x := g.bwd_fwd _
    rw [hbwd]
    exact hiter _

/-- First loop of check_transversal_augmentation (random_ift.rs lines
193-202): stage the p-image of every current orbit point that is not
yet known.  The VecDeque is popped from the back, so the key list is
supplied reversed. -/
def ctaFirstLoop (p : Perm) (t : Transversal) : List Nat → Transversal → Transversal
  | [], newT => newT
  | j :: js, newT =>
    let img := p.fwd j
    if containsT t img || containsT newT img then ctaFirstLoop p t js newT
    else ctaFirstLoop p t js (newT ++ [(img, p.inv)])

/-- The generator pass of the second loop (random_ift.rs lines
214-222): close one orbit point under once(p).chain(gens), inserting
unseen images with the generator inverse and queueing them. -/
def ctaGenPass (j : Nat) : List Perm → Transversal × List Nat → Transversal × List Nat
  | [], acc => acc
  | g :: gs, acc =>
    let img := g.fwd j
    if containsT acc.1 img then ctaGenPass j gs acc
    else ctaGenPass j gs (acc.1 ++ [(img, g.inv)], img :: acc.2)

/-- Second loop of check_transversal_augmentation (random_ift.rs lines
211-223), with fuel: pop a pending point (the VecDeque used as a
stack: pop_back after push_back) and close it under all generators. -/
def ctaSecondLoop (p : Perm) (gens : List Perm) :
    Nat → Transversal → List Nat → Option Transversal
  | 0, _, _ => none
  | _ + 1, t, [] => some t
  | fuel + 1, t, j :: stack =>
    let res := ctaGenPass j (p :: gens) (t, stack)
    ctaSecondLoop p gens fuel res.1 res.2

/-- check_transversal_augmentation (random_ift.rs lines 188-231). -/
def checkTransversalAugmentation (r : ChainRecord) (p : Perm) (fuel : Nat) :
    Option ChainRecord :=
  let newT := ctaFirstLoop p r.transversal ((keysT r.transversal).reverse) []
  match ctaSecondLoop p r.gens fuel (r.transversal ++ newT) ((keysT newT).reverse) with
  | none => none
  | some t2 =>
    some { base := r.base
           gens := if r.gens.any (fun g => g.permEq p) then r.gens
             else p :: r.gens
           transversal := t2 }

theorem ctaFirstLoop_cons (p : Perm) (t : Transversal) (j : Nat)
    (js : List Nat) (newT : Transversal) :
    ctaFirstLoop p t (j :: js) newT =
      if containsT t (p.fwd j) || containsT newT (p.fwd j) then
        ctaFirstLoop p t js newT
      else ctaFirstLoop p t js (newT ++ [(p.fwd j, p.inv)]) := rfl

/-- The first loop only ever appends, covers the p-image of every
processed point, and adds only p-images of processed points. -/
theorem ctaFirstLoop_spec (p : Perm) (t : Transversal) :
    ∀ (js : List Nat) (newT : Transversal),
    (∀ α v, lookupT newT α = some v →
      lookupT (ctaFirstLoop p t js newT) α = some v) ∧
    (∀ j ∈ js, p.fwd j ∈ keysT t ∨ p.fwd j ∈ keysT (ctaFirstLoop p t js newT)) ∧
    (∀ α, α ∈ keysT (ctaFirstLoop p t js newT) →
      α ∈ keysT newT ∨ ∃ j ∈ js, α = p.fwd j) := by
  intro js
  induction js with
  | nil =>
    intro newT
    exact ⟨fun α v h => h, fun j hj => absurd hj (by simp),
      fun α hα => Or.inl hα⟩
  | cons j js ih =>
    intro newT
    by_cases hc : containsT t (p.fwd j) || containsT newT (p.fwd j)
    · have hstep : ctaFirstLoop p t (j :: js) newT = ctaFirstLoop p t js newT := by
        rw [ctaFirstLoop_cons, if_pos hc]
      rw [hstep]
      obtain ⟨ih1, ih2, ih3⟩ := ih newT
      refine ⟨ih1, ?_, ?_⟩
      · intro j' hj'
        rcases List.mem_cons.mp hj' with rfl | hj''
        · rcases Bool.or_eq_true_iff.mp hc with h | h
          · exact Or.inl (containsT_iff_mem.mp h)
          · exact Or.inr (by
              have hj0 : p.fwd j' ∈ keysT newT := containsT_iff_mem.mp h
              rcases Option.isSome_iff_exists.mp (mem_keysT_isSome hj0) with ⟨v, hv⟩
              exact lookupT_mem (ih1 _ _ hv))
        · exact ih2 j' hj''
      · intro α hα
        rcases ih3 α hα with h | ⟨j', hj', rfl⟩
        · exact Or.inl h
        · exact Or.inr ⟨j', List.mem_cons_of_mem _ hj', rfl⟩
    · have hstep : ctaFirstLoop p t (j :: js) newT
          = ctaFirstLoop p t js (newT ++ [(p.fwd j, p.inv)]) := by
        rw [ctaFirstLoop_cons, if_neg (by simpa using hc)]
      rw [hstep]
      obtain ⟨ih1, ih2, ih3⟩ := ih (newT ++ [(p.fwd j, p.inv)])
      refine ⟨?_, ?_, ?_⟩
      · intro α v h
        exact ih1 α v (lookupT_append_stable h)
      · intro j' hj'
        rcases List.mem_cons.mp hj' with rfl | hj''
        · refine Or.inr ?_
          have hmem : p.fwd j' ∈ keysT (newT ++ [(p.fwd j', p.inv)]) := by
            simp [keysT]
          rcases Option.isSome_iff_exists.mp (mem_keysT_isSome hmem) with ⟨v, hv⟩
          exact lookupT_mem (ih1 _ _ hv)
        · exact ih2 j' hj''
      · intro α hα
        rcases ih3 α hα with h | ⟨j', hj', rfl⟩
        · rw [keysT_append] at h
          rcases List.mem_append.mp h with h' | h'
          · exact Or.inl h'
          · simp [keysT] at h'
            exact Or.inr ⟨j, List.mem_cons_self _ _, h'⟩
        · exact Or.inr ⟨j', List.mem_cons_of_mem _ hj', rfl⟩

theorem ctaGenPass_cons (j : Nat) (g : Perm) (gs : List Perm)
    (t : Transversal) (stack : List Nat) :
    ctaGenPass j (g :: gs) (t, stack) =
      if containsT t (g.fwd j) then ctaGenPass j gs (t, stack)
      else ctaGenPass j gs (t ++ [(g.fwd j, g.inv)], g.fwd j :: stack) := rfl

/-- The generator pass: lookups are stable, keys grow, every
generator image of the processed point is covered, new keys are
exactly generator images of the processed point and are queued, and
the stack is preserved. -/
theorem ctaGenPass_spec (j : Nat) :
    ∀ (gs : List Perm) (t : Transversal) (stack : List Nat),
    (∀ α v, lookupT t α = some v →
      lookupT (ctaGenPass j gs (t, stack)).1 α = some v) ∧
    (∀ α, α ∈ keysT t → α ∈ keysT (ctaGenPass j gs (t, stack)).1) ∧
    (∀ g ∈ gs, g.fwd j ∈ keysT (ctaGenPass j gs (t, stack)).1) ∧
    (∀ α, α ∈ keysT (ctaGenPass j gs (t, stack)).1 →
      α ∈ keysT t ∨ ∃ g ∈ gs, α = g.fwd j) ∧
    (∀ α, α ∈ keysT (ctaGenPass j gs (t, stack)).1 →
      α ∈ keysT t ∨ α ∈ (ctaGenPass j gs (t, stack)).2) ∧
    (∀ x ∈ stack, x ∈ (ctaGenPass j gs (t, stack)).2) ∧
    (∀ x ∈ (ctaGenPass j gs (t, stack)).2,
      x ∈ stack ∨ x ∈ keysT (ctaGenPass j gs (t, stack)).1) := by
  intro gs
  induction gs with
  | nil =>
    intro t stack
    exact ⟨fun α v h => h, fun α h => h, fun g hg => absurd hg (by simp),
      fun α h => Or.inl h, fun α h => Or.inl h, fun x hx => hx,
      fun x hx => Or.inl hx⟩
  | cons g gs ih =>
    intro t stack
    by_cases hc : containsT t (g.fwd j)
    · rw [ctaGenPass_cons, if_pos hc]
      obtain ⟨ih1, ih2, ih3, ih4, ih5, ih6, ih7⟩ := ih t stack
      refine ⟨ih1, ih2, ?_, ?_, ih5, ih6, ih7⟩
      · intro g' hg'
        rcases List.mem_cons.mp hg' with rfl | hg''
        · exact ih2 _ (containsT_iff_mem.mp hc)
        · exact ih3 g' hg''
      · intro α hα
        rcases ih4 α hα with h | ⟨g', hg', rfl⟩
        · exact Or.inl h
        · exact Or.inr ⟨g', List.mem_cons_of_mem _ hg', rfl⟩
    · rw [ctaGenPass_cons, if_neg hc]
      obtain ⟨ih1, ih2, ih3, ih4, ih5, ih6, ih7⟩ :=
        ih (t ++ [(g.fwd j, g.inv)]) (g.fwd j :: stack)
      have hmem : g.fwd j ∈ keysT (t ++ [(g.fwd j, g.inv)]) := by
        simp [keysT]
      refine ⟨?_, ?_, ?_, ?_, ?_, ?_, ?_⟩
      · intro α v h
        exact ih1 α v (lookupT_append_stable h)
      · intro α hα
        exact ih2 α (by rw [keysT_append]; exact List.mem_append_left _ hα)
      · intro g' hg'
        rcases List.mem_cons.mp hg' with rfl | hg''
        · exact ih2 _ hmem
        · exact ih3 g' hg''
      · intro α hα
        rcases ih4 α hα with h | ⟨g', hg', rfl⟩
        · rw [keysT_append] at h
          rcases List.mem_append.mp h with h' | h'
          · exact Or.inl h'
          · simp [keysT] at h'
            exact Or.inr ⟨g, List.mem_cons_self _ _, h'⟩
        · exact Or.inr ⟨g', List.mem_cons_of_mem _ hg', rfl⟩
      · intro α hα
        rcases ih5 α hα with h | h
        · rw [keysT_append] at h
          rcases List.mem_append.mp h with h' | h'
          · exact Or.inl h'
          · simp [keysT] at h'
            subst h'
            exact Or.inr (ih6 _ (List.mem_cons_self _ _))
        · exact Or.inr h
      · intro x hx
        exact ih6 x (List.mem_cons_of_mem _ hx)
      · intro x hx
        rcases ih7 x hx with h | h
        · rcases List.mem_cons.mp h with rfl | h'
          · exact Or.inr (ih2 _ hmem)
          · exact Or.inl h'
        · exact Or.inr h

/-- The second loop: with enough fuel to empty the queue, lookups are
stable, keys grow, keys stay inside any image-closed predicate, and
every final key is either fully expanded or belongs to the
unprocessed-points set U. -/
theorem ctaSecondLoop_spec (p : Perm) (gens : List Perm) (C : Nat → Prop)
    (U : List Nat) (hC : ∀ x g, C x → g ∈ p :: gens → C (g.fwd x)) :
    ∀ (fuel : Nat) (t : Transversal) (stack : List Nat) (t2 : Transversal),
    ctaSecondLoop p gens fuel t stack = some t2 →
    (∀ x ∈ stack, x ∈ keysT t) →
    (∀ α ∈ keysT t, C α) →
    (∀ α ∈ keysT t, α ∈ stack ∨ α ∈ U ∨
      (∀ g ∈ p :: gens, g.fwd α ∈ keysT t)) →
    (∀ α v, lookupT t α = some v → lookupT t2 α = some v) ∧
      (∀ α ∈ keysT t, α ∈ keysT t2) ∧
      (∀ α ∈ keysT t2, C α) ∧
      (∀ α ∈ keysT t2, α ∈ U ∨ (∀ g ∈ p :: gens, g.fwd α ∈ keysT t2)) := by
  intro fuel
  induction fuel with
  | zero =>
    intro t stack t2 h
    simp [ctaSecondLoop] at h
  | succ fuel ih =>
    intro t stack t2 h hstack hCk hexp
    cases stack with
    | nil =>
      have ht2 : t2 = t := by
        simpa [ctaSecondLoop] using h.symm
      subst ht2
      refine ⟨fun α v hv => hv, fun α hα => hα, hCk, ?_⟩
      intro α hα
      rcases hexp α hα with h' | h' | h'
      · exact absurd h' (by simp)
      · exact Or.inl h'
      · exact Or.inr h'
    | cons j stack' =>
      have hrec : ctaSecondLoop p gens fuel
          (ctaGenPass j (p :: gens) (t, stack')).1
          (ctaGenPass j (p :: gens) (t, stack')).2 = some t2 := by
        simpa [ctaSecondLoop] using h
      obtain ⟨g1, g2, g3, g4, g5, g6, g7⟩ := ctaGenPass_spec j (p :: gens) t stack'
      have hjk : j ∈ keysT t := hstack j (List.mem_cons_self _ _)
      have hstack2 : ∀ x ∈ (ctaGenPass j (p :: gens) (t, stack')).2,
          x ∈ keysT (ctaGenPass j (p :: gens) (t, stack')).1 := by
        intro x hx
        rcases g7 x hx with h' | h'
        · exact g2 x (hstack x (List.mem_cons_of_mem _ h'))
        · exact h'
      have hCk2 : ∀ α ∈ keysT (ctaGenPass j (p :: gens) (t, stack')).1, C α := by
        intro α hα
        rcases g4 α hα with h' | ⟨g', hg', rfl⟩
        · exact hCk α h'
        · exact hC j g' (hCk j hjk) hg'
      have hexp2 : ∀ α ∈ keysT (ctaGenPass j (p :: gens) (t, stack')).1,
          α ∈ (ctaGenPass j (p :: gens) (t, stack')).2 ∨ α ∈ U ∨
            (∀ g ∈ p :: gens, g.fwd α ∈ keysT (ctaGenPass j (p :: gens) (t, stack')).1) := by
        intro α hα
        rcases g5 α hα with h' | h'
        · rcases hexp α h' with h'' | h'' | h''
          · rcases List.mem_cons.mp h'' with rfl | h'''
            · exact Or.inr (Or.inr g3)
            · exact Or.inl (g6 _ h''')
          · exact Or.inr (Or.inl h'')
          · exact Or.inr (Or.inr (fun g hg => g2 _ (h'' g hg)))
        · exact Or.inl h'
      obtain ⟨r1, r2, r3, r4⟩ := ih _ _ _ hrec hstack2 hCk2 hexp2
      refine ⟨?_, ?_, r3, r4⟩
      · intro α v hv
        exact r1 α v (g1 α v hv)
      · intro α hα
        exact r2 α (g2 α hα)

theorem permEq_refl (p : Perm) : p.permEq p = true :=
  (Perm.permEq_iff p p).mpr (fun _ => rfl)

/-- check_transversal_augmentation, under the precondition that the
current domain is closed under the record's generators and maps the
base to the identity: the result contains p among its generators, its
domain is exactly the closure of the previous orbit under the full
generator set, and the base still maps to the identity. -/
theorem cta_spec (r : ChainRecord) (p : Perm) (fuel : Nat) (r2 : ChainRecord)
    (hrun : checkTransversalAugmentation r p fuel = some r2)
    (hclosed : ∀ α ∈ keysT r.transversal, ∀ g ∈ r.gens,
      g.fwd α ∈ keysT r.transversal)
    (hbase : lookupT r.transversal r.base = some Perm.id) :
    (∃ g ∈ r2.gens, g.permEq p = true) ∧
      (∀ α, α ∈ keysT r2.transversal ↔
        PointClosure (p :: r.gens) (keysT r.transversal) α) ∧
      lookupT r2.transversal r2.base = some Perm.id ∧ r2.base = r.base := by
  unfold checkTransversalAugmentation at hrun
  set newT := ctaFirstLoop p r.transversal ((keysT r.transversal).reverse) [] with hnewT
  simp only [] at hrun
  cases hsl : ctaSecondLoop p r.gens fuel (r.transversal ++ newT)
      ((keysT newT).reverse) with
  | none =>
    rw [hsl] at hrun
    exact absurd hrun (by simp)
  | some t2 =>
    rw [hsl] at hrun
    simp only [Option.some.injEq] at hrun
    obtain ⟨f1, f2, f3⟩ := ctaFirstLoop_spec p r.transversal
      ((keysT r.transversal).reverse) []
    have hnewTC : ∀ α ∈ keysT newT,
        PointClosure (p :: r.gens) (keysT r.transversal) α := by
      intro α hα
      rcases f3 α hα with h' | ⟨j, hj, rfl⟩
      · simp at h'
      · exact (PointClosure.start (List.mem_reverse.mp hj)).step
          (List.mem_cons_self _ _)
    obtain ⟨r1, r2', r3, r4⟩ := ctaSecondLoop_spec p r.gens
      (PointClosure (p :: r.gens) (keysT r.transversal)) (keysT r.transversal)
      (fun x g hx hg => hx.step hg)
      fuel (r.transversal ++ newT) ((keysT newT).reverse) t2 hsl
      (by
        intro x hx
        rw [keysT_append]
        exact List.mem_append_right _ (List.mem_reverse.mp hx))
      (by
        intro α hα
        rw [keysT_append] at hα
        rcases List.mem_append.mp hα with h' | h'
        · exact PointClosure.start h'
        · exact hnewTC α h')
      (by
        intro α hα
        rw [keysT_append] at hα
        rcases List.mem_append.mp hα with h' | h'
        · exact Or.inr (Or.inl h')
        · exact Or.inl (List.mem_reverse.mpr h'))
    -- the final key set is closed under every generator and p
    have hkeysClosed : ∀ α ∈ keysT t2, ∀ g ∈ p :: r.gens, g.fwd α ∈ keysT t2 := by
      intro α hα g hg
      rcases r4 α hα with h' | h'
      · rcases List.mem_cons.mp hg with rfl | hg'
        · rcases f2 α (List.mem_reverse.mpr h') with h'' | h''
          · exact r2' _ (by rw [keysT_append]; exact List.mem_append_left _ h'')
          · exact r2' _ (by rw [keysT_append]; exact List.mem_append_right _ h'')
        · exact r2' _ (by
            rw [keysT_append]
            exact List.mem_append_left _ (hclosed α h' g hg'))
      · exact h' g hg
    subst hrun
    refine ⟨?_, ?_, ?_, rfl⟩
    · by_cases hany : r.gens.any (fun g => g.permEq p)
      · simp only [hany, if_true]
        rcases List.any_eq_true.mp hany with ⟨g, hg, hgp⟩
        exact ⟨g, hg, hgp⟩
      · simp only [hany, Bool.false_eq_true, if_false]
        exact ⟨p, List.mem_cons_self _ _, permEq_refl p⟩
    · intro α
      constructor
      · exact r3 α
      · intro hcl
        induction hcl with
        | start h =>
          exact r2' _ (by rw [keysT_append]; exact List.mem_append_left _ h)
        | step hped hg ihp => exact hkeysClosed _ ihp _ hg
    · show lookupT t2 r.base = some Perm.id
      apply r1
      rw [lookupT_append_left (lookupT_mem hbase)]
      exact hbase

/-! ## Shallow transversal construction

Modelled from the spec: shallow_transversal lives in
src/group/orbit/transversal/shallow_transversal/mod.rs, which is not
under src/; only the cube (cube.rs) and the callers are.  Spec 4.3 and
the data-model invariant of section 3: the construction explores the
orbit of the base under each generator and its inverse (as Cube::new
does), records for every new point the full generator that first
reached it, and the resulting transversal's domain is the whole orbit
of the base.  A move is a pair (applied permutation, stored entry); for
a generator g the two moves are (g, g-inverse) and (g-inverse, g),
matching the entry convention of cube.rs lines 36-53. -/

/-- The directed moves of a generator list: each generator applied
forward (storing its inverse) and backward (storing the generator). -/
def stMoves (gens : List Perm) : List (Perm × Perm) :=
  gens.flatMap fun g => [(g, g.inv), (g.inv, g)]

/-- Close one pending point under every move, inserting unseen images
with the stored entry and queueing them. -/
def stMovePass (j : Nat) : List (Perm × Perm) → Transversal × List Nat →
    Transversal × List Nat
  | [], acc => acc
  | m :: ms, acc =>
    let img := m.1.fwd j
    if containsT acc.1 img then stMovePass j ms acc
    else stMovePass j ms (acc.1 ++ [(img, m.2)], img :: acc.2)

/-- The orbit closure loop of the modelled shallow transversal. -/
def stBfs (moves : List (Perm × Perm)) :
    Nat → Transversal → List Nat → Option Transversal
  | 0, _, _ => none
  | _ + 1, t, [] => some t
  | fuel + 1, t, j :: stack =>
    let res := stMovePass j moves (t, stack)
    stBfs moves fuel res.1 res.2

/-- Modelled from the spec: shallow_transversal(gens, base) returns the
transversal over the whole orbit of the base under the generators,
seeded with the base mapped to the identity. -/
def shallowTransversalM (gens : List Perm) (base : Nat) (fuel : Nat) :
    Option Transversal :=
  stBfs (stMoves gens) fuel [(base, Perm.id)] [base]

/-- update_schrier_tree (base_change_builder/random.rs lines 82-94):
assert the generator is not the identity, push it onto the level's
generators, and rebuild the transversal by shallow-transversal
construction over the new generator list. -/
def updateSchrierTree (r : ChainRecord) (g : Perm) (fuel : Nat) :
    Option ChainRecord :=
  if g.isId then none
  else
    match shallowTransversalM (r.gens ++ [g]) r.base fuel with
    | none => none
    | some t => some { base := r.base, gens := r.gens ++ [g], transversal := t }

theorem stMovePass_cons (j : Nat) (m : Perm × Perm) (ms : List (Perm × Perm))
    (t : Transversal) (stack : List Nat) :
    stMovePass j (m :: ms) (t, stack) =
      if containsT t (m.1.fwd j) then stMovePass j ms (t, stack)
      else stMovePass j ms (t ++ [(m.1.fwd j, m.2)], m.1.fwd j :: stack) := rfl

/-- The move pass: the analogue of the generator pass for the modelled
shallow transversal. -/
theorem stMovePass_spec (j : Nat) :
    ∀ (ms : List (Perm × Perm)) (t : Transversal) (stack : List Nat),
    (∀ α v, lookupT t α = some v →
      lookupT (stMovePass j ms (t, stack)).1 α = some v) ∧
    (∀ α, α ∈ keysT t → α ∈ keysT (stMovePass j ms (t, stack)).1) ∧
    (∀ m ∈ ms, m.1.fwd j ∈ keysT (stMovePass j ms (t, stack)).1) ∧
    (∀ α, α ∈ keysT (stMovePass j ms (t, stack)).1 →
      α ∈ keysT t ∨ ∃ m ∈ ms, α = m.1.fwd j) ∧
    (∀ α, α ∈ keysT (stMovePass j ms (t, stack)).1 →
      α ∈ keysT t ∨ α ∈ (stMovePass j ms (t, stack)).2) ∧
    (∀ x ∈ stack, x ∈ (stMovePass j ms (t, stack)).2) ∧
    (∀ x ∈ (stMovePass j ms (t, stack)).2,
      x ∈ stack ∨ x ∈ keysT (stMovePass j ms (t, stack)).1) := by
  intro ms
  induction ms with
  | nil =>
    intro t stack
    exact ⟨fun α v h => h, fun α h => h, fun m hm => absurd hm (by simp),
      fun α h => Or.inl h, fun α h => Or.inl h, fun x hx => hx,
      fun x hx => Or.inl hx⟩
  | cons m ms ih =>
    intro t stack
    by_cases hc : containsT t (m.1.fwd j)
    · rw [stMovePass_cons, if_pos hc]
      obtain ⟨ih1, ih2, ih3, ih4, ih5, ih6, ih7⟩ := ih t stack
      refine ⟨ih1, ih2, ?_, ?_, ih5, ih6, ih7⟩
      · intro m' hm'
        rcases List.mem_cons.mp hm' with rfl | hm''
        · exact ih2 _ (containsT_iff_mem.mp hc)
        · exact ih3 m' hm''
      · intro α hα
        rcases ih4 α hα with h | ⟨m', hm', rfl⟩
        · exact Or.inl h
        · exact Or.inr ⟨m', List.mem_cons_of_mem _ hm', rfl⟩
    · rw [stMovePass_cons, if_neg hc]
      obtain ⟨ih1, ih2, ih3, ih4, ih5, ih6, ih7⟩ :=
        ih (t ++ [(m.1.fwd j, m.2)]) (m.1.fwd j :: stack)
      have hmem : m.1.fwd j ∈ keysT (t ++ [(m.1.fwd j, m.2)]) := by
        simp [keysT]
      refine ⟨?_, ?_, ?_, ?_, ?_, ?_, ?_⟩
      · intro α v h
        exact ih1 α v (lookupT_append_stable h)
      · intro α hα
        exact ih2 α (by rw [keysT_append]; exact List.mem_append_left _ hα)
      · intro m' hm'
        rcases List.mem_cons.mp hm' with rfl | hm''
        · exact ih2 _ hmem
        · exact ih3 m' hm''
      · intro α hα
        rcases ih4 α hα with h | ⟨m', hm', rfl⟩
        · rw [keysT_append] at h
          rcases List.mem_append.mp h with h' | h'
          · exact Or.inl h'
          · simp [keysT] at h'
            exact Or.inr ⟨m, List.mem_cons_self _ _, h'⟩
        · exact Or.inr ⟨m', List.mem_cons_of_mem _ hm', rfl⟩
      · intro α hα
        rcases ih5 α hα with h | h
        · rw [keysT_append] at h
          rcases List.mem_append.mp h with h' | h'
          · exact Or.inl h'
          · simp [keysT] at h'
            subst h'
            exact Or.inr (ih6 _ (List.mem_cons_self _ _))
        · exact Or.inr h
      · intro x hx
        exact ih6 x (List.mem_cons_of_mem _ hx)
      · intro x hx
        rcases ih7 x hx with h | h
        · rcases List.mem_cons.mp h with rfl | h'
          · exact Or.inr (ih2 _ hmem)
          · exact Or.inl h'
        · exact Or.inr h

/-- The orbit closure loop: with enough fuel, lookups are stable, keys
grow, keys stay inside a move-closed predicate, and every final key is
fully expanded under every move. -/
theorem stBfs_spec (moves : List (Perm × Perm)) (C : Nat → Prop)
    (hC : ∀ x m, C x → m ∈ moves → C (m.1.fwd x)) :
    ∀ (fuel : Nat) (t : Transversal) (stack : List Nat) (t2 : Transversal),
    stBfs moves fuel t stack = some t2 →
    (∀ x ∈ stack, x ∈ keysT t) →
    (∀ α ∈ keysT t, C α) →
    (∀ α ∈ keysT t, α ∈ stack ∨ (∀ m ∈ moves, m.1.fwd α ∈ keysT t)) →
    (∀ α v, lookupT t α = some v → lookupT t2 α = some v) ∧
      (∀ α ∈ keysT t, α ∈ keysT t2) ∧
      (∀ α ∈ keysT t2, C α) ∧
      (∀ α ∈ keysT t2, ∀ m ∈ moves, m.1.fwd α ∈ keysT t2) := by
  intro fuel
  induction fuel with
  | zero =>
    intro t stack t2 h
    simp [stBfs] at h
  | succ fuel ih =>
    intro t stack t2 h hstack hCk hexp
    cases stack with
    | nil =>
      have ht2 : t2 = t := by
        simpa [stBfs] using h.symm
      subst ht2
      refine ⟨fun α v hv => hv, fun α hα => hα, hCk, ?_⟩
      intro α hα
      rcases hexp α hα with h' | h'
      · exact absurd h' (by simp)
      · exact h'
    | cons j stack' =>
      have hrec : stBfs moves fuel
          (stMovePass j moves (t, stack')).1
          (stMovePass j moves (t, stack')).2 = some t2 := by
        simpa [stBfs] using h
      obtain ⟨g1, g2, g3, g4, g5, g6, g7⟩ := stMovePass_spec j moves t stack'
      have hjk : j ∈ keysT t := hstack j (List.mem_cons_self _ _)
      have hstack2 : ∀ x ∈ (stMovePass j moves (t, stack')).2,
          x ∈ keysT (stMovePass j moves (t, stack')).1 := by
        intro x hx
        rcases g7 x hx with h' | h'
        · exact g2 x (hstack x (List.mem_cons_of_mem _ h'))
        · exact h'
      have hCk2 : ∀ α ∈ keysT (stMovePass j moves (t, stack')).1, C α := by
        intro α hα
        rcases g4 α hα with h' | ⟨m', hm', rfl⟩
        · exact hCk α h'
        · exact hC j m' (hCk j hjk) hm'
      have hexp2 : ∀ α ∈ keysT (stMovePass j moves (t, stack')).1,
          α ∈ (stMovePass j moves (t, stack')).2 ∨
            (∀ m ∈ moves, m.1.fwd α ∈ keysT (stMovePass j moves (t, stack')).1) := by
        intro α hα
        rcases g5 α hα with h' | h'
        · rcases hexp α h' with h'' | h''
          · rcases List.mem_cons.mp h'' with rfl | h'''
            · exact Or.inr g3
            · exact Or.inl (g6 _ h''')
          · exact Or.inr (fun m hm => g2 _ (h'' m hm))
        · exact Or.inl h'
      obtain ⟨r1, r2, r3, r4⟩ := ih _ _ _ hrec hstack2 hCk2 hexp2
      refine ⟨?_, ?_, r3, r4⟩
      · intro α v hv
        exact r1 α v (g1 α v hv)
      · intro α hα
        exact r2 α (g2 α hα)

theorem PointClosure_mono_src {gens : List Perm} {s s' : List Nat} {y : Nat}
    (hsub : ∀ x ∈ s, PointClosure gens s' x) (h : PointClosure gens s y) :
    PointClosure gens s' y := by
  induction h with
  | start hx => exact hsub _ hx
  | step _ hg ihp => exact ihp.step hg

theorem mem_stMoves {gens : List Perm} {m : Perm × Perm}
    (h : m ∈ stMoves gens) :
    ∃ g ∈ gens, m = (g, g.inv) ∨ m = (g.inv, g) := by
  unfold stMoves at h
  rcases List.mem_flatMap.mp h with ⟨g, hg, hm⟩
  rcases List.mem_cons.mp hm with rfl | hm'
  · exact ⟨g, hg, Or.inl rfl⟩
  · simp at hm'
    exact ⟨g, hg, Or.inr hm'⟩

/-- update_schrier_tree, for a record whose domain is reachable from
the base and maps the base to the identity: the result contains the new
generator, its domain is exactly the closure of the previous orbit
under the full generator set, and the base still maps to the
identity. -/
theorem ust_spec (r : ChainRecord) (g : Perm) (fuel : Nat) (r2 : ChainRecord)
    (hrun : updateSchrierTree r g fuel = some r2)
    (hbase : lookupT r.transversal r.base = some Perm.id)
    (hreach : ∀ α ∈ keysT r.transversal,
      PointClosure (r.gens ++ [g]) [r.base] α) :
    (∃ q ∈ r2.gens, q.permEq g = true) ∧
      (∀ α, α ∈ keysT r2.transversal ↔
        PointClosure (r.gens ++ [g]) (keysT r.transversal) α) ∧
      lookupT r2.transversal r2.base = some Perm.id ∧ r2.base = r.base := by
  unfold updateSchrierTree at hrun
  by_cases hid : g.isId
  · rw [if_pos hid] at hrun
    exact absurd hrun (by simp)
  · rw [if_neg hid] at hrun
    cases hst : shallowTransversalM (r.gens ++ [g]) r.base fuel with
    | none =>
      rw [hst] at hrun
      exact absurd hrun (by simp)
    | some t2 =>
      rw [hst] at hrun
      simp only [Option.some.injEq] at hrun
      have hC : ∀ x m, PointClosure (r.gens ++ [g]) [r.base] x →
          m ∈ stMoves (r.gens ++ [g]) →
          PointClosure (r.gens ++ [g]) [r.base] (m.1.fwd x) := by
        intro x m hx hm
        rcases mem_stMoves hm with ⟨g', hg', rfl | rfl⟩
        · exact hx.step hg'
        · exact hx.bwd_step hg'
      obtain ⟨r1, r2', r3, r4⟩ := stBfs_spec (stMoves (r.gens ++ [g]))
        (PointClosure (r.gens ++ [g]) [r.base]) hC fuel
        [(r.base, Perm.id)] [r.base] t2 hst
        (by intro x hx; simp at hx; simp [keysT, hx])
        (by
          intro α hα
          simp [keysT] at hα
          subst hα
          exact PointClosure.start (by simp))
        (by
          intro α hα
          simp [keysT] at hα
          subst hα
          exact Or.inl (by simp))
      have hbmem : r.base ∈ keysT r.transversal := lookupT_mem hbase
      have hbase2 : lookupT t2 r.base = some Perm.id := by
        apply r1
        simp [lookupT]
      subst hrun
      refine ⟨⟨g, by simp, permEq_refl g⟩, ?_, hbase2, rfl⟩
      intro α
      constructor
      · intro hα
        exact PointClosure_mono_src
          (by
            intro x hx
            simp at hx
            subst hx
            exact PointClosure.start hbmem)
          (r3 α hα)
      · intro hcl
        have hcl' : PointClosure (r.gens ++ [g]) [r.base] α :=
          PointClosure_mono_src hreach hcl
        clear hcl
        induction hcl' with
        | start hx =>
          simp at hx
          subst hx
          exact lookupT_mem hbase2
        | @step x g' hped hg' ihp =>
          have hmv : (g', g'.inv) ∈ stMoves (r.gens ++ [g]) := by
            unfold stMoves
            exact List.mem_flatMap.mpr ⟨g', hg', by simp⟩
          exact r4 x ihp (g', g'.inv) hmv

/-- The record of the C4 counterexample: its domain is closed under its
(empty) generator list and maps the base to the identity, but contains
a point not reachable from the base. -/
def c4Rec : ChainRecord :=
  { base := 0, gens := [], transversal := [(0, Perm.id), (5, Perm.id)] }

/-- The result of rebuilding the counterexample record with swap01. -/
def c4Out : ChainRecord := (updateSchrierTree c4Rec swap01 4).getD c4Rec

/-- C4 counterexample: update_schrier_tree rebuilds the transversal as
the orbit of the base, so for a record whose domain is closed under its
generators (and maps the base to the identity) but contains the
unreachable point 5, the resulting domain does not equal the closure of
the previous orbit under the full generator set: 5 lies in that closure
but not in the rebuilt domain. -/
theorem c4_augmentation_counterexample :
    ((keysT c4Rec.transversal).all
      (fun α => c4Rec.gens.all (fun g => containsT c4Rec.transversal (g.fwd α)))) = true ∧
      lookupT c4Rec.transversal c4Rec.base = some Perm.id ∧
      updateSchrierTree c4Rec swap01 4 = some c4Out ∧
      PointClosure (c4Rec.gens ++ [swap01]) (keysT c4Rec.transversal) 5 ∧
      containsT c4Out.transversal 5 = false := by
  refine ⟨rfl, rfl, rfl, ?_, rfl⟩
  exact PointClosure.start (by simp [c4Rec, keysT])

/-- C4 as amended: check_transversal_augmentation satisfies the claim
under the closedness precondition; update_schrier_tree satisfies it
under the additional precondition that every domain point is reachable
from the base (the chain invariant), since it rebuilds the orbit from
the base. -/
theorem c4_augmentation_amended (r : ChainRecord) (p : Perm) (fuel : Nat) :
    (∀ r2, checkTransversalAugmentation r p fuel = some r2 →
      (∀ α ∈ keysT r.transversal, ∀ g ∈ r.gens,
        g.fwd α ∈ keysT r.transversal) →
      lookupT r.transversal r.base = some Perm.id →
      (∃ g ∈ r2.gens, g.permEq p = true) ∧
        (∀ α, α ∈ keysT r2.transversal ↔
          PointClosure (p :: r.gens) (keysT r.transversal) α) ∧
        lookupT r2.transversal r2.base = some Perm.id ∧ r2.base = r.base) ∧
    (∀ r2, updateSchrierTree r p fuel = some r2 →
      lookupT r.transversal r.base = some Perm.id →
      (∀ α ∈ keysT r.transversal, PointClosure (r.gens ++ [p]) [r.base] α) →
      (∃ g ∈ r2.gens, g.permEq p = true) ∧
        (∀ α, α ∈ keysT r2.transversal ↔
          PointClosure (r.gens ++ [p]) (keysT r.transversal) α) ∧
        lookupT r2.transversal r2.base = some Perm.id ∧ r2.base = r.base) :=
  ⟨fun r2 h hc hb => cta_spec r p fuel r2 h hc hb,
    fun r2 h hb hr => ust_spec r p fuel r2 h hb hr⟩

/-- A one-point record for the C4 witness. -/
def c4RecW : ChainRecord :=
  { base := 0, gens := [], transversal := [(0, Perm.id)] }

/-- The augmented record of the C4 witness (first operation). -/
def c4CtaOutW : ChainRecord :=
  (checkTransversalAugmentation c4RecW swap01 3).getD c4RecW

/-- The rebuilt record of the C4 witness (second operation). -/
def c4UstOutW : ChainRecord :=
  (updateSchrierTree c4RecW swap01 4).getD c4RecW

/-- C4 witness: both augmentation operations, run on a concrete
one-point record with the swap of 0 and 1, reach the point 1. -/
theorem c4_augmentation_amended_witness :
    (1 ∈ keysT c4CtaOutW.transversal) ∧ (1 ∈ keysT c4UstOutW.transversal) := by
  constructor
  · have h := (c4_augmentation_amended c4RecW swap01 3).1 c4CtaOutW rfl
      (by intro α hα g hg; simp [c4RecW] at hg) rfl
    apply (h.2.1 1).mpr
    have hstep : PointClosure (swap01 :: c4RecW.gens) (keysT c4RecW.transversal)
        (swap01.fwd 0) :=
      (PointClosure.start (by simp [c4RecW, keysT])).step (List.mem_cons_self _ _)
    exact hstep
  · have h := (c4_augmentation_amended c4RecW swap01 4).2 c4UstOutW rfl rfl
      (by
        intro α hα
        simp [c4RecW, keysT] at hα
        subst hα
        exact PointClosure.start (by simp [c4RecW]))
    apply (h.2.1 1).mpr
    have hstep : PointClosure (c4RecW.gens ++ [swap01]) (keysT c4RecW.transversal)
        (swap01.fwd 0) :=
      (PointClosure.start (by simp [c4RecW, keysT])).step (by simp)
    exact hstep

/-! ## Well-formed Schreier trees: walks terminate at the base -/

/-- A Schreier tree is walkable when a depth function witnesses that
every stored entry steps strictly closer to the base. -/
def WalkInvT (t : Transversal) (base : Nat) : Prop :=
  ∃ dfun : Nat → Nat,
    (∀ α ∈ keysT t, dfun α < t.length) ∧
    (∀ α ∈ keysT t, α ≠ base →
      ∃ g, lookupT t α = some g ∧ g.fwd α ∈ keysT t ∧ dfun (g.fwd α) < dfun α)

theorem lookupT_some_mem_pairs {β : Type} {t : List (Nat × β)} {x : Nat}
    {v : β} (h : lookupT t x = some v) : (x, v) ∈ t := by
  induction t with
  | nil => simp [lookupT] at h
  | cons kv rest ih =>
    by_cases hk : kv.1 = x
    · simp only [lookupT, hk, if_true] at h
      cases h
      subst hk
      exact List.mem_cons_self _ _
    · simp only [lookupT, hk, if_false] at h
      exact List.mem_cons_of_mem _ (ih h)

theorem foldl_mul_closure {gens : List Perm} :
    ∀ (w : List Perm) (a : Perm), (∀ g ∈ w, InClosure gens g) →
    InClosure gens a →
    InClosure gens (w.foldl (fun accum perm => accum.mul perm) a) := by
  intro w
  induction w with
  | nil => intro a _ ha; exact ha
  | cons g rest ih =>
    intro a h ha
    exact ih (a.mul g) (fun g' hg' => h g' (List.mem_cons_of_mem _ hg'))
      (InClosure.mulc ha (h g (List.mem_cons_self _ _)))

theorem collapsePermWord_closure {gens : List Perm} {w : List Perm}
    (h : ∀ g ∈ w, InClosure gens g) : InClosure gens (collapsePermWord w) :=
  foldl_mul_closure w Perm.id h InClosure.idc

/-- A walkable tree yields a walk word for every key. -/
theorem walkWord_of_walkInv {t : Transversal} {base : Nat}
    (hw : WalkInvT t base) :
    ∀ α ∈ keysT t, ∃ w, walkWord (t.length + 1) t base α = some w := by
  rcases hw with ⟨dfun, hbd, hstep⟩
  have main : ∀ (n : Nat) (α : Nat), α ∈ keysT t → dfun α ≤ n →
      ∃ w, walkWord (n + 1) t base α = some w := by
    intro n
    induction n with
    | zero =>
      intro α hα hd
      by_cases hb : α = base
      · subst hb
        exact ⟨[], walkWord_base⟩
      · rcases hstep α hα hb with ⟨g, _, _, hlt⟩
        omega
    | succ n ih =>
      intro α hα hd
      by_cases hb : α = base
      · subst hb
        exact ⟨[], walkWord_base⟩
      · rcases hstep α hα hb with ⟨g, hl, hmem, hlt⟩
        rcases ih (g.fwd α) hmem (by omega) with ⟨w', hw'⟩
        exact ⟨g :: w', walkWord_step hb hl hw'⟩
  intro α hα
  rcases main (dfun α) α hα (le_refl _) with ⟨w, hwk⟩
  exact ⟨w, walkWord_fuel_mono (by have := hbd α hα; omega) hwk⟩

/-- A walkable tree yields a representative for every key; the
representative collapses entries of the tree. -/
theorem representativeRaw_of_walkInv {t : Transversal} {base : Nat}
    (hw : WalkInvT t base) {gens : List Perm}
    (hvals : ∀ e ∈ t, InClosure gens e.2) :
    ∀ α ∈ keysT t, ∃ u, representativeRaw t base α = some u ∧
      InClosure gens u := by
  intro α hα
  rcases walkWord_of_walkInv hw α hα with ⟨w, hwk⟩
  refine ⟨(collapsePermWord w).inv, ?_, ?_⟩
  · unfold representativeRaw
    rw [hwk]
  · refine InClosure.invc (collapsePermWord_closure ?_)
    intro g hg
    rcases walkWord_entries hwk g hg with ⟨k, hk⟩
    exact hvals (k, g) (lookupT_some_mem_pairs hk)

/-- The move cancellation law: applying a move and then its stored
entry returns to the start. -/
theorem stMoves_cancel {gens : List Perm} {m : Perm × Perm}
    (h : m ∈ stMoves gens) : ∀ x, m.2.fwd (m.1.fwd x) = x := by
  rcases mem_stMoves h with ⟨g, _, rfl | rfl⟩
  · intro x
    exact g.bwd_fwd x
  · intro x
    exact g.fwd_bwd x

theorem stMovePass_cons_eq (j : Nat) (m : Perm × Perm)
    (ms : List (Perm × Perm)) (acc : Transversal × List Nat) :
    stMovePass j (m :: ms) acc =
      if containsT acc.1 (m.1.fwd j) then stMovePass j ms acc
      else stMovePass j ms (acc.1 ++ [(m.1.fwd j, m.2)], m.1.fwd j :: acc.2) := by
  cases acc
  rfl

/-- The move pass keeps the tree walkable, keeps its values inside any
predicate covering the moves' stored entries, and keeps its keys
duplicate-free. -/
theorem stMovePass_wf (j : Nat) (base : Nat) (P : Perm → Prop) :
    ∀ (ms : List (Perm × Perm)) (t : Transversal) (stack : List Nat),
    j ∈ keysT t →
    (∀ m ∈ ms, ∀ x, m.2.fwd (m.1.fwd x) = x) →
    WalkInvT t base →
    (∀ e ∈ t, P e.2) →
    (∀ m ∈ ms, P m.2) →
    (keysT t).Nodup →
    WalkInvT (stMovePass j ms (t, stack)).1 base ∧
      (∀ e ∈ (stMovePass j ms (t, stack)).1, P e.2) ∧
      (keysT (stMovePass j ms (t, stack)).1).Nodup := by
  intro ms
  induction ms with
  | nil =>
    intro t stack _ _ hwalk hvals _ hnd
    exact ⟨hwalk, hvals, hnd⟩
  | cons m ms ih =>
    intro t stack hj hcancel hwalk hvals hmsP hnd
    rw [stMovePass_cons_eq]
    by_cases hc : containsT t (m.1.fwd j)
    · rw [if_pos hc]
      exact ih t stack hj
        (fun m' hm' => hcancel m' (List.mem_cons_of_mem _ hm'))
        hwalk hvals (fun m' hm' => hmsP m' (List.mem_cons_of_mem _ hm')) hnd
    · rw [if_neg hc]
      set img := m.1.fwd j with himg
      have himgnot : img ∉ keysT t := fun hmem => hc (containsT_iff_mem.mpr hmem)
      have hjne : j ≠ img := fun h => himgnot (h ▸ hj)
      have hj2 : j ∈ keysT (t ++ [(img, m.2)]) := by
        rw [keysT_append]
        exact List.mem_append_left _ hj
      have hwalk2 : WalkInvT (t ++ [(img, m.2)]) base := by
        rcases hwalk with ⟨dfun, hbd, hstep⟩
        refine ⟨fun x => if x = img then dfun j + 1 else dfun x, ?_, ?_⟩
        · intro α hα
          rw [keysT_append] at hα
          rcases List.mem_append.mp hα with h' | h'
          · have hne : α ≠ img := fun h => himgnot (h ▸ h')
            show (if α = img then dfun j + 1 else dfun α) < _
            rw [if_neg hne]
            have := hbd α h'
            simp only [List.length_append, List.length_cons, List.length_nil]
            omega
          · simp [keysT] at h'
            subst h'
            show (if img = img then dfun j + 1 else dfun img) < _
            rw [if_pos rfl]
            have := hbd j hj
            simp only [List.length_append, List.length_cons, List.length_nil]
            omega
        · intro α hα hne
          rw [keysT_append] at hα
          rcases List.mem_append.mp hα with h' | h'
          · rcases hstep α h' hne with ⟨g, hl, hmem, hlt⟩
            have hαne : α ≠ img := fun h => himgnot (h ▸ h')
            have hgne : g.fwd α ≠ img := fun h => himgnot (h ▸ hmem)
            refine ⟨g, ?_, ?_, ?_⟩
            · rw [lookupT_append_left h']
              exact hl
            · rw [keysT_append]
              exact List.mem_append_left _ hmem
            · show (if g.fwd α = img then dfun j + 1 else dfun (g.fwd α))
                < (if α = img then dfun j + 1 else dfun α)
              rw [if_neg hgne, if_neg hαne]
              exact hlt
          · simp [keysT] at h'
            subst h'
            refine ⟨m.2, ?_, ?_, ?_⟩
            · rw [lookupT_append_right himgnot]
              simp [lookupT]
            · rw [hcancel m (List.mem_cons_self _ _) j]
              rw [keysT_append]
              exact List.mem_append_left _ hj
            · rw [hcancel m (List.mem_cons_self _ _) j]
              show (if j = img then dfun j + 1 else dfun j)
                < (if img = img then dfun j + 1 else dfun img)
              rw [if_neg hjne, if_pos rfl]
              omega
      have hvals2 : ∀ e ∈ t ++ [(img, m.2)], P e.2 := by
        intro e he
        rcases List.mem_append.mp he with h' | h'
        · exact hvals e h'
        · simp at h'
          subst h'
          exact hmsP m (List.mem_cons_self _ _)
      have hnd2 : (keysT (t ++ [(img, m.2)])).Nodup := by
        rw [keysT_append]
        refine List.Nodup.append hnd (by simp [keysT]) ?_
        intro a ha hb
        simp [keysT] at hb
        exact himgnot (hb ▸ ha)
      exact ih (t ++ [(img, m.2)]) (img :: stack) hj2
        (fun m' hm' => hcancel m' (List.mem_cons_of_mem _ hm'))
        hwalk2 hvals2 (fun m' hm' => hmsP m' (List.mem_cons_of_mem _ hm')) hnd2

/-- The orbit closure loop keeps the tree walkable, its values covered,
and its keys duplicate-free. -/
theorem stBfs_wf (moves : List (Perm × Perm)) (base : Nat) (P : Perm → Prop)
    (hcancel : ∀ m ∈ moves, ∀ x, m.2.fwd (m.1.fwd x) = x)
    (hmsP : ∀ m ∈ moves, P m.2) :
    ∀ (fuel : Nat) (t : Transversal) (stack : List Nat) (t2 : Transversal),
    stBfs moves fuel t stack = some t2 →
    (∀ x ∈ stack, x ∈ keysT t) →
    WalkInvT t base →
    (∀ e ∈ t, P e.2) →
    (keysT t).Nodup →
    WalkInvT t2 base ∧ (∀ e ∈ t2, P e.2) ∧ (keysT t2).Nodup := by
  intro fuel
  induction fuel with
  | zero =>
    intro t stack t2 h
    simp [stBfs] at h
  | succ fuel ih =>
    intro t stack t2 h hstack hwalk hvals hnd
    cases stack with
    | nil =>
      have ht2 : t2 = t := by
        simpa [stBfs] using h.symm
      subst ht2
      exact ⟨hwalk, hvals, hnd⟩
    | cons j stack' =>
      have hrec : stBfs moves fuel
          (stMovePass j moves (t, stack')).1
          (stMovePass j moves (t, stack')).2 = some t2 := by
        simpa [stBfs] using h
      obtain ⟨g1, g2, g3, g4, g5, g6, g7⟩ := stMovePass_spec j moves t stack'
      have hjk : j ∈ keysT t := hstack j (List.mem_cons_self _ _)
      obtain ⟨w1, w2, w3⟩ := stMovePass_wf j base P moves t stack' hjk
        hcancel hwalk hvals hmsP hnd
      have hstack2 : ∀ x ∈ (stMovePass j moves (t, stack')).2,
          x ∈ keysT (stMovePass j moves (t, stack')).1 := by
        intro x hx
        rcases g7 x hx with h' | h'
        · exact g2 x (hstack x (List.mem_cons_of_mem _ h'))
        · exact h'
      exact ih _ _ _ hrec hstack2 w1 w2 w3

/-- Record-level well-formedness used by the base-change correctness
argument: the base maps to the identity, the keys are duplicate-free,
and every key has a representative inside the level subgroup. -/
def TransWf (r : ChainRecord) : Prop :=
  lookupT r.transversal r.base = some Perm.id ∧
    (keysT r.transversal).Nodup ∧
    ∀ α ∈ keysT r.transversal, ∃ u,
      representativeRaw r.transversal r.base α = some u ∧
        InClosure r.gens u

/-- update_schrier_tree produces a well-formed record. -/
theorem ust_wf (r : ChainRecord) (g : Perm) (fuel : Nat) (r2 : ChainRecord)
    (hrun : updateSchrierTree r g fuel = some r2) : TransWf r2 := by
  unfold updateSchrierTree at hrun
  by_cases hid : g.isId
  · rw [if_pos hid] at hrun
    exact absurd hrun (by simp)
  · rw [if_neg hid] at hrun
    cases hst : shallowTransversalM (r.gens ++ [g]) r.base fuel with
    | none =>
      rw [hst] at hrun
      exact absurd hrun (by simp)
    | some t2 =>
      rw [hst] at hrun
      simp only [Option.some.injEq] at hrun
      have hP : ∀ m ∈ stMoves (r.gens ++ [g]),
          InClosure (r.gens ++ [g]) m.2 := by
        intro m hm
        rcases mem_stMoves hm with ⟨g', hg', rfl | rfl⟩
        · exact InClosure.invc (InClosure.genc hg')
        · exact InClosure.genc hg'
      have hwf := stBfs_wf (stMoves (r.gens ++ [g])) r.base
        (InClosure (r.gens ++ [g]))
        (fun m hm => stMoves_cancel hm) hP fuel
        [(r.base, Perm.id)] [r.base] t2 hst
        (by intro x hx; simp at hx; simp [keysT, hx])
        ⟨fun _ => 0, by simp [keysT], by
          intro α hα hne
          simp [keysT] at hα
          exact absurd hα hne⟩
        (by
          intro e he
          simp at he
          rw [he]
          exact InClosure.idc)
        (by simp [keysT])
      obtain ⟨hwalk, hvals, hnd⟩ := hwf
      -- the base entry survives the appends
      have hbase2 : lookupT t2 r.base = some Perm.id := by
        obtain ⟨s1, _, _, _⟩ := stBfs_spec (stMoves (r.gens ++ [g]))
          (fun _ => True) (fun _ _ _ _ => trivial) fuel
          [(r.base, Perm.id)] [r.base] t2 hst
          (by intro x hx; simp at hx; simp [keysT, hx])
          (fun _ _ => trivial)
          (by
            intro α hα
            simp [keysT] at hα
            subst hα
            exact Or.inl (by simp))
        apply s1
        simp [lookupT]
      subst hrun
      exact ⟨hbase2, hnd,
        representativeRaw_of_walkInv hwalk hvals⟩

/-! ## The base-change builder (src/group/stabchain/base_change_builder/random.rs) -/

/-- Modelled from the spec: the chain order is the product of the
orbit (= transversal) sizes (spec sections 3 and 4.6; the order
function itself lives outside src/). -/
def chainOrder (chain : List ChainRecord) : Nat :=
  (chain.map (fun r => r.transversal.length)).prod

/-- strong_generating_set: the union of all records' generators
(spec 4.6). -/
def strongGeneratingSet (chain : List ChainRecord) : List Perm :=
  chain.flatMap (fun r => r.gens)

/-- Modelled from the spec: StabchainRecord::trivial_record (spec
4.10): a record with the given base point, no generators, and the
trivial transversal. -/
def trivialRecord (b : Nat) : ChainRecord :=
  { base := b, gens := [], transversal := [(b, Perm.id)] }

/-- The sifting loop of residue_with_dropout (random.rs lines
103-120): divide by the representative at each level until the image
leaves the orbit. -/
def residueSift : List ChainRecord → Perm → Nat → Option (Perm × Nat)
  | [], g, i => some (g, i)
  | r :: rest, g, i =>
    let application := g.fwd r.base
    if containsT r.transversal application then
      match representativeRaw r.transversal r.base application with
      | none => none
      | some u => residueSift rest (g.divide u) (i + 1)
    else some (g, i)

/-- residue_with_dropout (random.rs lines 97-122), with the identity
early exit. -/
def residueWithDropout (chain : List ChainRecord) (p : Perm) :
    Option (Perm × Nat) :=
  if p.isId then some (p, chain.length)
  else residueSift chain p 0

/-- Replace the record at the given level by its update_schrier_tree
augmentation. -/
def updateChainAt (chain : List ChainRecord) (i : Nat) (g : Perm)
    (stFuel : Nat) : Option (List ChainRecord) :=
  match chain[i]? with
  | none => none
  | some r =>
    match updateSchrierTree r g stFuel with
    | none => none
    | some r' => some (chain.set i r')

/-- The while loop of random_base_change (random.rs lines 70-77): draw
a random element, sift it through the new chain, augment at the
drop-out level, and stop once the order reaches the target. -/
def rbcLoop (newBase : List Nat) (targetOrder : Nat)
    (stream : Nat → RpChoice) (stFuel : Nat) :
    Nat → Nat → RandPermSt → List ChainRecord → Option (List ChainRecord)
  | 0, _, _, _ => none
  | fuel + 1, pos, rp, chain =>
    if chainOrder chain < targetOrder then
      let draw := randomPermutation rp (stream pos)
      match residueWithDropout chain draw.2 with
      | none => none
      | some gd =>
        if gd.2 < newBase.length then
          match updateChainAt chain gd.2 gd.1 stFuel with
          | none => none
          | some chain' =>
            rbcLoop newBase targetOrder stream stFuel fuel (pos + 1) draw.1 chain'
        else rbcLoop newBase targetOrder stream stFuel fuel (pos + 1) draw.1 chain
    else some chain

/-- random_base_change (random.rs lines 54-79): read the target order
and the strong generating set off the existing chain, initialize the
new chain with trivial records for the new base points, create the
random element generator (MIN_SIZE 11, INITIAL_RUNS 50 warm-up draws),
and run the loop. -/
def randomBaseChange (oldChain : List ChainRecord) (newBase : List Nat)
    (stream : Nat → RpChoice) (stFuel loopFuel : Nat) :
    Option (List ChainRecord) :=
  let targetOrder := chainOrder oldChain
  let sgs := strongGeneratingSet oldChain
  let initChain := newBase.map trivialRecord
  let rp := (randPermRun (randPermInit 11 sgs) ((List.range 50).map stream)).1
  rbcLoop newBase targetOrder stream stFuel loopFuel 50 rp initChain

/-- The set_base assertion (random.rs lines 130-140): the new base has
no duplicates and contains every point of the chain's current base. -/
def setBaseGuard (chainBase newBase : List Nat) : Bool :=
  (newBase.dedup.length == newBase.length) &&
    chainBase.all (fun pt => newBase.contains pt)

/-- set_base (random.rs lines 130-140): check the assertion at entry;
when it fails, fail fast without constructing anything, otherwise run
random_base_change.  The outer Option is the entry check; the inner
Option is the loop's own fuel. -/
def setBase (oldChain : List ChainRecord) (newBase : List Nat)
    (stream : Nat → RpChoice) (stFuel loopFuel : Nat) :
    Option (Option (List ChainRecord)) :=
  if setBaseGuard (oldChain.map (fun r => r.base)) newBase then
    some (randomBaseChange oldChain newBase stream stFuel loopFuel)
  else none

theorem nodup_iff_dedup_length {l : List Nat} :
    l.Nodup ↔ l.dedup.length = l.length := by
  constructor
  · intro h
    rw [List.dedup_eq_self.mpr h]
  · intro h
    have hsub := List.dedup_sublist l
    have := List.Sublist.eq_of_length hsub h
    rw [← this]
    exact l.nodup_dedup

/-- C7: set_base rejects the input at entry, before any construction,
exactly when the proposed base contains a duplicate or omits a point of
the chain's current base. -/
theorem c7_set_base_fail_fast (oldChain : List ChainRecord)
    (newBase : List Nat) (stream : Nat → RpChoice) (stFuel loopFuel : Nat) :
    setBase oldChain newBase stream stFuel loopFuel = none ↔
      (¬ newBase.Nodup ∨
        ∃ pt ∈ oldChain.map (fun r => r.base), pt ∉ newBase) := by
  unfold setBase
  by_cases hg : setBaseGuard (oldChain.map (fun r => r.base)) newBase
  · rw [if_pos hg]
    unfold setBaseGuard at hg
    rcases Bool.and_eq_true_iff.mp hg with ⟨h1, h2⟩
    constructor
    · intro h
      exact absurd h (by simp)
    · rintro (h | ⟨pt, hpt, hnot⟩)
      · exact absurd (nodup_iff_dedup_length.mpr (Nat.beq_eq_true_eq _ _ |>.mp h1)) h
      · exfalso
        have := List.all_eq_true.mp h2 pt hpt
        simp at this
        exact hnot this
  · rw [if_neg hg]
    unfold setBaseGuard at hg
    constructor
    · intro _
      by_cases h1 : (newBase.dedup.length == newBase.length) = true
      · right
        by_cases h2 : ((oldChain.map (fun r => r.base)).all
            fun pt => newBase.contains pt) = true
        · exact absurd (by rw [h1, h2]; rfl) hg
        · rw [List.all_eq_true] at h2
          push_neg at h2
          rcases h2 with ⟨pt, hpt, hc⟩
          exact ⟨pt, hpt, by simpa using hc⟩
      · left
        intro hnd
        exact h1 (Nat.beq_eq_true_eq _ _ |>.mpr (nodup_iff_dedup_length.mp hnd))
    · intro _
      rfl

theorem InClosure_trans {sgs gens : List Perm} {u : Perm}
    (h : InClosure gens u) (hsub : ∀ q ∈ gens, InClosure sgs q) :
    InClosure sgs u := by
  induction h with
  | idc => exact InClosure.idc
  | genc hmem => exact hsub _ hmem
  | mulc _ _ ih1 ih2 => exact InClosure.mulc ih1 ih2
  | invc _ ih => exact InClosure.invc ih

theorem fwd_fix_bwd {q : Perm} {b : Nat} (h : q.fwd b = b) : q.bwd b = b := by
  calc q.bwd b = q.bwd (q.fwd b) := by rw [h]
    _ = b := q.bwd_fwd b

theorem InClosure_fixes {gens : List Perm} {u : Perm} {b : Nat}
    (h : InClosure gens u) (hfix : ∀ q ∈ gens, q.fwd b = b) :
    u.fwd b = b := by
  induction h with
  | idc => rfl
  | genc hmem => exact hfix _ hmem
  | mulc _ _ ih1 ih2 =>
    show _ = b
    rw [Perm.mul_fwd, ih1, ih2]
  | invc hp ih =>
    show _ = b
    rw [Perm.inv_fwd]
    exact fwd_fix_bwd ih

/-- The base-change chain invariant: every record's generators lie in
the generated subgroup and fix all earlier base points, and every
record is well-formed. -/
def CInvS (sgs : List Perm) : List Nat → List ChainRecord → Prop
  | _, [] => True
  | bs, r :: rest =>
    (∀ q ∈ r.gens, InClosure sgs q ∧ ∀ b ∈ bs, q.fwd b = b) ∧
      TransWf r ∧ CInvS sgs (bs ++ [r.base]) rest

theorem CInvS_get (sgs : List Perm) :
    ∀ (chain : List ChainRecord) (bs : List Nat) (i : Nat) (r0 : ChainRecord),
    CInvS sgs bs chain → chain[i]? = some r0 →
    (∀ q ∈ r0.gens, InClosure sgs q ∧
      ∀ b ∈ bs ++ (chain.take i).map (fun r => r.base), q.fwd b = b) ∧
      TransWf r0 := by
  intro chain
  induction chain with
  | nil =>
    intro bs i r0 _ hget
    simp at hget
  | cons r rest ih =>
    intro bs i r0 hinv hget
    obtain ⟨hgens, hwf, htail⟩ := hinv
    cases i with
    | zero =>
      simp at hget
      subst hget
      refine ⟨?_, hwf⟩
      intro q hq
      refine ⟨(hgens q hq).1, ?_⟩
      intro b hb
      simp at hb
      exact (hgens q hq).2 b hb
    | succ i =>
      simp only [List.getElem?_cons_succ] at hget
      have := ih (bs ++ [r.base]) i r0 htail hget
      refine ⟨?_, this.2⟩
      intro q hq
      refine ⟨(this.1 q hq).1, ?_⟩
      intro b hb
      apply (this.1 q hq).2
      simp only [List.take_succ_cons, List.map_cons] at hb
      rcases List.mem_append.mp hb with h' | h'
      · exact List.mem_append_left _ (List.mem_append_left _ h')
      · rcases List.mem_cons.mp h' with rfl | h''
        · exact List.mem_append_left _ (List.mem_append_right _ (by simp))
        · exact List.mem_append_right _ h''

theorem CInvS_set (sgs : List Perm) :
    ∀ (chain : List ChainRecord) (bs : List Nat) (i : Nat)
      (r0 r' : ChainRecord),
    CInvS sgs bs chain → chain[i]? = some r0 →
    (∀ q ∈ r'.gens, InClosure sgs q ∧
      ∀ b ∈ bs ++ (chain.take i).map (fun r => r.base), q.fwd b = b) →
    TransWf r' → r'.base = r0.base →
    CInvS sgs bs (chain.set i r') := by
  intro chain
  induction chain with
  | nil =>
    intro bs i r0 r' _ hget
    simp at hget
  | cons r rest ih =>
    intro bs i r0 r' hinv hget hg hwf hbase
    obtain ⟨hgens, hrwf, htail⟩ := hinv
    cases i with
    | zero =>
      simp at hget
      subst hget
      refine ⟨?_, hwf, ?_⟩
      · intro q hq
        refine ⟨(hg q hq).1, ?_⟩
        intro b hb
        exact (hg q hq).2 b (by simp [hb])
      · show CInvS sgs (bs ++ [r'.base]) rest
        rw [hbase]
        exact htail
    | succ i =>
      simp only [List.getElem?_cons_succ] at hget
      refine ⟨hgens, hrwf, ?_⟩
      show CInvS sgs (bs ++ [r.base]) (rest.set i r')
      apply ih (bs ++ [r.base]) i r0 r' htail hget ?_ hwf hbase
      intro q hq
      refine ⟨(hg q hq).1, ?_⟩
      intro b hb
      apply (hg q hq).2
      simp only [List.take_succ_cons, List.map_cons]
      rcases List.mem_append.mp hb with h' | h'
      · rcases List.mem_append.mp h' with h'' | h''
        · exact List.mem_append_left _ h''
        · simp at h''
          exact List.mem_append_right _ (by simp [h''])
      · exact List.mem_append_right _ (List.mem_cons_of_mem _ h')

/-- Sifting through an invariant-satisfying chain keeps the residue in
the generated subgroup and makes it fix every base point above the
drop-out level (together with every previously fixed point). -/
theorem residueSift_spec (sgs : List Perm) :
    ∀ (chain : List ChainRecord) (bs : List Nat) (g : Perm) (i0 : Nat)
      (g' : Perm) (i' : Nat),
    CInvS sgs bs chain → InClosure sgs g → (∀ b ∈ bs, g.fwd b = b) →
    residueSift chain g i0 = some (g', i') →
    InClosure sgs g' ∧ i0 ≤ i' ∧ i' - i0 ≤ chain.length ∧
      ∀ b ∈ bs ++ ((chain.take (i' - i0)).map (fun r => r.base)),
        g'.fwd b = b := by
  intro chain
  induction chain with
  | nil =>
    intro bs g i0 g' i' _ hcl hfix hrun
    simp only [residueSift, Option.some.injEq, Prod.mk.injEq] at hrun
    obtain ⟨rfl, rfl⟩ := hrun
    refine ⟨hcl, le_refl _, by simp, ?_⟩
    intro b hb
    simp at hb
    exact hfix b hb
  | cons r rest ih =>
    intro bs g i0 g' i' hinv hcl hfix hrun
    obtain ⟨hgens, hwf, htail⟩ := hinv
    simp only [residueSift] at hrun
    by_cases hc : containsT r.transversal (g.fwd r.base)
    · rw [if_pos hc] at hrun
      obtain ⟨hb0, hnd, hreps⟩ := hwf
      rcases hreps _ (containsT_iff_mem.mp hc) with ⟨u, hu, hucl⟩
      rw [hu] at hrun
      have huS : InClosure sgs u :=
        InClosure_trans hucl (fun q hq => (hgens q hq).1)
      have hufix : ∀ b ∈ bs, u.fwd b = b := by
        intro b hb
        exact InClosure_fixes hucl (fun q hq => (hgens q hq).2 b hb)
      have hg2cl : InClosure sgs (g.divide u) :=
        InClosure.mulc hcl (InClosure.invc huS)
      have hg2fix : ∀ b ∈ bs ++ [r.base], (g.divide u).fwd b = b := by
        intro b hb
        rcases List.mem_append.mp hb with h' | h'
        · show u.bwd (g.fwd b) = b
          rw [hfix b h', fwd_fix_bwd (hufix b h')]
        · simp at h'
          subst h'
          show u.bwd (g.fwd r.base) = r.base
          have := representativeRaw_fwd_base hu
          calc u.bwd (g.fwd r.base) = u.bwd (u.fwd r.base) := by rw [this]
            _ = r.base := u.bwd_fwd r.base
      obtain ⟨c1, c2, c3, c4⟩ := ih (bs ++ [r.base]) (g.divide u) (i0 + 1)
        g' i' htail hg2cl hg2fix hrun
      refine ⟨c1, by omega, ?_, ?_⟩
      · simp only [List.length_cons]
        omega
      · intro b hb
        apply c4
        have hsplit : i' - i0 = (i' - (i0 + 1)) + 1 := by omega
        rw [hsplit] at hb
        simp only [List.take_succ_cons, List.map_cons] at hb
        rcases List.mem_append.mp hb with h' | h'
        · exact List.mem_append_left _ (List.mem_append_left _ h')
        · rcases List.mem_cons.mp h' with rfl | h''
          · exact List.mem_append_left _ (List.mem_append_right _ (by simp))
          · exact List.mem_append_right _ h''
    · rw [if_neg hc] at hrun
      simp only [Option.some.injEq, Prod.mk.injEq] at hrun
      obtain ⟨rfl, rfl⟩ := hrun
      refine ⟨hcl, le_refl _, by simp, ?_⟩
      intro b hb
      simp at hb
      exact hfix b hb

/-- Upper bound on the size of the generated subgroup: every list of
pairwise-distinct closure elements has length at most N. -/
def GroupOrderBound (gens : List Perm) (N : Nat) : Prop :=
  ∀ l : List Perm, (∀ p ∈ l, InClosure gens p) →
    l.Pairwise (fun p q => ∃ x, p.fwd x ≠ q.fwd x) → l.length ≤ N

theorem exists_pair_list {P : Nat → Perm → Prop} :
    ∀ (ks : List Nat), (∀ α ∈ ks, ∃ u, P α u) →
    ∃ us : List (Nat × Perm), us.map Prod.fst = ks ∧ ∀ e ∈ us, P e.1 e.2 := by
  intro ks
  induction ks with
  | nil => exact fun _ => ⟨[], rfl, by simp⟩
  | cons k ks ih =>
    intro h
    rcases h k (List.mem_cons_self _ _) with ⟨u, hu⟩
    rcases ih (fun α hα => h α (List.mem_cons_of_mem _ hα)) with ⟨us, hmap, hP⟩
    refine ⟨(k, u) :: us, by simp [hmap], ?_⟩
    intro e he
    rcases List.mem_cons.mp he with rfl | he'
    · exact hu
    · exact hP e he'

theorem length_flatMap_const {α β : Type} (l : List α) (f : α → List β)
    (k : Nat) (h : ∀ a ∈ l, (f a).length = k) :
    (l.flatMap f).length = l.length * k := by
  induction l with
  | nil => simp
  | cons a rest ih =>
    rw [List.flatMap_cons, List.length_append,
      h a (List.mem_cons_self _ _),
      ih (fun a' ha' => h a' (List.mem_cons_of_mem _ ha'))]
    simp only [List.length_cons]
    rw [Nat.succ_mul]
    omega

/-- The counting argument: an invariant-satisfying chain gives a list
of pairwise-distinct subgroup elements, one per tuple of coset
representatives, of length equal to the chain's order. -/
theorem chain_counting (sgs : List Perm) :
    ∀ (chain : List ChainRecord) (bs : List Nat),
    CInvS sgs bs chain →
    ∃ l : List Perm, l.length = chainOrder chain ∧
      l.Pairwise (fun p q => ∃ x, p.fwd x ≠ q.fwd x) ∧
      ∀ p ∈ l, InClosure sgs p ∧ ∀ b ∈ bs, p.fwd b = b := by
  intro chain
  induction chain with
  | nil =>
    intro bs _
    refine ⟨[Perm.id], by simp [chainOrder], by simp, ?_⟩
    intro p hp
    simp at hp
    subst hp
    exact ⟨InClosure.idc, fun b _ => rfl⟩
  | cons r rest ih =>
    intro bs hinv
    obtain ⟨hgens, hwf, htail⟩ := hinv
    obtain ⟨hb0, hnd, hreps⟩ := hwf
    rcases ih (bs ++ [r.base]) htail with ⟨l', hlen', hpw', hmem'⟩
    rcases exists_pair_list (P := fun α u =>
        representativeRaw r.transversal r.base α = some u ∧
          InClosure r.gens u) (keysT r.transversal) hreps with ⟨us, hmap, hus⟩
    refine ⟨us.flatMap (fun e => l'.map (fun p => p.mul e.2)), ?_, ?_, ?_⟩
    · rw [length_flatMap_const us _ l'.length (fun e _ => by simp)]
      have huslen : us.length = r.transversal.length := by
        have := congrArg List.length hmap
        simpa [keysT] using this
      rw [huslen, hlen']
      simp [chainOrder]
    · rw [List.pairwise_flatMap]
      constructor
      · intro e _
        rw [List.pairwise_map]
        apply List.Pairwise.imp ?_ hpw'
        intro p q hpq
        rcases hpq with ⟨x, hx⟩
        refine ⟨x, ?_⟩
        intro hcontra
        exact hx (e.2.fwd_inj hcontra)
      · have husnd : us.Pairwise (fun e e' => e.1 ≠ e'.1) := by
          have : (us.map Prod.fst).Pairwise (fun a b => a ≠ b) := by
            rw [hmap]
            exact hnd
          exact (List.pairwise_map.mp this)
        apply List.Pairwise.imp_of_mem ?_ husnd
        intro e e' he he' hne a ha b hb
        rcases List.mem_map.mp ha with ⟨p, hp, rfl⟩
        rcases List.mem_map.mp hb with ⟨q, hq, rfl⟩
        refine ⟨r.base, ?_⟩
        have hpfix : p.fwd r.base = r.base :=
          (hmem' p hp).2 r.base (List.mem_append_right _ (by simp))
        have hqfix : q.fwd r.base = r.base :=
          (hmem' q hq).2 r.base (List.mem_append_right _ (by simp))
        have he1 : (p.mul e.2).fwd r.base = e.1 := by
          rw [Perm.mul_fwd, hpfix]
          exact representativeRaw_fwd_base (hus e he).1
        have he2 : (q.mul e'.2).fwd r.base = e'.1 := by
          rw [Perm.mul_fwd, hqfix]
          exact representativeRaw_fwd_base (hus e' he').1
        rw [he1, he2]
        exact hne
    · intro p hp
      rcases List.mem_flatMap.mp hp with ⟨e, he, hpe⟩
      rcases List.mem_map.mp hpe with ⟨q, hq, rfl⟩
      have hqcl := (hmem' q hq).1
      have hucl : InClosure sgs e.2 :=
        InClosure_trans (hus e he).2 (fun q' hq' => (hgens q' hq').1)
      refine ⟨InClosure.mulc hqcl hucl, ?_⟩
      intro b hb
      have hqfix : q.fwd b = b := (hmem' q hq).2 b (List.mem_append_left _ hb)
      have hufix : e.2.fwd b = b :=
        InClosure_fixes (hus e he).2 (fun q' hq' => (hgens q' hq').2 b hb)
      rw [Perm.mul_fwd, hqfix, hufix]

theorem trivialChain_inv (sgs : List Perm) :
    ∀ (newBase : List Nat) (bs : List Nat),
    CInvS sgs bs (newBase.map trivialRecord) := by
  intro newBase
  induction newBase with
  | nil => intro bs; trivial
  | cons b rest ih =>
    intro bs
    refine ⟨?_, ?_, ih (bs ++ [b])⟩
    · intro q hq
      simp [trivialRecord] at hq
    · refine ⟨by simp [trivialRecord, lookupT], by simp [trivialRecord, keysT], ?_⟩
      intro α hα
      have hα' : α = b := by simpa [trivialRecord, keysT] using hα
      subst hα'
      refine ⟨Perm.id.inv, ?_, InClosure.invc InClosure.idc⟩
      unfold representativeRaw
      have hw : walkWord ((trivialRecord α).transversal.length + 1)
          (trivialRecord α).transversal (trivialRecord α).base α = some [] := by
        simp [trivialRecord, walkWord]
      rw [hw]
      rfl

/-- The base-change loop, under the chain invariant and the order
bound: whenever it returns, the returned chain's order is exactly the
target. -/
theorem rbcLoop_spec (newBase : List Nat) (target : Nat)
    (stream : Nat → RpChoice) (stFuel : Nat) (sgs : List Perm)
    (hbound : GroupOrderBound sgs target) :
    ∀ (fuel pos : Nat) (rp : RandPermSt) (chain chain' : List ChainRecord),
    rbcLoop newBase target stream stFuel fuel pos rp chain = some chain' →
    CInvS sgs [] chain →
    chain.length = newBase.length →
    SlateInv sgs rp →
    chainOrder chain' = target := by
  intro fuel
  induction fuel with
  | zero =>
    intro pos rp chain chain' h
    simp [rbcLoop] at h
  | succ fuel ih =>
    intro pos rp chain chain' h hinv hlen hslate
    unfold rbcLoop at h
    by_cases hlt : chainOrder chain < target
    · rw [if_pos hlt] at h
      simp only [] at h
      have hstep := randomPermutation_inv hslate (stream pos)
      set draw := randomPermutation rp (stream pos) with hdraw
      split at h
      · exact absurd h (by simp)
      · rename_i gd hres
        have hgd : InClosure sgs gd.1 ∧
            ∀ b ∈ (chain.take gd.2).map (fun r => r.base), gd.1.fwd b = b := by
          unfold residueWithDropout at hres
          by_cases hid : draw.2.isId
          · rw [if_pos hid] at hres
            simp only [Option.some.injEq] at hres
            subst hres
            refine ⟨hstep.2, ?_⟩
            intro b _
            exact (Perm.isId_iff _).mp hid b
          · rw [if_neg hid] at hres
            have := residueSift_spec sgs chain [] draw.2 0 gd.1 gd.2 hinv
              hstep.2 (by simp) (by rw [hres])
            refine ⟨this.1, ?_⟩
            intro b hb
            apply this.2.2.2
            simpa using hb
        split at h
        · rename_i hdrop
          split at h
          · exact absurd h (by simp)
          · rename_i chain2 hupd
            unfold updateChainAt at hupd
            split at hupd
            · exact absurd hupd (by simp)
            · rename_i r0 hget
              split at hupd
              · exact absurd hupd (by simp)
              · rename_i r' hust
                simp only [Option.some.injEq] at hupd
                subst hupd
                have hr' : r'.gens = r0.gens ++ [gd.1] ∧ r'.base = r0.base := by
                  unfold updateSchrierTree at hust
                  by_cases hid : Perm.isId gd.1
                  · rw [if_pos hid] at hust
                    exact absurd hust (by simp)
                  · rw [if_neg hid] at hust
                    cases hst : shallowTransversalM (r0.gens ++ [gd.1]) r0.base stFuel with
                    | none =>
                      rw [hst] at hust
                      exact absurd hust (by simp)
                    | some t =>
                      rw [hst] at hust
                      simp only [Option.some.injEq] at hust
                      subst hust
                      exact ⟨rfl, rfl⟩
                have hr'wf : TransWf r' := ust_wf r0 gd.1 stFuel r' hust
                have hold := CInvS_get sgs chain [] gd.2 r0 hinv hget
                have hinv2 : CInvS sgs [] (chain.set gd.2 r') := by
                  apply CInvS_set sgs chain [] gd.2 r0 r' hinv hget ?_ hr'wf hr'.2
                  intro q hq
                  rw [hr'.1] at hq
                  rcases List.mem_append.mp hq with h' | h'
                  · exact hold.1 q h'
                  · simp at h'
                    subst h'
                    refine ⟨hgd.1, ?_⟩
                    intro b hb
                    apply hgd.2
                    simpa using hb
                exact ih (pos + 1) draw.1 (chain.set gd.2 r') chain' h hinv2
                  (by rw [List.length_set]; exact hlen) hstep.1
        · rename_i hdrop
          exact ih (pos + 1) draw.1 chain chain' h hinv hlen hstep.1
    · rw [if_neg hlt] at h
      simp only [Option.some.injEq] at h
      subst h
      rcases chain_counting sgs chain [] hinv with ⟨l, hlen2, hpw, hmem⟩
      have hle : chainOrder chain ≤ target := by
        rw [← hlen2]
        exact hbound l (fun p hp => (hmem p hp).1) hpw
      omega

/-- C3: whenever random_base_change terminates, the new chain's order
equals the order N of the input chain (assuming the input chain is a
valid chain for its group, i.e. N bounds the subgroup generated by its
strong generating set); the loop never exits with the product of orbit
sizes different from N. -/
theorem c3_base_change_order (oldChain : List ChainRecord)
    (newBase : List Nat) (stream : Nat → RpChoice) (stFuel loopFuel : Nat)
    (chain' : List ChainRecord)
    (hbound : GroupOrderBound (strongGeneratingSet oldChain)
      (chainOrder oldChain))
    (hrun : randomBaseChange oldChain newBase stream stFuel loopFuel
      = some chain') :
    chainOrder chain' = chainOrder oldChain := by
  unfold randomBaseChange at hrun
  apply rbcLoop_spec newBase (chainOrder oldChain) stream stFuel
    (strongGeneratingSet oldChain) hbound loopFuel 50 _ _ chain' hrun
  · exact trivialChain_inv _ newBase []
  · simp
  · exact (randPermRun_inv (randPermInit_inv (strongGeneratingSet oldChain) 11)
      ((List.range 50).map stream)).1

/-- The constant choice stream of the C3 witness. -/
def streamW : Nat → RpChoice := fun _ => ⟨0, 1, 1, true⟩

/-- The chain produced by the C3 witness run: base change of the empty
chain (order 1) to the base [0]. -/
def c3OutW : List ChainRecord := (randomBaseChange [] [0] streamW 1 1).getD []

/-- C3 witness: a concrete terminating base change whose output order
equals the input order. -/
theorem c3_base_change_order_witness :
    chainOrder c3OutW = chainOrder ([] : List ChainRecord) := by
  apply c3_base_change_order [] [0] streamW 1 1 c3OutW
  · intro l hcl hpw
    cases l with
    | nil => simp
    | cons p l2 =>
      cases l2 with
      | nil => simp [chainOrder]
      | cons q l3 =>
        exfalso
        have hrel := List.rel_of_pairwise_cons hpw (List.mem_cons_self _ _)
        rcases hrel with ⟨x, hx⟩
        have hp := InClosure.nil_fwd (hcl p (List.mem_cons_self _ _))
        have hq := InClosure.nil_fwd
          (hcl q (List.mem_cons_of_mem _ (List.mem_cons_self _ _)))
        rw [hp x, hq x] at hx
        exact hx rfl
  · rfl

/-! ## The randomized Schreier-Sims builder
(src/group/stabchain/builder/random/random_ift.rs)

Randomness is injected as an explicit stream of natural numbers; each
primitive draw consumes one stream position.  The builder state keeps
the current stream position. -/

/-- One bounded draw from the stream (rand gen_range). -/
def drawNat (stream : Nat → Nat) (pos k : Nat) : Nat × Nat :=
  (if k = 0 then 0 else stream pos % k, pos + 1)

/-- One coin flip from the stream (rand gen::\<bool\>). -/
def drawBool (stream : Nat → Nat) (pos : Nat) : Bool × Nat :=
  (stream pos % 2 == 1, pos + 1)

/-- Sampling without replacement (rand choose_multiple): repeatedly
draw an index and remove the chosen element. -/
def chooseMultipleL {α : Type} (dflt : α) (stream : Nat → Nat) :
    Nat → List α → Nat → (List α × Nat)
  | 0, _, pos => ([], pos)
  | k + 1, l, pos =>
    if l.isEmpty then ([], pos)
    else
      let d := drawNat stream pos l.length
      let rest := chooseMultipleL dflt stream k (l.eraseIdx d.1) d.2
      (l.getD d.1 dflt :: rest.1, rest.2)

/-- Coin-filter of a chosen sample (the .filter(|_| rng.gen()) step). -/
def filterCoin (stream : Nat → Nat) : List Perm → Nat → (List Perm × Nat)
  | [], pos => ([], pos)
  | x :: xs, pos =>
    let b := drawBool stream pos
    let rest := filterCoin stream xs b.2
    (if b.1 then x :: rest.1 else rest.1, rest.2)

/-- random_subproduct_word_subset (random_ift.rs lines 450-460). -/
def randomSubproductWordSubset (stream : Nat → Nat) (gens : List Perm)
    (k : Nat) (pos : Nat) : List Perm × Nat :=
  let cm := chooseMultipleL Perm.id stream k gens pos
  filterCoin stream cm.1 cm.2

/-- random_subproduct_word_full (random_ift.rs lines 462-469). -/
def randomSubproductWordFull (stream : Nat → Nat) (gens : List Perm)
    (pos : Nat) : List Perm × Nat :=
  randomSubproductWordSubset stream gens gens.length pos

/-- The interleaved w1/w2 subproduct pairs (random_ift.rs lines
151-161): the interleave of the full-subproduct iterator and the
short-subproduct iterator, taken 2·subproducts elements, consumes one
full and one short subproduct alternately. -/
def subproductPairs (stream : Nat → Nat) (gens : List Perm) :
    Nat → Nat → (List (List Perm) × Nat)
  | 0, pos => ([], pos)
  | cnt + 1, pos =>
    let w1 := randomSubproductWordFull stream gens pos
    let kd := drawNat stream w1.2 (1 + gens.length / 2)
    let w2 := randomSubproductWordSubset stream gens kd.1 kd.2
    let rest := subproductPairs stream gens cnt w2.2
    (w1.1 :: w2.1 :: rest.1, rest.2)

/-- The iterator of random coset-representative words (random_ift.rs
lines 163-174): choose a random orbit point and read off its
representative as a word. -/
def randomCosetRepWords (stream : Nat → Nat) (t : Transversal) (base : Nat) :
    Nat → Nat → Option (List (List Perm) × Nat)
  | 0, pos => some ([], pos)
  | cnt + 1, pos =>
    if (keysT t).isEmpty then none
    else
      let d := drawNat stream pos (keysT t).length
      let point := (keysT t).getD d.1 0
      match representativeRawAsWord t base point with
      | none => none
      | some w =>
        match randomCosetRepWords stream t base cnt d.2 with
        | none => none
        | some rest => some (w :: rest.1, rest.2)

/-- The builder constants (builder/random/parameters.rs, modelled from
their use sites): the four subproduct counts, the two sampling bounds
and the optional known order. -/
structure RConstants where
  c1 : Nat
  c2 : Nat
  c3 : Nat
  c4 : Nat
  orbit_bound : Nat
  base_bound : Nat
  order : Option Nat

/-- The randomized builder state (random_ift.rs lines 54-73). -/
structure RBuilderSt where
  current_pos : Nat
  chain : List ChainRecord
  n : Nat
  base : List Nat
  up_to_date : Nat
  rngpos : Nat

/-- random_schrier_generators_as_word (random_ift.rs lines 137-185):
t ← sum of transversal and generator sizes, 2·subproducts interleaved
subproduct words, coset_representatives · t random representative
words, all concatenations g ++ w. -/
def randomSchrierGeneratorsAsWord (stream : Nat → Nat) (st : RBuilderSt)
    (subproducts coset_representatives : Nat) (gens : List Perm) :
    Option (List (List Perm) × Nat) :=
  let t := (st.chain.map (fun r => r.transversal.length + r.gens.length)).sum
  match st.chain[st.current_pos]? with
  | none => none
  | some record =>
    let sp := subproductPairs stream gens subproducts st.rngpos
    match randomCosetRepWords stream record.transversal record.base
        (coset_representatives * t) sp.2 with
    | none => none
    | some gi =>
      some (gi.1.flatMap (fun g => sp.1.map (fun w => g ++ w)), gi.2)

/-- residue_as_words_from_words (random_ift.rs lines 490-521): sift a
word through the chain, appending representative inverses, and count
the levels passed. -/
def residueAsWordsFromWords : List ChainRecord → List Perm → Nat →
    Option (Nat × List Perm)
  | [], g, k => some (k, g)
  | r :: rest, g, k =>
    let application := applyPermutationWord g r.base
    if containsT r.transversal application then
      match representativeRaw r.transversal r.base application with
      | none => none
      | some u => residueAsWordsFromWords rest (g ++ [u.inv]) (k + 1)
    else some (k, g)

/-- is_trivial_residue (random_ift.rs lines 417-423). -/
def isTrivialResidue (w : List Perm) (points : List Nat) : Bool :=
  points.all (fun x => applyPermutationWord w x == x)

/-- Modelled from the spec: factored_transversal_complete_opt
(src/group/orbit/transversal/factored_transversal.rs, outside src/):
the complete factored transversal of the base's orbit, each entry
recording the inverse of the generator that first reached the point
(spec 4.2; the entry convention matches the ift.rs call sites). -/
def factoredTransversalCompleteOpt (gens : List Perm) (base : Nat)
    (fuel : Nat) : Option Transversal :=
  stBfs (gens.map (fun g => (g, g.inv))) fuel [(base, Perm.id)] [base]

/-- Turn the random products into Schreier generators (random_ift.rs
lines 253-259): append the reversed inverses of the residue word. -/
def appendResidueInv (records : List ChainRecord) :
    List (List Perm) → Option (List (List Perm))
  | [] => some []
  | gw :: rest =>
    match residueAsWordsFromWords records gw 0 with
    | none => none
    | some kbar =>
      match appendResidueInv records rest with
      | none => none
      | some rs => some ((gw ++ (kbar.2.map Perm.inv).reverse) :: rs)

/-- The body of the for-loop of sgc (random_ift.rs lines 261-318):
process each candidate, either discarding it, pushing a new bottom
record, or augmenting the drop-out level.  The record and b_star are
the clones taken at sgc entry. -/
def sgcLoop (stream : Nat → Nat) (C : RConstants)
    (selector : Perm → Nat → Nat) (auxFuel : Nat) (record : ChainRecord)
    (b_star : Nat) :
    List (List Perm) → RBuilderSt → Bool → Option (RBuilderSt × Bool)
  | [], st, all_disc => some (st, all_disc)
  | h :: hs, st, all_disc =>
    match residueAsWordsFromWords (st.chain.drop st.current_pos) h 0 with
    | none => none
    | some dr =>
      if st.current_pos + dr.1 = st.chain.length then
        let ptsRes : List Nat × Nat :=
          if record.transversal.length ≤ C.orbit_bound then
            (keysT record.transversal, st.rngpos)
          else if st.base.length ≤ C.base_bound then
            chooseMultipleL 0 stream C.base_bound (keysT record.transversal)
              st.rngpos
          else
            chooseMultipleL 0 stream b_star (keysT record.transversal) st.rngpos
        let st1 := { st with rngpos := ptsRes.2 }
        if isTrivialResidue dr.2 ptsRes.1 then
          sgcLoop stream C selector auxFuel record b_star hs st1 all_disc
        else
          let h_star := collapsePermWord dr.2
          let new_base_point := selector h_star st1.current_pos
          match factoredTransversalCompleteOpt [h_star] new_base_point auxFuel with
          | none => none
          | some tv =>
            let st2 := { st1 with
              base := st1.base ++ [new_base_point]
              chain := st1.chain ++
                [{ base := new_base_point, gens := [h_star], transversal := tv }]
              up_to_date := (st1.base.length + 1) + 1 }
            sgcLoop stream C selector auxFuel record b_star hs st2 false
      else
        let h_star := collapsePermWord dr.2
        let j := st.current_pos + dr.1
        match st.chain[j]? with
        | none => none
        | some rj =>
          match checkTransversalAugmentation rj h_star auxFuel with
          | none => none
          | some rj' =>
            sgcLoop stream C selector auxFuel record b_star hs
              { st with chain := st.chain.set j rj', up_to_date := j + 1 }
              all_disc

/-- sgt_test (random_ift.rs lines 385-410). -/
def sgtTest (selector : Perm → Nat → Nat) (auxFuel : Nat)
    (st : RBuilderSt) (p : List Perm) : Option (RBuilderSt × Option Nat) :=
  match residueAsWordsFromWords (st.chain.drop st.current_pos) p 0 with
  | none => none
  | some dr =>
    if ¬ isTrivialResidue dr.2 (List.range st.n) then
      let invoke_level := st.current_pos + dr.1
      let collapsed := collapsePermWord dr.2
      if st.current_pos + dr.1 = st.chain.length then
        let moved := selector collapsed st.current_pos
        match factoredTransversalCompleteOpt [collapsed] moved auxFuel with
        | none => none
        | some tv =>
          some ({ st with
            base := st.base ++ [moved]
            chain := st.chain ++
              [{ base := moved, gens := [collapsed], transversal := tv }]
            up_to_date := (st.base.length + 1) + 1 }, some (st.current_pos + dr.1))
      else
        match st.chain[invoke_level]? with
        | none => none
        | some rj =>
          match checkTransversalAugmentation rj collapsed auxFuel with
          | none => none
          | some rj' =>
            some ({ st with
              chain := st.chain.set invoke_level rj'
              up_to_date := st.current_pos + dr.1 + 1 }, some (st.current_pos + dr.1))
    else some (st, none)

mutual

/-- sgc (random_ift.rs lines 241-331), with fuel for the mutual
recursion. -/
def sgc (stream : Nat → Nat) (C : RConstants) (selector : Perm → Nat → Nat)
    (auxFuel : Nat) : Nat → RBuilderSt → Option RBuilderSt
  | 0, _ => none
  | fuel + 1, st =>
    match st.chain[st.current_pos]? with
    | none => none
    | some record =>
      let b_star := st.base.countP (fun b => containsT record.transversal b)
      let gens := (st.chain.drop st.current_pos).flatMap (fun r => r.gens)
      match randomSchrierGeneratorsAsWord stream st C.c1 C.c2 gens with
      | none => none
      | some rg =>
        let st0 := { st with rngpos := rg.2 }
        match appendResidueInv (st0.chain.drop st0.current_pos) rg.1 with
        | none => none
        | some random_gens =>
          match sgcLoop stream C selector auxFuel record b_star random_gens
              st0 true with
          | none => none
          | some res =>
            let st2 := res.1
            let st3 := if res.2 then { st2 with up_to_date := st2.current_pos }
              else st2
            if st3.up_to_date ≠ 0 ∧ st3.current_pos ≠ st3.chain.length - 1 then
              sgc stream C selector auxFuel fuel
                { st3 with current_pos := st3.current_pos + 1 }
            else sgt stream C selector auxFuel fuel st3
termination_by fuel st => (fuel, 0, 0)

/-- sgt (random_ift.rs lines 334-383), with fuel. -/
def sgt (stream : Nat → Nat) (C : RConstants) (selector : Perm → Nat → Nat)
    (auxFuel : Nat) : Nat → RBuilderSt → Option RBuilderSt
  | 0, _ => none
  | fuel + 1, st =>
    let original_position := st.current_pos
    let st0 := { st with current_pos := 0 }
    match C.order with
    | some m =>
      if m = chainOrder st0.chain then some st0
      else
        sgtAfter stream C selector auxFuel fuel st0 original_position
          (some (chainOrder st0.chain))
    | none => sgtAfter stream C selector auxFuel fuel st0 original_position none
termination_by fuel st => (fuel, 0, 0)

/-- The body of sgt after the early known-order exit (random_ift.rs
lines 350-382): build the products, run the test loop, and re-check
the (stale) order. -/
def sgtAfter (stream : Nat → Nat) (C : RConstants)
    (selector : Perm → Nat → Nat) (auxFuel : Nat) (fuel : Nat)
    (st : RBuilderSt) (original_position : Nat) (current_order : Option Nat) :
    Option RBuilderSt :=
  let gens := st.chain.flatMap (fun r => r.gens)
  match st.chain[0]? with
  | none => none
  | some r0 =>
    match randomSchrierGeneratorsAsWord stream st C.c3 C.c4 gens with
    | none => none
    | some rg =>
      let st1 := { st with rngpos := rg.2 }
      let products := r0.gens.map (fun p => [p]) ++ rg.1
      match sgtLoop stream C selector auxFuel fuel products st1 with
      | none => none
      | some st2 =>
        match C.order with
        | some m =>
          match current_order with
          | none => none
          | some v =>
            if m ≠ v then
              match sgc stream C selector auxFuel fuel st2 with
              | none => none
              | some st3 => some { st3 with current_pos := original_position }
            else some { st2 with current_pos := original_position }
        | none => some { st2 with current_pos := original_position }
termination_by (fuel, 2, 0)

/-- The product loop of sgt (random_ift.rs lines 366-374): sift each
product; on the first failure, move to the invoke level, run sgc and
break. -/
def sgtLoop (stream : Nat → Nat) (C : RConstants)
    (selector : Perm → Nat → Nat) (auxFuel : Nat) (fuel : Nat) :
    List (List Perm) → RBuilderSt → Option RBuilderSt
  | [], st => some st
  | p :: ps, st =>
    match sgtTest selector auxFuel st p with
    | none => none
    | some res =>
      match res.2 with
      | some level =>
        sgc stream C selector auxFuel fuel { res.1 with current_pos := level }
      | none => sgtLoop stream C selector auxFuel fuel ps res.1
termination_by products st => (fuel, 1, products.length)

end

/-- symmetric_super_order: one more than the largest moved point over
the generators, or zero for the trivial group (spec, data model). -/
def symmetricSuperOrder (gens : List Perm) : Nat :=
  match (gens.filterMap Perm.lmp).max? with
  | none => 0
  | some lm => lm + 1

/-- construct_strong_generating_set (random_ift.rs lines 107-134):
return at once for the trivial group; otherwise pick the least
selector-chosen moved point, seed the top record with the full
generator set and its complete factored transversal, and enter sgc. -/
def constructSGS (stream : Nat → Nat) (C : RConstants)
    (selector : Perm → Nat → Nat) (auxFuel fuel : Nat)
    (gens : List Perm) : Option RBuilderSt :=
  let st0 : RBuilderSt :=
    { current_pos := 0, chain := [], n := 0, base := [], up_to_date := 1
      rngpos := 0 }
  if gens.isEmpty then some st0
  else
    match (gens.map (fun p => selector p 0)).min? with
    | none => none
    | some moved_point =>
      match factoredTransversalCompleteOpt gens moved_point auxFuel with
      | none => none
      | some tv =>
        sgc stream C selector auxFuel fuel
          { st0 with
            n := symmetricSuperOrder gens - 1
            base := [moved_point]
            chain := [{ base := moved_point, gens := gens, transversal := tv }] }

/-- With a known target order, sgc and sgt only ever return a state
whose chain order equals the target: the only return path is the
early exit of sgt after an exact order comparison, and no code after a
recursive call mutates the chain. -/
theorem sg_known_order (stream : Nat → Nat) (C : RConstants)
    (selector : Perm → Nat → Nat) (auxFuel : Nat) (m : Nat)
    (hord : C.order = some m) :
    ∀ (fuel : Nat) (st st' : RBuilderSt),
      (sgc stream C selector auxFuel fuel st = some st' →
        chainOrder st'.chain = m) ∧
      (sgt stream C selector auxFuel fuel st = some st' →
        chainOrder st'.chain = m) := by
  intro fuel
  induction fuel with
  | zero =>
    intro st st'
    constructor
    · intro h
      simp [sgc] at h
    · intro h
      simp [sgt] at h
  | succ fuel ih =>
    intro st st'
    constructor
    · intro h
      unfold sgc at h
      split at h
      · exact absurd h (by simp)
      · simp only [] at h
        split at h
        · exact absurd h (by simp)
        · split at h
          · exact absurd h (by simp)
          · split at h
            · exact absurd h (by simp)
            · split at h
              · split at h
                · exact (ih _ _).1 h
                · exact (ih _ _).2 h
              · split at h
                · exact (ih _ _).1 h
                · exact (ih _ _).2 h
    · intro h
      unfold sgt at h
      simp only [hord] at h
      split at h
      · rename_i hcond
        simp only [Option.some.injEq] at h
        rw [← h]
        exact hcond.symm
      · rename_i hne
        unfold sgtAfter at h
        split at h
        · exact absurd h (by simp)
        · simp only [] at h
          split at h
          · exact absurd h (by simp)
          · split at h
            · exact absurd h (by simp)
            · simp only [hord] at h
              split at h
              · rename_i hmv
                split at h
                · exact absurd h (by simp)
                · rename_i st3 hsgc
                  simp only [Option.some.injEq] at h
                  rw [← h]
                  have hres := (ih _ _).1 hsgc
                  exact hres
              · rename_i hmv
                exact absurd (not_not.mp hmv) hne

/-- C2: with a known target order supplied, whenever the randomized
shallow builder's construct_strong_generating_set terminates on a
non-trivial generating set, the chain it returns has order exactly the
supplied target; the trivial-group fast path returns the empty chain,
of order one (the order of the trivial group). -/
theorem c2_sgt_known_order (stream : Nat → Nat) (C : RConstants)
    (selector : Perm → Nat → Nat) (auxFuel fuel : Nat)
    (gens : List Perm) (m : Nat) (hord : C.order = some m)
    (st' : RBuilderSt)
    (h : constructSGS stream C selector auxFuel fuel gens = some st') :
    (gens.isEmpty = false → chainOrder st'.chain = m) ∧
    (gens.isEmpty = true → chainOrder st'.chain = 1) := by
  unfold constructSGS at h
  simp only [] at h
  by_cases hg : gens.isEmpty = true
  · rw [if_pos hg] at h
    simp only [Option.some.injEq] at h
    refine ⟨fun hfalse => ?_, fun _ => ?_⟩
    · rw [hg] at hfalse
      exact absurd hfalse (by decide)
    · rw [← h]
      rfl
  · rw [if_neg hg] at h
    refine ⟨fun _ => ?_, fun htrue => absurd htrue hg⟩
    split at h
    · exact absurd h (by simp)
    · split at h
      · exact absurd h (by simp)
      · exact (sg_known_order stream C selector auxFuel m hord fuel _ st').1 h

/-- A concrete constant record with known order 2 for the witness run. -/
def c2CW : RConstants :=
  { c1 := 0, c2 := 0, c3 := 0, c4 := 0, orbit_bound := 10, base_bound := 10
    order := some 2 }

/-- A concrete random stream for the witness run. -/
def c2StreamW : Nat → Nat := fun _ => 0

/-- The state returned by the witness run of the randomized builder on
the single transposition (0 1) with known order 2. -/
def c2OutW : RBuilderSt :=
  { current_pos := 0
    chain := [{ base := 0, gens := [swap01]
                transversal := [(0, Perm.id), (1, swap01.inv)] }]
    n := 1, base := [0], up_to_date := 0, rngpos := 0 }

/-! ## C1: the incremental (IFT) builder -/

/-- The IFT builder state (ift.rs lines 33-42): position and chain;
the base selector and the action are passed as parameters. -/
structure IftSt where
  current_pos : Nat
  chain : List ChainRecord

/-- Modelled from the spec: element_testing sifting (spec 4.5): apply
p to the record's base point, look the image up in the transversal,
multiply by the inverse of its representative, and descend; a
malformed walk is a failure.  Returns whether the whole chain was
passed together with the final residue. -/
def siftPerm : List ChainRecord → Perm → Option (Bool × Perm)
  | [], p => some (true, p)
  | r :: rest, p =>
    let application := p.fwd r.base
    if containsT r.transversal application then
      match representativeRaw r.transversal r.base application with
      | none => none
      | some u => siftPerm rest (p.mul u.inv)
    else some (false, p)

/-- Modelled from the spec: element_testing::is_in_group (spec 4.5): a
permutation lies in the group iff it sifts to the identity through
the whole chain. -/
def isInGroup (records : List ChainRecord) (p : Perm) : Option Bool :=
  match siftPerm records p with
  | none => none
  | some res => some (res.1 && res.2.isId)

/-- The orbit loop of the bottom-of-chain branch (ift.rs lines
98-104): walk the p-cycle of the selected point, storing p⁻¹ at every
new point and accumulating the representative. -/
def bottomOrbitLoop (p : Perm) (moved : Nat) :
    Nat → Nat → Perm → Transversal → Option (Transversal × Perm)
  | 0, _, _, _ => none
  | fuel + 1, next, repr, t =>
    if next = moved then some (t, repr)
    else bottomOrbitLoop p moved fuel (p.fwd next) (repr.mul p)
      (insertT t next p.inv)

/-- The generator pass of the second check loop (ift.rs lines
166-190): for each generator (p first), either push the Schreier
generator one level down or store the new image and queue it. -/
def iftGenLoop (ext : IftSt → Perm → Option IftSt) (orbitRepr : Perm)
    (elem : Nat) (base : Nat) :
    List Perm → IftSt → Transversal → List Nat →
      Option (IftSt × Transversal × List Nat)
  | [], st, tv, stack => some (st, tv, stack)
  | g :: gs, st, tv, stack =>
    let img := g.fwd elem
    if containsT tv img then
      match representativeRaw tv base img with
      | none => none
      | some imageRepr =>
        match ext st ((orbitRepr.mul g).mul imageRepr.inv) with
        | none => none
        | some st' => iftGenLoop ext orbitRepr elem base gs st' tv stack
    else
      iftGenLoop ext orbitRepr elem base gs st (insertT tv img g.inv)
        (img :: stack)

/-- The second check loop of extend_inner (ift.rs lines 155-191): pop
a queued point from the back, read off its representative, and run
the generator pass; newly stored images are queued. -/
def iftSecondLoop (ext : IftSt → Perm → Option IftSt) (p : Perm)
    (base : Nat) (gens : List Perm) :
    Nat → IftSt → Transversal → List Nat → Option (IftSt × Transversal)
  | 0, _, _, _ => none
  | fuel + 1, st, tv, stack =>
    match stack with
    | [] => some (st, tv)
    | elem :: rest =>
      match representativeRaw tv base elem with
      | none => none
      | some orbitRepr =>
        match iftGenLoop ext orbitRepr elem base (p :: gens) st tv rest with
        | none => none
        | some res => iftSecondLoop ext p base gens fuel res.1 res.2.1 res.2.2

/-- The first loop of the update branch (ift.rs lines 117-146): run
over the snapshot of the orbit from the back, extend the lower level
with the Schreier generator of every already-seen image, and collect
the new images with entry p⁻¹. -/
def iftFirstLoop (ext : IftSt → Perm → Option IftSt) (p : Perm)
    (base : Nat) (origT : Transversal) :
    List Nat → IftSt → Transversal → Option (IftSt × Transversal)
  | [], st, newT => some (st, newT)
  | elem :: rest, st, newT =>
    match representativeRaw origT base elem with
    | none => none
    | some orbitRepr =>
      let img := p.fwd elem
      if containsT origT img || containsT newT img then
        match (representativeRaw origT base img).orElse
            (fun _ => representativeRaw newT base img) with
        | none => none
        | some imageRepr =>
          match ext st ((orbitRepr.mul p).mul imageRepr.inv) with
          | none => none
          | some st' => iftFirstLoop ext p base origT rest st' newT
      else
        iftFirstLoop ext p base origT rest st (insertT newT img p.inv)

/-- extend_inner (ift.rs lines 80-198), with fuel for the recursion
into lower levels; extend_lower_level (lines 73-77) shifts the
position down for the nested call and restores it afterwards.  The
point returned by the selector is required to be moved by the
permutation (base/selectors is outside the sources; spec names it the
moved point); a broken selector is a failure. -/
def extendInner (sel : Perm → Nat → Nat) : Nat → IftSt → Perm → Option IftSt
  | 0, _, _ => none
  | fuel + 1, st, p =>
    let ext : IftSt → Perm → Option IftSt := fun s q =>
      match extendInner sel fuel { s with current_pos := s.current_pos + 1 } q with
      | none => none
      | some s2 => some { s2 with current_pos := s2.current_pos - 1 }
    match isInGroup (st.chain.drop st.current_pos) p with
    | none => none
    | some true => some st
    | some false =>
      if st.current_pos = st.chain.length then
        let moved := sel p st.current_pos
        if p.fwd moved = moved then none
        else
          match bottomOrbitLoop p moved fuel (p.fwd moved) p
              [(moved, Perm.id)] with
          | none => none
          | some res =>
            let record : ChainRecord :=
              { base := moved, gens := [p], transversal := res.1 }
            ext { st with chain := st.chain ++ [record] } res.2
      else
        match st.chain[st.current_pos]? with
        | none => none
        | some record =>
          match iftFirstLoop ext p record.base record.transversal
              (keysT record.transversal).reverse st [] with
          | none => none
          | some res1 =>
            let merged := record.transversal ++ res1.2
            match iftSecondLoop ext p record.base record.gens fuel res1.1
                merged (keysT res1.2).reverse with
            | none => none
            | some res2 =>
              some { res2.1 with
                chain := res2.1.chain.set st.current_pos
                  { base := record.base, gens := p :: record.gens
                    transversal := res2.2 } }

/-- set_generators (ift.rs lines 207-212): absorb each generator from
level zero. -/
def setGenerators (sel : Perm → Nat → Nat) (fuel : Nat) :
    List Perm → IftSt → Option IftSt
  | [], st => some st
  | g :: gs, st =>
    match extendInner sel fuel { st with current_pos := 0 } g with
    | none => none
    | some st' => setGenerators sel fuel gs st'

/-- new() (ift.rs lines 49-56): the empty chain at position zero. -/
def iftInit : IftSt := { current_pos := 0, chain := [] }

theorem c2_sgt_known_order_witness : chainOrder c2OutW.chain = 2 := by
  have h : constructSGS c2StreamW c2CW (fun _ _ => 0) 4 2 [swap01]
      = some c2OutW := by
    show sgc c2StreamW c2CW (fun _ _ => 0) 4 2
      { current_pos := 0
        chain := [{ base := 0, gens := [swap01]
                    transversal := [(0, Perm.id), (1, swap01.inv)] }]
        n := 1, base := [0], up_to_date := 1, rngpos := 0 } = some c2OutW
    unfold sgc
    show sgt c2StreamW c2CW (fun _ _ => 0) 4 1
      { current_pos := 0
        chain := [{ base := 0, gens := [swap01]
                    transversal := [(0, Perm.id), (1, swap01.inv)] }]
        n := 1, base := [0], up_to_date := 0, rngpos := 0 } = some c2OutW
    unfold sgt
    rfl
  exact (c2_sgt_known_order c2StreamW c2CW (fun _ _ => 0) 4 2 [swap01] 2 rfl
    c2OutW h).1 rfl

/-! ### Stability of walks and sifts under entry-stable extension -/

theorem walkWord_stable {t t2 : Transversal} {base : Nat}
    (hst : ∀ x ∈ keysT t, lookupT t2 x = lookupT t x) :
    ∀ {fuel : Nat} {x : Nat} {w : List Perm},
      walkWord fuel t base x = some w → walkWord fuel t2 base x = some w := by
  intro fuel
  induction fuel with
  | zero => intro x w h; simp [walkWord] at h
  | succ f ih =>
    intro x w h
    rcases walkWord_elim h with ⟨hx, rfl⟩ | ⟨hx, g, w0, hl, hw, rfl⟩
    · rw [hx]
      exact walkWord_base
    · have hx2 : x ∈ keysT t := lookupT_mem hl
      exact walkWord_step hx (by rw [hst x hx2]; exact hl) (ih hw)

theorem representativeRaw_stable {t t2 : Transversal} {base x : Nat} {u : Perm}
    (hst : ∀ y ∈ keysT t, lookupT t2 y = lookupT t y)
    (hlen : t.length ≤ t2.length)
    (h : representativeRaw t base x = some u) :
    representativeRaw t2 base x = some u := by
  unfold representativeRaw at h ⊢
  cases hw : walkWord (t.length + 1) t base x with
  | none => rw [hw] at h; exact absurd h (by simp)
  | some w =>
    rw [hw] at h
    have hw2 := walkWord_stable hst hw
    rw [walkWord_fuel_mono (by omega) hw2]
    exact h

/-- Record extension: the base is kept, entries at existing keys are
kept, and the transversal never shrinks. -/
def ExtRec (r r2 : ChainRecord) : Prop :=
  r2.base = r.base ∧ r.transversal.length ≤ r2.transversal.length ∧
    ∀ x ∈ keysT r.transversal,
      lookupT r2.transversal x = lookupT r.transversal x

/-- Chain extension: every existing record is extended in place, and
records may be appended at the bottom. -/
def ExtChain : List ChainRecord → List ChainRecord → Prop
  | [], _ => True
  | _ :: _, [] => False
  | r :: c, r2 :: c2 => ExtRec r r2 ∧ ExtChain c c2

theorem extRec_refl (r : ChainRecord) : ExtRec r r :=
  ⟨rfl, le_refl _, fun _ _ => rfl⟩

theorem extRec_trans {a b c : ChainRecord} (h1 : ExtRec a b)
    (h2 : ExtRec b c) : ExtRec a c := by
  obtain ⟨hb1, hl1, hs1⟩ := h1
  obtain ⟨hb2, hl2, hs2⟩ := h2
  refine ⟨hb2.trans hb1, hl1.trans hl2, ?_⟩
  intro x hx
  have hx2 : x ∈ keysT b.transversal := by
    rcases Option.isSome_iff_exists.mp (mem_keysT_isSome hx) with ⟨v, hv⟩
    exact lookupT_mem (by rw [hs1 x hx]; exact hv)
  rw [hs2 x hx2, hs1 x hx]

theorem extChain_refl : ∀ c : List ChainRecord, ExtChain c c
  | [] => trivial
  | r :: c => ⟨extRec_refl r, extChain_refl c⟩

theorem extChain_trans : ∀ (a b c : List ChainRecord),
    ExtChain a b → ExtChain b c → ExtChain a c := by
  intro a
  induction a with
  | nil => intro b c _ _; trivial
  | cons r a ih =>
    intro b c h1 h2
    cases b with
    | nil => exact h1.elim
    | cons rb b =>
      cases c with
      | nil => exact h2.elim
      | cons rc c =>
        exact ⟨extRec_trans h1.1 h2.1, ih b c h1.2 h2.2⟩

theorem extChain_append (c d : List ChainRecord) : ExtChain c (c ++ d) := by
  induction c with
  | nil => trivial
  | cons r c ih => exact ⟨extRec_refl r, ih⟩

theorem extChain_length : ∀ {c c2 : List ChainRecord}, ExtChain c c2 →
    c.length ≤ c2.length := by
  intro c
  induction c with
  | nil => intro c2 _; exact Nat.zero_le _
  | cons r c ih =>
    intro c2 h
    cases c2 with
    | nil => exact h.elim
    | cons r2 c2 => simpa using ih h.2

theorem extChain_drop (k : Nat) : ∀ {c c2 : List ChainRecord},
    ExtChain c c2 → ExtChain (c.drop k) (c2.drop k) := by
  induction k with
  | zero => intro c c2 h; simpa using h
  | succ k ih =>
    intro c c2 h
    cases c with
    | nil => trivial
    | cons r c =>
      cases c2 with
      | nil => exact h.elim
      | cons r2 c2 =>
        simpa using ih h.2

theorem extChain_getElem : ∀ {c c2 : List ChainRecord} (i : Nat)
    {r : ChainRecord}, ExtChain c c2 → getElem? c i = some r →
    ∃ r2, getElem? c2 i = some r2 ∧ ExtRec r r2 := by
  intro c
  induction c with
  | nil => intro c2 i r _ hget; simp at hget
  | cons r0 c ih =>
    intro c2 i r h hget
    cases c2 with
    | nil => exact h.elim
    | cons r02 c2 =>
      cases i with
      | zero =>
        simp only [List.getElem?_cons_zero, Option.some.injEq] at hget
        exact ⟨r02, by simp, hget ▸ h.1⟩
      | succ i =>
        simp only [List.getElem?_cons_succ] at hget
        rcases ih i h.2 hget with ⟨r2, hg2, he⟩
        exact ⟨r2, by simpa using hg2, he⟩

theorem extChain_set : ∀ {c c2 : List ChainRecord} (i : Nat)
    {r rN : ChainRecord}, ExtChain c c2 → getElem? c i = some r → ExtRec r rN →
    ExtChain c (c2.set i rN) := by
  intro c
  induction c with
  | nil => intro c2 i r rN _ _ _; trivial
  | cons r0 c ih =>
    intro c2 i r rN h hget hext
    cases c2 with
    | nil => exact h.elim
    | cons r02 c2 =>
      cases i with
      | zero =>
        simp only [List.getElem?_cons_zero, Option.some.injEq] at hget
        subst hget
        exact ⟨hext, h.2⟩
      | succ i =>
        simp only [List.getElem?_cons_succ] at hget
        exact ⟨h.1, ih i h.2 hget hext⟩

/-- Record well-formedness maintained by the IFT builder: the base
point lies in the orbit, the orbit has no duplicates, and the tree is
walkable. -/
def WfRec (r : ChainRecord) : Prop :=
  r.base ∈ keysT r.transversal ∧ (keysT r.transversal).Nodup ∧
    WalkInvT r.transversal r.base

def WfChain (c : List ChainRecord) : Prop := ∀ r ∈ c, WfRec r

theorem wfChain_drop {c : List ChainRecord} (k : Nat) (h : WfChain c) :
    WfChain (c.drop k) := fun r hr => h r (List.mem_of_mem_drop hr)

theorem wfRec_repr {r : ChainRecord} (h : WfRec r) {x : Nat}
    (hx : x ∈ keysT r.transversal) :
    ∃ u, representativeRaw r.transversal r.base x = some u := by
  rcases walkWord_of_walkInv h.2.2 x hx with ⟨w, hw⟩
  exact ⟨(collapsePermWord w).inv, by unfold representativeRaw; rw [hw]⟩

/-- Appending a block of fresh points whose stored entries step
directly into the old tree keeps the tree walkable. -/
theorem walkInvT_append {t u : Transversal} {base : Nat}
    (hw : WalkInvT t base)
    (hfresh : ∀ e ∈ u, e.1 ∉ keysT t)
    (hpar : ∀ e ∈ u, e.2.fwd e.1 ∈ keysT t) :
    WalkInvT (t ++ u) base := by
  rcases hw with ⟨dfun, hbd, hstep⟩
  refine ⟨fun x => if x ∈ keysT t then dfun x else t.length, ?_, ?_⟩
  · intro α hα
    rw [keysT_append] at hα
    show (if α ∈ keysT t then dfun α else t.length) < (t ++ u).length
    by_cases hx : α ∈ keysT t
    · rw [if_pos hx]
      have := hbd α hx
      simp only [List.length_append]
      omega
    · rw [if_neg hx]
      have hu : α ∈ keysT u := (List.mem_append.mp hα).resolve_left hx
      have hne : u ≠ [] := by
        intro h0
        rw [h0] at hu
        simp at hu
      have hlen : 0 < u.length := List.length_pos.mpr hne
      simp only [List.length_append]
      omega
  · intro α hα hne
    rw [keysT_append] at hα
    by_cases hx : α ∈ keysT t
    · rcases hstep α hx hne with ⟨g, hl, hmem, hlt⟩
      refine ⟨g, ?_, ?_, ?_⟩
      · rw [lookupT_append_left hx]
        exact hl
      · rw [keysT_append]
        exact List.mem_append_left _ hmem
      · show (if g.fwd α ∈ keysT t then dfun (g.fwd α) else t.length)
          < (if α ∈ keysT t then dfun α else t.length)
        rw [if_pos hmem, if_pos hx]
        exact hlt
    · have hu : α ∈ keysT u := (List.mem_append.mp hα).resolve_left hx
      rcases Option.isSome_iff_exists.mp (mem_keysT_isSome hu) with ⟨g, hg⟩
      have hparent : g.fwd α ∈ keysT t := hpar (α, g) (lookupT_some_mem_pairs hg)
      refine ⟨g, ?_, ?_, ?_⟩
      · rw [lookupT_append_right hx]
        exact hg
      · rw [keysT_append]
        exact List.mem_append_left _ hparent
      · show (if g.fwd α ∈ keysT t then dfun (g.fwd α) else t.length)
          < (if α ∈ keysT t then dfun α else t.length)
        rw [if_pos hparent, if_neg hx]
        exact hbd _ hparent

/-! ### Sifting lemmas -/

theorem siftPerm_cons_found {r : ChainRecord} {rest : List ChainRecord}
    {p u : Perm}
    (hc : containsT r.transversal (p.fwd r.base) = true)
    (hu : representativeRaw r.transversal r.base (p.fwd r.base) = some u) :
    siftPerm (r :: rest) p = siftPerm rest (p.mul u.inv) := by
  simp [siftPerm, hc, hu]

theorem isInGroup_cons_found {r : ChainRecord} {rest : List ChainRecord}
    {p u : Perm}
    (hc : containsT r.transversal (p.fwd r.base) = true)
    (hu : representativeRaw r.transversal r.base (p.fwd r.base) = some u) :
    isInGroup (r :: rest) p = isInGroup rest (p.mul u.inv) := by
  unfold isInGroup
  rw [siftPerm_cons_found hc hu]

theorem isInGroup_nil {p : Perm} : isInGroup [] p = some p.isId := by
  simp [isInGroup, siftPerm]

theorem isInGroup_cons_elim {r : ChainRecord} {rest : List ChainRecord}
    {p : Perm} (h : isInGroup (r :: rest) p = some true) :
    containsT r.transversal (p.fwd r.base) = true ∧
    ∃ u, representativeRaw r.transversal r.base (p.fwd r.base) = some u ∧
      isInGroup rest (p.mul u.inv) = some true := by
  by_cases hc : containsT r.transversal (p.fwd r.base) = true
  · refine ⟨hc, ?_⟩
    cases hu : representativeRaw r.transversal r.base (p.fwd r.base) with
    | none =>
      exfalso
      simp [isInGroup, siftPerm, hc, hu] at h
    | some u =>
      rw [isInGroup_cons_found hc hu] at h
      exact ⟨u, rfl, h⟩
  · exfalso
    have hc2 : containsT r.transversal (p.fwd r.base) = false :=
      Bool.eq_false_iff.mpr hc
    simp [isInGroup, siftPerm, hc2] at h

theorem isInGroup_of_pointwise_id : ∀ {c : List ChainRecord}, WfChain c →
    ∀ {p : Perm}, (∀ x, p.fwd x = x) → isInGroup c p = some true := by
  intro c
  induction c with
  | nil =>
    intro _ p hp
    rw [isInGroup_nil, (Perm.isId_iff p).mpr hp]
  | cons r rest ih =>
    intro hwf p hp
    have hwr : WfRec r := hwf r (List.mem_cons_self _ _)
    have hα : p.fwd r.base = r.base := hp r.base
    have hc : containsT r.transversal (p.fwd r.base) = true := by
      rw [hα]
      exact containsT_iff_mem.mpr hwr.1
    have hu : representativeRaw r.transversal r.base (p.fwd r.base)
        = some (collapsePermWord []).inv := by
      rw [hα]
      unfold representativeRaw
      rw [walkWord_base]
    rw [isInGroup_cons_found hc hu]
    refine ih (fun x hx => hwf x (List.mem_cons_of_mem _ hx)) ?_
    intro x
    simp [collapsePermWord, hp x]

theorem siftPerm_congr : ∀ (c : List ChainRecord) {p q : Perm},
    (∀ x, p.fwd x = q.fwd x) →
    (siftPerm c p = none ∧ siftPerm c q = none) ∨
    (∃ b rp rq, siftPerm c p = some (b, rp) ∧ siftPerm c q = some (b, rq) ∧
      ∀ x, rp.fwd x = rq.fwd x) := by
  intro c
  induction c with
  | nil =>
    intro p q hpq
    right
    exact ⟨true, p, q, rfl, rfl, hpq⟩
  | cons r rest ih =>
    intro p q hpq
    have hα : p.fwd r.base = q.fwd r.base := hpq r.base
    by_cases hc : containsT r.transversal (p.fwd r.base) = true
    · have hcq : containsT r.transversal (q.fwd r.base) = true := by
        rw [← hα]
        exact hc
      cases hu : representativeRaw r.transversal r.base (p.fwd r.base) with
      | none =>
        have hu2 : representativeRaw r.transversal r.base (q.fwd r.base)
            = none := by
          rw [← hα]
          exact hu
        left
        constructor
        · simp [siftPerm, hc, hu]
        · simp [siftPerm, hcq, hu2]
      | some u =>
        have hrec : ∀ x, (p.mul u.inv).fwd x = (q.mul u.inv).fwd x := by
          intro x
          simp [hpq x]
        have h1 : siftPerm (r :: rest) p = siftPerm rest (p.mul u.inv) :=
          siftPerm_cons_found hc hu
        have h2 : siftPerm (r :: rest) q = siftPerm rest (q.mul u.inv) :=
          siftPerm_cons_found hcq (by rw [← hα]; exact hu)
        rcases ih hrec with ⟨ha, hb⟩ | ⟨b, rp, rq, ha, hb, hr⟩
        · left
          exact ⟨by rw [h1]; exact ha, by rw [h2]; exact hb⟩
        · right
          exact ⟨b, rp, rq, by rw [h1]; exact ha, by rw [h2]; exact hb, hr⟩
    · have hc2 : containsT r.transversal (p.fwd r.base) = false :=
        Bool.eq_false_iff.mpr hc
      have hcq2 : containsT r.transversal (q.fwd r.base) = false := by
        rw [← hα]
        exact hc2
      right
      refine ⟨false, p, q, ?_, ?_, hpq⟩
      · simp [siftPerm, hc2]
      · simp [siftPerm, hcq2]

theorem isId_congr {p q : Perm} (h : ∀ x, p.fwd x = q.fwd x) :
    p.isId = q.isId := by
  cases hq : q.isId
  · cases hp : p.isId
    · rfl
    · have hqid : q.isId = true :=
        (Perm.isId_iff q).mpr fun x => by
          rw [← h x, (Perm.isId_iff p).mp hp x]
      rw [hq] at hqid
      exact absurd hqid (by simp)
  · exact (Perm.isId_iff p).mpr fun x => by
      rw [h x, (Perm.isId_iff q).mp hq x]

theorem isInGroup_congr {c : List ChainRecord} {p q : Perm}
    (hpq : ∀ x, p.fwd x = q.fwd x) : isInGroup c p = isInGroup c q := by
  rcases siftPerm_congr c hpq with ⟨h1, h2⟩ | ⟨b, rp, rq, h1, h2, h3⟩
  · simp [isInGroup, h1, h2]
  · simp [isInGroup, h1, h2, isId_congr h3]

theorem isInGroup_stable : ∀ {c c2 : List ChainRecord} {p : Perm},
    ExtChain c c2 → WfChain c2 → isInGroup c p = some true →
    isInGroup c2 p = some true := by
  intro c
  induction c with
  | nil =>
    intro c2 p _ hwf h
    rw [isInGroup_nil] at h
    have hid : p.isId = true := by
      simpa using h
    exact isInGroup_of_pointwise_id hwf ((Perm.isId_iff p).mp hid)
  | cons r rest ih =>
    intro c2 p hext hwf h
    cases c2 with
    | nil => exact hext.elim
    | cons r2 rest2 =>
      obtain ⟨⟨hb, hlen, hst⟩, hext2⟩ := hext
      obtain ⟨hc, u, hu, hrest⟩ := isInGroup_cons_elim h
      have hmem : p.fwd r.base ∈ keysT r.transversal := containsT_iff_mem.mp hc
      have hc2 : containsT r2.transversal (p.fwd r2.base) = true := by
        rw [hb]
        unfold containsT
        rw [hst _ hmem]
        exact hc
      have hu2 : representativeRaw r2.transversal r2.base (p.fwd r2.base)
          = some u := by
        rw [hb]
        exact representativeRaw_stable hst hlen hu
      rw [isInGroup_cons_found hc2 hu2]
      exact ih hext2 (fun x hx => hwf x (List.mem_cons_of_mem _ hx)) hrest

theorem insertT_eq_append {β : Type} {t : List (Nat × β)} {k : Nat} {v : β}
    (h : k ∉ keysT t) : insertT t k v = t ++ [(k, v)] := by
  unfold insertT
  rw [not_containsT_iff.mpr h]
  simp

theorem insertT_eq_self {β : Type} {t : List (Nat × β)} {k : Nat} {v : β}
    (h : k ∈ keysT t) : insertT t k v = t := by
  unfold insertT
  rw [containsT_iff_mem.mpr h]
  simp

theorem bottomOrbitLoop_succ (p : Perm) (moved fuel next : Nat) (repr : Perm)
    (t : Transversal) :
    bottomOrbitLoop p moved (fuel + 1) next repr t =
      if next = moved then some (t, repr)
      else bottomOrbitLoop p moved fuel (p.fwd next) (repr.mul p)
        (insertT t next p.inv) := rfl

/-- The orbit loop of the bottom branch keeps the tree walkable,
duplicate-free and entry-stable, and only adds points. -/
theorem bottomOrbitLoop_spec (p : Perm) (moved : Nat) :
    ∀ (fuel next : Nat) (repr : Perm) (t : Transversal)
      (out : Transversal × Perm),
    bottomOrbitLoop p moved fuel next repr t = some out →
    moved ∈ keysT t → (keysT t).Nodup → WalkInvT t moved →
    p.inv.fwd next ∈ keysT t →
    moved ∈ keysT out.1 ∧ (keysT out.1).Nodup ∧ WalkInvT out.1 moved ∧
      t.length ≤ out.1.length ∧
      ∀ x ∈ keysT t, lookupT out.1 x = lookupT t x := by
  intro fuel
  induction fuel with
  | zero =>
    intro next repr t out h _ _ _ _
    simp [bottomOrbitLoop] at h
  | succ f ih =>
    intro next repr t out h hm hnd hw hpar
    rw [bottomOrbitLoop_succ] at h
    by_cases hnm : next = moved
    · rw [if_pos hnm] at h
      simp only [Option.some.injEq] at h
      rw [← h]
      exact ⟨hm, hnd, hw, le_refl _, fun _ _ => rfl⟩
    · rw [if_neg hnm] at h
      by_cases hc : next ∈ keysT t
      · rw [insertT_eq_self hc] at h
        have hpar2 : p.inv.fwd (p.fwd next) ∈ keysT t := by
          show p.bwd (p.fwd next) ∈ keysT t
          rw [p.bwd_fwd]
          exact hc
        exact ih _ _ _ _ h hm hnd hw hpar2
      · rw [insertT_eq_append hc] at h
        have hm2 : moved ∈ keysT (t ++ [(next, p.inv)]) := by
          rw [keysT_append]
          exact List.mem_append_left _ hm
        have hnd2 : (keysT (t ++ [(next, p.inv)])).Nodup := by
          rw [keysT_append]
          refine List.Nodup.append hnd (by simp [keysT]) ?_
          intro a ha hb
          simp [keysT] at hb
          exact hc (hb ▸ ha)
        have hw2 : WalkInvT (t ++ [(next, p.inv)]) moved := by
          refine walkInvT_append hw ?_ ?_
          · intro e he
            simp at he
            rw [he]
            simpa using hc
          · intro e he
            simp at he
            rw [he]
            simpa using hpar
        have hpar2 : p.inv.fwd (p.fwd next) ∈ keysT (t ++ [(next, p.inv)]) := by
          show p.bwd (p.fwd next) ∈ _
          rw [p.bwd_fwd, keysT_append]
          exact List.mem_append_right _ (by simp [keysT])
        obtain ⟨w1, w2, w3, w4, w5⟩ := ih _ _ _ _ h hm2 hnd2 hw2 hpar2
        refine ⟨w1, w2, w3, ?_, ?_⟩
        · calc t.length ≤ (t ++ [(next, p.inv)]).length := by simp
            _ ≤ out.1.length := w4
        · intro x hx
          rw [w5 x (by rw [keysT_append]; exact List.mem_append_left _ hx)]
          exact lookupT_append_left hx

/-- What a well-behaved lower-level extension call guarantees: the
chain is extended and stays well-formed, the position is restored,
and the extending permutation sifts to the identity below it. -/
def ExtSpec (ext : IftSt → Perm → Option IftSt) : Prop :=
  ∀ st q st2, ext st q = some st2 → WfChain st.chain →
    st.current_pos + 1 ≤ st.chain.length →
    WfChain st2.chain ∧ ExtChain st.chain st2.chain ∧
      st2.current_pos = st.current_pos ∧
      st.current_pos + 1 ≤ st2.chain.length ∧
      isInGroup (st2.chain.drop (st.current_pos + 1)) q = some true

/-- The generator pass keeps the chain extension invariants and keeps
the working transversal walkable, duplicate-free and entry-stable;
every queued point stays inside the orbit. -/
theorem iftGenLoop_spec (ext : IftSt → Perm → Option IftSt)
    (hext : ExtSpec ext) (orbitRepr : Perm) (elem base : Nat) :
    ∀ (gs : List Perm) (st : IftSt) (tv : Transversal) (stack : List Nat)
      (out : IftSt × Transversal × List Nat),
    iftGenLoop ext orbitRepr elem base gs st tv stack = some out →
    WfChain st.chain → st.current_pos + 1 ≤ st.chain.length →
    base ∈ keysT tv → (keysT tv).Nodup → WalkInvT tv base →
    elem ∈ keysT tv → (∀ x ∈ stack, x ∈ keysT tv) →
    WfChain out.1.chain ∧ ExtChain st.chain out.1.chain ∧
      out.1.current_pos = st.current_pos ∧
      st.current_pos + 1 ≤ out.1.chain.length ∧
      base ∈ keysT out.2.1 ∧ (keysT out.2.1).Nodup ∧
      WalkInvT out.2.1 base ∧ tv.length ≤ out.2.1.length ∧
      (∀ x ∈ keysT tv, lookupT out.2.1 x = lookupT tv x) ∧
      (∀ x ∈ out.2.2, x ∈ keysT out.2.1) := by
  intro gs
  induction gs with
  | nil =>
    intro st tv stack out h hwf hpos hb hnd hw he hs
    simp only [iftGenLoop, Option.some.injEq] at h
    rw [← h]
    exact ⟨hwf, extChain_refl _, rfl, hpos, hb, hnd, hw, le_refl _,
      fun _ _ => rfl, hs⟩
  | cons g gs ih =>
    intro st tv stack out h hwf hpos hb hnd hw he hs
    simp only [iftGenLoop] at h
    by_cases hc : containsT tv (g.fwd elem) = true
    · rw [if_pos hc] at h
      cases hrep : representativeRaw tv base (g.fwd elem) with
      | none => rw [hrep] at h; exact absurd h (by simp)
      | some imageRepr =>
        rw [hrep] at h
        simp only [] at h
        cases hcall : ext st ((orbitRepr.mul g).mul imageRepr.inv) with
        | none => rw [hcall] at h; simp at h
        | some st3 =>
          rw [hcall] at h
          simp only [] at h
          obtain ⟨e1, e2, e3, e4, _⟩ := hext _ _ _ hcall hwf hpos
          obtain ⟨w1, w2, w3, w4, w5, w6, w7, w8, w9, w10⟩ :=
            ih st3 tv stack out h e1 (by rw [e3]; exact e4) hb hnd hw he hs
          exact ⟨w1, extChain_trans _ _ _ e2 w2, by rw [w3]; exact e3,
            by rw [← e3]; exact w4, w5, w6, w7, w8, w9, w10⟩
    · rw [if_neg (by simpa using hc)] at h
      have hcm : g.fwd elem ∉ keysT tv := fun hmem =>
        hc (containsT_iff_mem.mpr hmem)
      rw [insertT_eq_append hcm] at h
      have hb2 : base ∈ keysT (tv ++ [(g.fwd elem, g.inv)]) := by
        rw [keysT_append]
        exact List.mem_append_left _ hb
      have hnd2 : (keysT (tv ++ [(g.fwd elem, g.inv)])).Nodup := by
        rw [keysT_append]
        refine List.Nodup.append hnd (by simp [keysT]) ?_
        intro a ha hb2
        simp [keysT] at hb2
        exact hcm (hb2 ▸ ha)
      have hw2 : WalkInvT (tv ++ [(g.fwd elem, g.inv)]) base := by
        refine walkInvT_append hw ?_ ?_
        · intro e hee
          simp at hee
          rw [hee]
          simpa using hcm
        · intro e hee
          simp at hee
          rw [hee]
          show g.bwd (g.fwd elem) ∈ keysT tv
          rw [g.bwd_fwd]
          exact he
      have he2 : elem ∈ keysT (tv ++ [(g.fwd elem, g.inv)]) := by
        rw [keysT_append]
        exact List.mem_append_left _ he
      have hs2 : ∀ x ∈ g.fwd elem :: stack,
          x ∈ keysT (tv ++ [(g.fwd elem, g.inv)]) := by
        intro x hx
        rw [keysT_append]
        rcases List.mem_cons.mp hx with h2 | h2
        · exact List.mem_append_right _ (by simp [keysT, h2])
        · exact List.mem_append_left _ (hs x h2)
      obtain ⟨w1, w2, w3, w4, w5, w6, w7, w8, w9, w10⟩ :=
        ih st _ _ out h hwf hpos hb2 hnd2 hw2 he2 hs2
      refine ⟨w1, w2, w3, w4, w5, w6, w7, ?_, ?_, w10⟩
      · calc tv.length ≤ (tv ++ [(g.fwd elem, g.inv)]).length := by simp
          _ ≤ out.2.1.length := w8
      · intro x hx
        rw [w9 x (by rw [keysT_append]; exact List.mem_append_left _ hx)]
        exact lookupT_append_left hx

/-- The second check loop keeps the chain extension invariants and
keeps the working transversal walkable, duplicate-free and
entry-stable. -/
theorem iftSecondLoop_spec (ext : IftSt → Perm → Option IftSt)
    (hext : ExtSpec ext) (p : Perm) (base : Nat) (gens : List Perm) :
    ∀ (fuel : Nat) (st : IftSt) (tv : Transversal) (stack : List Nat)
      (out : IftSt × Transversal),
    iftSecondLoop ext p base gens fuel st tv stack = some out →
    WfChain st.chain → st.current_pos + 1 ≤ st.chain.length →
    base ∈ keysT tv → (keysT tv).Nodup → WalkInvT tv base →
    (∀ x ∈ stack, x ∈ keysT tv) →
    WfChain out.1.chain ∧ ExtChain st.chain out.1.chain ∧
      out.1.current_pos = st.current_pos ∧
      st.current_pos + 1 ≤ out.1.chain.length ∧
      base ∈ keysT out.2 ∧ (keysT out.2).Nodup ∧ WalkInvT out.2 base ∧
      tv.length ≤ out.2.length ∧
      (∀ x ∈ keysT tv, lookupT out.2 x = lookupT tv x) := by
  intro fuel
  induction fuel with
  | zero =>
    intro st tv stack out h
    simp [iftSecondLoop] at h
  | succ f ih =>
    intro st tv stack out h hwf hpos hb hnd hw hs
    cases stack with
    | nil =>
      simp only [iftSecondLoop, Option.some.injEq] at h
      rw [← h]
      exact ⟨hwf, extChain_refl _, rfl, hpos, hb, hnd, hw, le_refl _,
        fun _ _ => rfl⟩
    | cons elem rest =>
      simp only [iftSecondLoop] at h
      cases hrep : representativeRaw tv base elem with
      | none => rw [hrep] at h; exact absurd h (by simp)
      | some orbitRepr =>
        rw [hrep] at h
        simp only [] at h
        cases hgl : iftGenLoop ext orbitRepr elem base (p :: gens) st tv
            rest with
        | none => rw [hgl] at h; simp at h
        | some res =>
          rw [hgl] at h
          simp only [] at h
          obtain ⟨g1, g2, g3, g4, g5, g6, g7, g8, g9, g10⟩ :=
            iftGenLoop_spec ext hext orbitRepr elem base (p :: gens) st tv
              rest res hgl hwf hpos hb hnd hw
              (hs elem (List.mem_cons_self _ _))
              (fun x hx => hs x (List.mem_cons_of_mem _ hx))
          obtain ⟨w1, w2, w3, w4, w5, w6, w7, w8, w9⟩ :=
            ih res.1 res.2.1 res.2.2 out h g1 (by rw [g3]; exact g4)
              g5 g6 g7 g10
          refine ⟨w1, extChain_trans _ _ _ g2 w2, by rw [w3]; exact g3,
            by rw [← g3]; exact w4, w5, w6, w7, ?_, ?_⟩
          · exact le_trans g8 w8
          · intro x hx
            rw [w9 x ?_, g9 x hx]
            rcases Option.isSome_iff_exists.mp (mem_keysT_isSome hx)
              with ⟨v, hv⟩
            exact lookupT_mem (by rw [g9 x hx]; exact hv)

/-- The sift obligation for p at the current level, tracked through
the first loop: either the image of the base was already in the old
orbit, its Schreier generator was pushed to the lower level and sifts
to the identity there, or the image was freshly stored with entry
p⁻¹. -/
def FirstHandled (p : Perm) (base : Nat) (origT : Transversal)
    (st : IftSt) (newT : Transversal) : Prop :=
  (∃ u0, representativeRaw origT base (p.fwd base) = some u0 ∧
    isInGroup (st.chain.drop (st.current_pos + 1)) (p.mul u0.inv)
      = some true) ∨
  p.fwd base ∈ keysT newT

theorem collapse_single_inv_pointwise (q : Perm) :
    ∀ x, ((collapsePermWord [q]).inv).inv.fwd x = q.fwd x := by
  intro x
  simp [collapsePermWord]

theorem collapse_nil_inv_pointwise :
    ∀ x, ((collapsePermWord ([] : List Perm)).inv).fwd x = x := by
  intro x
  simp [collapsePermWord]

/-- The first loop of the update branch preserves the extension
invariants, keeps the collected block fresh, uniform and parented in
the old orbit, and discharges the sift obligation for p. -/
theorem iftFirstLoop_spec (ext : IftSt → Perm → Option IftSt)
    (hext : ExtSpec ext) (p : Perm) (base : Nat) (origT : Transversal)
    (hOw : WalkInvT origT base) (hOb : base ∈ keysT origT) :
    ∀ (toCheck : List Nat) (st : IftSt) (newT : Transversal)
      (out : IftSt × Transversal),
    iftFirstLoop ext p base origT toCheck st newT = some out →
    WfChain st.chain → st.current_pos + 1 ≤ st.chain.length →
    toCheck.Nodup → (∀ x ∈ toCheck, x ∈ keysT origT) →
    (∀ e ∈ newT, e.2 = p.inv) →
    (∀ k ∈ keysT newT, k ∉ keysT origT) →
    (∀ k ∈ keysT newT, p.inv.fwd k ∈ keysT origT) →
    (keysT newT).Nodup →
    (∀ x ∈ toCheck, p.fwd x ∉ keysT newT ∨ p.fwd x ∈ keysT origT) →
    (base ∈ toCheck ∨ FirstHandled p base origT st newT) →
    WfChain out.1.chain ∧ ExtChain st.chain out.1.chain ∧
      out.1.current_pos = st.current_pos ∧
      st.current_pos + 1 ≤ out.1.chain.length ∧
      (∀ e ∈ out.2, e.2 = p.inv) ∧
      (∀ k ∈ keysT out.2, k ∉ keysT origT) ∧
      (∀ k ∈ keysT out.2, p.inv.fwd k ∈ keysT origT) ∧
      (keysT out.2).Nodup ∧
      (∀ k ∈ keysT newT, k ∈ keysT out.2) ∧
      FirstHandled p base origT out.1 out.2 := by
  intro toCheck
  induction toCheck with
  | nil =>
    intro st newT out h hwf hpos _ _ hvals hdisj hpar hndn _ hhand
    simp only [iftFirstLoop, Option.some.injEq] at h
    rw [← h]
    refine ⟨hwf, extChain_refl _, rfl, hpos, hvals, hdisj, hpar, hndn,
      fun k hk => hk, ?_⟩
    rcases hhand with h2 | h2
    · simp at h2
    · exact h2
  | cons elem rest ih =>
    intro st newT out h hwf hpos htcnd htcm hvals hdisj hpar hndn hinv hhand
    simp only [iftFirstLoop] at h
    cases hrep : representativeRaw origT base elem with
    | none => rw [hrep] at h; simp at h
    | some orbitRepr =>
      rw [hrep] at h
      simp only [] at h
      by_cases hseen : (containsT origT (p.fwd elem)
          || containsT newT (p.fwd elem)) = true
      · rw [if_pos hseen] at h
        cases him : (representativeRaw origT base (p.fwd elem)).orElse
            (fun _ => representativeRaw newT base (p.fwd elem)) with
        | none => rw [him] at h; simp at h
        | some imageRepr =>
          rw [him] at h
          simp only [] at h
          cases hcall : ext st ((orbitRepr.mul p).mul imageRepr.inv) with
          | none => rw [hcall] at h; simp at h
          | some st3 =>
            rw [hcall] at h
            simp only [] at h
            obtain ⟨e1, e2, e3, e4, e5⟩ := hext _ _ _ hcall hwf hpos
            have hhand3 : base ∈ rest ∨ FirstHandled p base origT st3 newT := by
              by_cases helem : elem = base
              · subst helem
                right
                by_cases hco : containsT origT (p.fwd elem) = true
                · rcases walkWord_of_walkInv hOw (p.fwd elem)
                    (containsT_iff_mem.mp hco) with ⟨w, hww⟩
                  have hu0 : representativeRaw origT elem (p.fwd elem)
                      = some (collapsePermWord w).inv := by
                    unfold representativeRaw
                    rw [hww]
                  have himage : imageRepr = (collapsePermWord w).inv := by
                    rw [hu0] at him
                    simp [Option.orElse] at him
                    exact him.symm
                  left
                  refine ⟨imageRepr, himage ▸ hu0, ?_⟩
                  have horb : orbitRepr = (collapsePermWord []).inv := by
                    have : representativeRaw origT elem elem
                        = some (collapsePermWord []).inv := by
                      unfold representativeRaw
                      rw [walkWord_base]
                    rw [this] at hrep
                    exact (Option.some.injEq _ _ ▸ hrep).symm
                  have hpw : ∀ x,
                      ((orbitRepr.mul p).mul imageRepr.inv).fwd x
                        = (p.mul imageRepr.inv).fwd x := by
                    intro x
                    simp only [Perm.mul_fwd]
                    rw [horb]
                    rw [collapse_nil_inv_pointwise x]
                  rw [e3]
                  rw [← isInGroup_congr hpw]
                  exact e5
                · have hcn : containsT newT (p.fwd elem) = true := by
                    rcases Bool.or_eq_true_iff.mp hseen with h2 | h2
                    · exact absurd h2 hco
                    · exact h2
                  right
                  exact containsT_iff_mem.mp hcn
              · rcases hhand with h2 | h2
                · left
                  rcases List.mem_cons.mp h2 with h3 | h3
                  · exact absurd h3.symm helem
                  · exact h3
                · right
                  rcases h2 with ⟨u0, hu0, hsift⟩ | h3
                  · left
                    refine ⟨u0, hu0, ?_⟩
                    rw [e3]
                    exact isInGroup_stable (extChain_drop _ e2)
                      (wfChain_drop _ e1) hsift
                  · right
                    exact h3
            obtain ⟨w1, w2, w3, w4, w5, w6, w7, w8, w9, w10⟩ :=
              ih st3 newT out h e1 (by rw [e3]; exact e4)
                (List.Nodup.of_cons htcnd)
                (fun x hx => htcm x (List.mem_cons_of_mem _ hx))
                hvals hdisj hpar hndn
                (fun x hx => hinv x (List.mem_cons_of_mem _ hx))
                (by
                  rcases hhand3 with h2 | h2
                  · exact Or.inl h2
                  · exact Or.inr h2)
            refine ⟨w1, extChain_trans _ _ _ e2 w2, by rw [w3]; exact e3,
              by rw [← e3]; exact w4, w5, w6, w7, w8, w9, ?_⟩
            rcases w10 with ⟨u0, hu0, hsift⟩ | h2
            · exact Or.inl ⟨u0, hu0, hsift⟩
            · exact Or.inr h2
      · rw [if_neg (by simpa using Bool.eq_false_iff.mpr hseen)] at h
        have hno : p.fwd elem ∉ keysT origT := by
          intro hmem
          exact hseen (Bool.or_eq_true_iff.mpr
            (Or.inl (containsT_iff_mem.mpr hmem)))
        have hnn : p.fwd elem ∉ keysT newT := by
          intro hmem
          exact hseen (Bool.or_eq_true_iff.mpr
            (Or.inr (containsT_iff_mem.mpr hmem)))
        rw [insertT_eq_append hnn] at h
        have hvals2 : ∀ e ∈ newT ++ [(p.fwd elem, p.inv)], e.2 = p.inv := by
          intro e he
          rcases List.mem_append.mp he with h2 | h2
          · exact hvals e h2
          · simp at h2
            rw [h2]
        have hdisj2 : ∀ k ∈ keysT (newT ++ [(p.fwd elem, p.inv)]),
            k ∉ keysT origT := by
          intro k hk
          rw [keysT_append] at hk
          rcases List.mem_append.mp hk with h2 | h2
          · exact hdisj k h2
          · simp [keysT] at h2
            rw [h2]
            exact hno
        have hpar2 : ∀ k ∈ keysT (newT ++ [(p.fwd elem, p.inv)]),
            p.inv.fwd k ∈ keysT origT := by
          intro k hk
          rw [keysT_append] at hk
          rcases List.mem_append.mp hk with h2 | h2
          · exact hpar k h2
          · simp [keysT] at h2
            rw [h2]
            show p.bwd (p.fwd elem) ∈ keysT origT
            rw [p.bwd_fwd]
            exact htcm elem (List.mem_cons_self _ _)
        have hndn2 : (keysT (newT ++ [(p.fwd elem, p.inv)])).Nodup := by
          rw [keysT_append]
          refine List.Nodup.append hndn (by simp [keysT]) ?_
          intro a ha hb
          simp [keysT] at hb
          exact hnn (hb ▸ ha)
        have hinv2 : ∀ x ∈ rest,
            p.fwd x ∉ keysT (newT ++ [(p.fwd elem, p.inv)]) ∨
              p.fwd x ∈ keysT origT := by
          intro x hx
          rcases hinv x (List.mem_cons_of_mem _ hx) with h2 | h2
          · left
            rw [keysT_append]
            intro hmem
            rcases List.mem_append.mp hmem with h3 | h3
            · exact h2 h3
            · simp [keysT] at h3
              have := p.fwd_inj h3
              rw [this] at hx
              exact (List.nodup_cons.mp htcnd).1 hx
          · right
            exact h2
        have hhand2 : base ∈ rest ∨
            FirstHandled p base origT st (newT ++ [(p.fwd elem, p.inv)]) := by
          by_cases helem : elem = base
          · subst helem
            right
            right
            rw [keysT_append]
            exact List.mem_append_right _ (by simp [keysT])
          · rcases hhand with h2 | h2
            · left
              rcases List.mem_cons.mp h2 with h3 | h3
              · exact absurd h3.symm helem
              · exact h3
            · right
              rcases h2 with ⟨u0, hu0, hsift⟩ | h3
              · exact Or.inl ⟨u0, hu0, hsift⟩
              · right
                rw [keysT_append]
                exact List.mem_append_left _ h3
        obtain ⟨w1, w2, w3, w4, w5, w6, w7, w8, w9, w10⟩ :=
          ih st _ out h hwf hpos (List.Nodup.of_cons htcnd)
            (fun x hx => htcm x (List.mem_cons_of_mem _ hx))
            hvals2 hdisj2 hpar2 hndn2 hinv2 hhand2
        refine ⟨w1, w2, w3, w4, w5, w6, w7, w8, ?_, w10⟩
        intro k hk
        exact w9 k (by rw [keysT_append]; exact List.mem_append_left _ hk)

theorem repr_mem {t : Transversal} {base x : Nat} {u : Perm}
    (h : representativeRaw t base x = some u) (hx : x ≠ base) :
    x ∈ keysT t := by
  unfold representativeRaw at h
  cases hw : walkWord (t.length + 1) t base x with
  | none => rw [hw] at h; exact absurd h (by simp)
  | some w =>
    rcases walkWord_elim hw with ⟨h2, _⟩ | ⟨_, g, w0, hl, _, _⟩
    · exact absurd h2 hx
    · exact lookupT_mem hl

theorem two_le_length_of_two_mem {α : Type} {l : List α} {x y : α}
    (hx : x ∈ l) (hy : y ∈ l) (hne : x ≠ y) : 2 ≤ l.length := by
  cases l with
  | nil => simp at hx
  | cons a l2 =>
    cases l2 with
    | nil =>
      simp at hx hy
      rw [hx, hy] at hne
      exact absurd rfl hne
    | cons b l3 => simp [Nat.succ_le_succ, Nat.le_add_left]

theorem drop_eq_cons_of_getElem {α : Type} {l : List α} {n : Nat} {a : α}
    (h : getElem? l n = some a) : l.drop n = a :: l.drop (n + 1) := by
  induction l generalizing n with
  | nil => simp at h
  | cons x xs ih =>
    cases n with
    | zero =>
      simp only [List.getElem?_cons_zero, Option.some.injEq] at h
      simp [h]
    | succ n =>
      simp only [List.getElem?_cons_succ] at h
      simpa using ih h

theorem drop_set_eq_cons {α : Type} {l : List α} {n : Nat}
    (h : n < l.length) (a : α) :
    (l.set n a).drop n = a :: l.drop (n + 1) := by
  induction l generalizing n with
  | nil => simp at h
  | cons x xs ih =>
    cases n with
    | zero => simp
    | succ n =>
      simp only [List.set_cons_succ, List.drop_succ_cons]
      exact ih (by simpa using h)

theorem length_keysT {β : Type} (t : List (Nat × β)) :
    (keysT t).length = t.length := by
  simp [keysT]

/-- extend_inner keeps the chain well-formed, extends it in place,
restores the position, and makes its argument sift to the identity
through the part of the chain below the current position. -/
theorem extendInner_spec (sel : Perm → Nat → Nat) :
    ∀ (fuel : Nat) (st : IftSt) (p : Perm) (st2 : IftSt),
    extendInner sel fuel st p = some st2 →
    WfChain st.chain → st.current_pos ≤ st.chain.length →
    WfChain st2.chain ∧ ExtChain st.chain st2.chain ∧
      st2.current_pos = st.current_pos ∧
      st.current_pos ≤ st2.chain.length ∧
      isInGroup (st2.chain.drop st.current_pos) p = some true := by
  intro fuel
  induction fuel with
  | zero =>
    intro st p st2 h
    simp [extendInner] at h
  | succ fuel ih =>
    intro st p st2 h hwf hpos
    simp only [extendInner] at h
    set ext0 : IftSt → Perm → Option IftSt := fun s q =>
      match extendInner sel fuel
          { s with current_pos := s.current_pos + 1 } q with
      | none => none
      | some s2 => some { s2 with current_pos := s2.current_pos - 1 }
      with hext0def
    have hext : ExtSpec ext0 := by
      intro s q s2 hrun hwfs hposs
      have hrun2 : (match extendInner sel fuel
          { s with current_pos := s.current_pos + 1 } q with
        | none => none
        | some s3 => some { s3 with current_pos := s3.current_pos - 1 })
          = some s2 := hrun
      cases hrec : extendInner sel fuel
          { s with current_pos := s.current_pos + 1 } q with
      | none => rw [hrec] at hrun2; simp at hrun2
      | some s3 =>
        rw [hrec] at hrun2
        simp only [Option.some.injEq] at hrun2
        obtain ⟨w1, w2, w3, w4, w5⟩ := ih _ q s3 hrec hwfs hposs
        rw [← hrun2]
        refine ⟨w1, w2, ?_, w4, w5⟩
        show s3.current_pos - 1 = s.current_pos
        have : s3.current_pos = s.current_pos + 1 := w3
        omega
    cases hig : isInGroup (st.chain.drop st.current_pos) p with
    | none => rw [hig] at h; simp at h
    | some b =>
      rw [hig] at h
      cases b with
      | true =>
        simp only [Option.some.injEq] at h
        rw [← h]
        exact ⟨hwf, extChain_refl _, rfl, hpos, hig⟩
      | false =>
        simp only [] at h
        by_cases hbot : st.current_pos = st.chain.length
        · rw [if_pos hbot] at h
          by_cases hmv : p.fwd (sel p st.current_pos) = sel p st.current_pos
          · rw [if_pos hmv] at h
            simp at h
          · rw [if_neg hmv] at h
            cases hbo : bottomOrbitLoop p (sel p st.current_pos) fuel
                (p.fwd (sel p st.current_pos)) p
                [(sel p st.current_pos, Perm.id)] with
            | none => rw [hbo] at h; simp at h
            | some res =>
              rw [hbo] at h
              simp only [] at h
              cases fuel with
              | zero => simp [bottomOrbitLoop] at hbo
              | succ f =>
                rw [bottomOrbitLoop_succ, if_neg hmv] at hbo
                have hα : p.fwd (sel p st.current_pos)
                    ∉ keysT [(sel p st.current_pos, Perm.id)] := by
                  simp [keysT]
                  exact hmv
                rw [insertT_eq_append hα] at hbo
                have hw1 : WalkInvT
                    ([(sel p st.current_pos, Perm.id)]
                      ++ [(p.fwd (sel p st.current_pos), p.inv)])
                    (sel p st.current_pos) := by
                  refine walkInvT_append ⟨fun _ => 0, ?_, ?_⟩ ?_ ?_
                  · intro α hα2
                    simp [keysT]
                  · intro α hα2 hne
                    simp [keysT] at hα2
                    exact absurd hα2 hne
                  · intro e he
                    simp at he
                    rw [he]
                    exact hα
                  · intro e he
                    simp at he
                    rw [he]
                    show p.bwd (p.fwd (sel p st.current_pos)) ∈ _
                    rw [p.bwd_fwd]
                    simp [keysT]
                obtain ⟨b1, b2, b3, b4, b5⟩ :=
                  bottomOrbitLoop_spec p (sel p st.current_pos) f _ _ _ res
                    hbo (by simp [keysT])
                    (by simp [keysT]; exact fun h2 => hmv h2.symm)
                    hw1
                    (by
                      show p.bwd (p.fwd (p.fwd (sel p st.current_pos))) ∈ _
                      rw [p.bwd_fwd]
                      simp [keysT])
                have hlook : lookupT res.1 (p.fwd (sel p st.current_pos))
                    = some p.inv := by
                  rw [b5 _ (by simp [keysT])]
                  simp [lookupT]
                  intro h2
                  exact absurd h2.symm hmv
                have hwrec : WfRec
                    { base := sel p st.current_pos, gens := [p]
                      transversal := res.1 } := ⟨b1, b2, b3⟩
                have hwf1 : WfChain (st.chain ++
                    [{ base := sel p st.current_pos, gens := [p]
                       transversal := res.1 }]) := by
                  intro r hr
                  rcases List.mem_append.mp hr with h2 | h2
                  · exact hwf r h2
                  · simp at h2
                    rw [h2]
                    exact hwrec
                obtain ⟨e1, e2, e3, e4, e5⟩ :=
                  hext { st with chain := st.chain ++
                      [{ base := sel p st.current_pos, gens := [p]
                         transversal := res.1 }] } res.2 st2 h hwf1
                    (by simp [List.length_append]; omega)
                have e4b : st.current_pos + 1 ≤ st2.chain.length := e4
                refine ⟨e1, extChain_trans _ _ _ (extChain_append _ _) e2,
                  e3, by omega, ?_⟩
                have hg1 : getElem? (st.chain ++
                    [{ base := sel p st.current_pos, gens := [p]
                       transversal := res.1 }]) st.current_pos
                    = some { base := sel p st.current_pos, gens := [p]
                             transversal := res.1 } := by
                  rw [hbot]
                  exact List.getElem?_concat_length _ _
                obtain ⟨record2, hg2, hrec2⟩ := extChain_getElem _ e2 hg1
                rw [drop_eq_cons_of_getElem hg2]
                have hb2 : record2.base = sel p st.current_pos := hrec2.1
                have hα2 : lookupT record2.transversal
                    (p.fwd (sel p st.current_pos)) = some p.inv := by
                  rw [hrec2.2.2 _ (lookupT_mem hlook)]
                  exact hlook
                have hmem2 : sel p st.current_pos ∈ keysT record2.transversal := by
                  rcases Option.isSome_iff_exists.mp (mem_keysT_isSome b1)
                    with ⟨v, hv⟩
                  exact lookupT_mem (by rw [hrec2.2.2 _ b1]; exact hv)
                have hlen2 : 2 ≤ record2.transversal.length := by
                  have := two_le_length_of_two_mem (lookupT_mem hα2) hmem2
                    (fun h2 => hmv h2)
                  rw [length_keysT] at this
                  exact this
                have hwalk2 : walkWord (record2.transversal.length + 1)
                    record2.transversal (sel p st.current_pos)
                    (p.fwd (sel p st.current_pos)) = some [p.inv] := by
                  obtain ⟨n, hn⟩ : ∃ n, record2.transversal.length = n + 2 :=
                    ⟨record2.transversal.length - 2, by omega⟩
                  rw [hn]
                  refine walkWord_step hmv hα2 ?_
                  have hback : p.inv.fwd (p.fwd (sel p st.current_pos))
                      = sel p st.current_pos := p.bwd_fwd _
                  rw [hback]
                  exact walkWord_base
                have hrepr2 : representativeRaw record2.transversal
                    (sel p st.current_pos) (p.fwd (sel p st.current_pos))
                    = some (collapsePermWord [p.inv]).inv := by
                  unfold representativeRaw
                  rw [hwalk2]
                have hcont2 : containsT record2.transversal
                    (p.fwd record2.base) = true := by
                  rw [hb2]
                  exact containsT_iff_mem.mpr (lookupT_mem hα2)
                have hrepr2b : representativeRaw record2.transversal
                    record2.base (p.fwd record2.base)
                    = some (collapsePermWord [p.inv]).inv := by
                  rw [hb2]
                  exact hrepr2
                rw [isInGroup_cons_found hcont2 hrepr2b]
                refine isInGroup_of_pointwise_id (wfChain_drop _ e1) ?_
                intro x
                show ((collapsePermWord [p.inv]).inv).inv.fwd (p.fwd x) = x
                rw [collapse_single_inv_pointwise p.inv (p.fwd x)]
                exact p.bwd_fwd x
        · rw [if_neg hbot] at h
          have hposC : st.current_pos + 1 ≤ st.chain.length := by omega
          cases hgr : getElem? st.chain st.current_pos with
          | none => rw [hgr] at h; simp at h
          | some record =>
            rw [hgr] at h
            simp only [] at h
            have hrecmem : record ∈ st.chain := by
              have hlt : st.current_pos < st.chain.length := by omega
              have := List.getElem?_eq_getElem hlt
              rw [this] at hgr
              simp only [Option.some.injEq] at hgr
              rw [← hgr]
              exact List.getElem_mem _
            obtain ⟨hOb, hOnd, hOw⟩ := hwf record hrecmem
            cases hfl : iftFirstLoop ext0 p record.base record.transversal
                (keysT record.transversal).reverse st [] with
            | none => rw [hfl] at h; simp at h
            | some res1 =>
              rw [hfl] at h
              simp only [] at h
              cases hsl : iftSecondLoop ext0 p record.base record.gens fuel
                  res1.1 (record.transversal ++ res1.2)
                  (keysT res1.2).reverse with
              | none => rw [hsl] at h; simp at h
              | some res2 =>
                rw [hsl] at h
                simp only [Option.some.injEq] at h
                obtain ⟨f1, f2, f3, f4, f5, f6, f7, f8, f9, f10⟩ :=
                  iftFirstLoop_spec ext0 hext p record.base
                    record.transversal hOw hOb _ st [] res1 hfl hwf hposC
                    (List.nodup_reverse.mpr hOnd)
                    (fun x hx => List.mem_reverse.mp hx)
                    (by simp)
                    (by simp [keysT])
                    (by simp [keysT])
                    (by simp [keysT])
                    (fun x _ => Or.inl (by simp [keysT]))
                    (Or.inl (List.mem_reverse.mpr hOb))
                have hfreshm : ∀ e ∈ res1.2, e.1 ∉ keysT record.transversal := by
                  intro e he
                  exact f6 e.1 (by simp [keysT]; exact ⟨e.2, he⟩)
                have hparm : ∀ e ∈ res1.2,
                    e.2.fwd e.1 ∈ keysT record.transversal := by
                  intro e he
                  rw [f5 e he]
                  exact f7 e.1 (by simp [keysT]; exact ⟨e.2, he⟩)
                have hmw : WalkInvT (record.transversal ++ res1.2)
                    record.base := walkInvT_append hOw hfreshm hparm
                have hmb : record.base ∈ keysT (record.transversal ++ res1.2) := by
                  rw [keysT_append]
                  exact List.mem_append_left _ hOb
                have hmnd : (keysT (record.transversal ++ res1.2)).Nodup := by
                  rw [keysT_append]
                  refine List.Nodup.append hOnd f8 ?_
                  intro a ha hb
                  exact f6 a hb ha
                obtain ⟨s1, s2, s3, s4, s5, s6, s7, s8, s9⟩ :=
                  iftSecondLoop_spec ext0 hext p record.base record.gens fuel
                    res1.1 _ _ res2 hsl f1 (by rw [f3]; exact f4)
                    hmb hmnd hmw
                    (by
                      intro x hx
                      rw [keysT_append]
                      exact List.mem_append_right _ (List.mem_reverse.mp hx))
                have hsup : ∀ y ∈ keysT (record.transversal ++ res1.2),
                    y ∈ keysT res2.2 := by
                  intro y hy
                  rcases Option.isSome_iff_exists.mp (mem_keysT_isSome hy)
                    with ⟨v, hv⟩
                  exact lookupT_mem (by rw [s9 y hy]; exact hv)
                have hstab : ∀ y ∈ keysT record.transversal,
                    lookupT res2.2 y = lookupT record.transversal y := by
                  intro y hy
                  have hy2 : y ∈ keysT (record.transversal ++ res1.2) := by
                    rw [keysT_append]
                    exact List.mem_append_left _ hy
                  rw [s9 y hy2]
                  exact lookupT_append_left hy
                have hlenmono : record.transversal.length ≤ res2.2.length := by
                  calc record.transversal.length
                      ≤ (record.transversal ++ res1.2).length := by simp
                    _ ≤ res2.2.length := s8
                have hExtRec : ExtRec record
                    { base := record.base, gens := p :: record.gens
                      transversal := res2.2 } := ⟨rfl, hlenmono, hstab⟩
                have hposlt : st.current_pos < res2.1.chain.length := by
                  have h4 : res1.1.current_pos + 1 ≤ res2.1.chain.length := s4
                  rw [f3] at h4
                  omega
                rw [← h]
                refine ⟨?_, ?_, ?_, ?_, ?_⟩
                · intro r hr
                  rcases List.mem_or_eq_of_mem_set hr with h2 | h2
                  · exact s1 r h2
                  · rw [h2]
                    exact ⟨hsup _ hmb, s6, s7⟩
                · exact extChain_set _ (extChain_trans _ _ _ f2 s2) hgr hExtRec
                · show res2.1.current_pos = st.current_pos
                  rw [s3, f3]
                · show st.current_pos ≤ (res2.1.chain.set _ _).length
                  rw [List.length_set]
                  omega
                · show isInGroup ((res2.1.chain.set st.current_pos
                    { base := record.base, gens := p :: record.gens
                      transversal := res2.2 }).drop st.current_pos) p
                    = some true
                  rw [drop_set_eq_cons hposlt]
                  rcases f10 with ⟨u0, hu0, hsift⟩ | hmemN
                  · have hsift1 : isInGroup
                        (res1.1.chain.drop (st.current_pos + 1))
                        (p.mul u0.inv) = some true := by
                      rw [← f3]
                      exact hsift
                    have hsift2 : isInGroup
                        (res2.1.chain.drop (st.current_pos + 1))
                        (p.mul u0.inv) = some true :=
                      isInGroup_stable (extChain_drop _ s2)
                        (wfChain_drop _ s1) hsift1
                    have hufinal : representativeRaw res2.2 record.base
                        (p.fwd record.base) = some u0 :=
                      representativeRaw_stable hstab hlenmono hu0
                    have hcontf : p.fwd record.base ∈ keysT res2.2 := by
                      by_cases hab : p.fwd record.base = record.base
                      · rw [hab]
                        exact hsup _ hmb
                      · exact hsup _ (by
                          rw [keysT_append]
                          exact List.mem_append_left _ (repr_mem hu0 hab))
                    rw [isInGroup_cons_found
                      (containsT_iff_mem.mpr hcontf) hufinal]
                    exact hsift2
                  · have hαno : p.fwd record.base ∉ keysT record.transversal :=
                      f6 _ hmemN
                    have hαb : p.fwd record.base ≠ record.base := by
                      intro he
                      apply hαno
                      rw [he]
                      exact hOb
                    have hlm : lookupT (record.transversal ++ res1.2)
                        (p.fwd record.base) = some p.inv := by
                      rw [lookupT_append_right hαno]
                      rcases Option.isSome_iff_exists.mp
                        (mem_keysT_isSome hmemN) with ⟨v, hv⟩
                      have hv2 : v = p.inv := f5 (p.fwd record.base, v)
                        (lookupT_some_mem_pairs hv)
                      rw [hv, hv2]
                    have hlf : lookupT res2.2 (p.fwd record.base)
                        = some p.inv := by
                      rw [s9 _ (by
                        rw [keysT_append]
                        exact List.mem_append_right _ hmemN)]
                      exact hlm
                    have hlen1 : 1 ≤ res2.2.length := by
                      have := hsup _ hmb
                      have h2 : res2.2 ≠ [] := by
                        intro h3
                        rw [h3] at this
                        simp at this
                      exact List.length_pos.mpr h2
                    have hwalkf : walkWord (res2.2.length + 1) res2.2
                        record.base (p.fwd record.base) = some [p.inv] := by
                      obtain ⟨n, hn⟩ : ∃ n, res2.2.length = n + 1 :=
                        ⟨res2.2.length - 1, by omega⟩
                      rw [hn]
                      refine walkWord_step hαb hlf ?_
                      have hback : p.inv.fwd (p.fwd record.base)
                          = record.base := p.bwd_fwd _
                      rw [hback]
                      exact walkWord_base
                    have hufinal : representativeRaw res2.2 record.base
                        (p.fwd record.base)
                        = some (collapsePermWord [p.inv]).inv := by
                      unfold representativeRaw
                      rw [hwalkf]
                    rw [isInGroup_cons_found
                      (containsT_iff_mem.mpr (lookupT_mem hlf)) hufinal]
                    refine isInGroup_of_pointwise_id (wfChain_drop _ s1) ?_
                    intro x
                    show ((collapsePermWord [p.inv]).inv).inv.fwd (p.fwd x) = x
                    rw [collapse_single_inv_pointwise p.inv (p.fwd x)]
                    exact p.bwd_fwd x

/-- set_generators keeps the chain well-formed and extended, and
every processed generator sifts to the identity through the final
chain. -/
theorem setGenerators_spec (sel : Perm → Nat → Nat) (fuel : Nat) :
    ∀ (gens : List Perm) (st st2 : IftSt),
    setGenerators sel fuel gens st = some st2 → WfChain st.chain →
    WfChain st2.chain ∧ ExtChain st.chain st2.chain ∧
      ∀ g ∈ gens, isInGroup st2.chain g = some true := by
  intro gens
  induction gens with
  | nil =>
    intro st st2 h hwf
    simp only [setGenerators, Option.some.injEq] at h
    rw [← h]
    exact ⟨hwf, extChain_refl _, by simp⟩
  | cons g gs ih =>
    intro st st2 h hwf
    simp only [setGenerators] at h
    cases hrun : extendInner sel fuel { st with current_pos := 0 } g with
    | none => rw [hrun] at h; simp at h
    | some st1 =>
      rw [hrun] at h
      simp only [] at h
      obtain ⟨w1, w2, _, _, w5⟩ := extendInner_spec sel fuel _ g st1 hrun
        hwf (Nat.zero_le _)
      obtain ⟨v1, v2, v3⟩ := ih st1 st2 h w1
      refine ⟨v1, extChain_trans _ _ _ w2 v2, ?_⟩
      intro g2 hg2
      rcases List.mem_cons.mp hg2 with h2 | h2
      · rw [h2]
        have w5b : isInGroup st1.chain g = some true := by
          have h3 : isInGroup (st1.chain.drop 0) g = some true := w5
          rw [List.drop_zero] at h3
          exact h3
        exact isInGroup_stable v2 v1 w5b
      · exact v3 g2 h2

/-- C1: after the IFT builder's set_generators absorbs every input
generator through extend_inner from level zero, every input generator
sifts to the identity through the resulting chain — the membership
round-trip that makes the chain a BSGS certificate for the absorbed
generators. -/
theorem c1_set_generators_sift (sel : Perm → Nat → Nat) (fuel : Nat)
    (gens : List Perm) (st2 : IftSt)
    (h : setGenerators sel fuel gens iftInit = some st2) :
    ∀ g ∈ gens, isInGroup st2.chain g = some true :=
  (setGenerators_spec sel fuel gens iftInit st2 h
    (by intro r hr; simp [iftInit] at hr)).2.2

/-- The state built by the witness run of the IFT builder on the
single transposition (0 1). -/
def c1OutW : IftSt :=
  { current_pos := 0
    chain := [{ base := 0, gens := [swap01]
                transversal := [(0, Perm.id), (1, swap01.inv)] }] }

theorem c1_set_generators_sift_witness :
    isInGroup c1OutW.chain swap01 = some true :=
  c1_set_generators_sift (fun _ _ => 0) 3 [swap01] c1OutW (by rfl) swap01
    (by simp)

end StabchainSpec
